import Mathlib

/-!
Verification of an intrusive doubly-linked list (`intrusive_list.h`).

The heap of link nodes is modelled as a total function from addresses
(`Nat`, with `0` playing the role of `nullptr`) to nodes holding a
`prev`/`next` address pair.  Every C++ statement of the source is
translated in order, so aliasing between reads and writes is preserved
exactly.  A list is a sentinel address `s` whose ring contains the member
addresses in order; `isRing h s m` states that the cyclic chain
`s :: m` is doubly linked in heap `h`.
-/

set_option maxHeartbeats 1000000

namespace intrusive

/-- Link node: the `prev`/`next` pointer pair of `base_list_element`.
Address `0` stands for `nullptr`. -/
structure Node where
  prev : Nat
  next : Nat
deriving DecidableEq, Repr

/-- The heap: a total map from addresses to link nodes. -/
abbrev Heap := Nat → Node

/-- Pointwise update of the heap at one address. -/
def Heap.set (h : Heap) (a : Nat) (v : Node) : Heap :=
  fun x => if x = a then v else h x

/-- Write the `next` field of the node at `a` (C++ `a->next = t`). -/
def Heap.setNext (h : Heap) (a t : Nat) : Heap :=
  h.set a ⟨(h a).prev, t⟩

/-- Write the `prev` field of the node at `a` (C++ `a->prev = t`). -/
def Heap.setPrev (h : Heap) (a t : Nat) : Heap :=
  h.set a ⟨t, (h a).next⟩

theorem Heap.set_apply (h : Heap) (a : Nat) (v : Node) (x : Nat) :
    Heap.set h a v x = if x = a then v else h x := rfl

/-- `base_list_element::unlink`: clear both references. -/
def unlink (h : Heap) (a : Nat) : Heap := h.set a ⟨0, 0⟩

/-- `base_list_element::remove`: bridge the two neighbours and clear the
node; returns the new heap paired with the old `next` pointer
(`res`). -/
def remove (h : Heap) (a : Nat) : Heap × Nat :=
  let res := (h a).next
  let h1 := h.setNext (h a).prev (h a).next
  let h2 := h1.setPrev (h1 a).next (h1 a).prev
  (unlink h2 a, res)

/-- `base_list_element::is_linked`: true iff `prev` is non-null. -/
def is_linked (h : Heap) (a : Nat) : Bool := (h a).prev != 0

/-- `base_list_element::tie`: make the node a one-element self loop. -/
def tie (h : Heap) (a : Nat) : Heap := h.set a ⟨a, a⟩

/-- `base_list_element`'s move constructor: `src` is the moved-from node,
`dst` the node being constructed.  Each C++ statement is applied in
order, re-reading the current heap exactly as the source does. -/
def base_move (h : Heap) (src dst : Nat) : Heap :=
  let h1 := if (h src).prev ≠ 0 then h.setNext (h src).prev dst else h
  let h2 := if (h1 src).next ≠ 0 then h1.setPrev (h1 src).next dst else h1
  let h3 := h2.setNext dst (h2 src).next
  let h4 := h3.setPrev dst (h3 src).prev
  unlink h4 src

/-- `base_list_element`'s destructor: remove if still linked, then
unlink. -/
def base_destruct (h : Heap) (a : Nat) : Heap :=
  let h1 := if is_linked h a then (remove h a).1 else h
  unlink h1 a

/-- The four raw link writes at the end of `list::insert_after`
(`first->next = second; second->prev = first; second->next = third;
third->prev = second`). -/
def link4 (h : Heap) (first second third : Nat) : Heap :=
  (((h.setNext first second).setPrev second first).setNext second third).setPrev third second

/-- `list::insert_after`: reads `third` first, detaches `second` if it is
linked, then splices it between `first` and `third`.  Returns the new
heap and the iterator (`second`). -/
def insert_after (h : Heap) (first second : Nat) : Heap × Nat :=
  let third := (h first).next
  let h1 := if is_linked h second then (remove h second).1 else h
  (link4 h1 first second third, second)

/-- `list::erase`: `element.ptr->remove()`, returning the follower. -/
def erase (h : Heap) (a : Nat) : Heap × Nat := remove h a

/-- `list::insert`: the no-op guard `second == third || second ==
third->prev`, otherwise `insert_after(third->prev, second)`. -/
def insert (h : Heap) (pos e : Nat) : Heap × Nat :=
  if e = pos ∨ e = (h pos).prev then (h, e)
  else ((insert_after h ((h pos).prev) e).1, e)

/-- `list::empty`: `begin() == end()`. -/
def empty (h : Heap) (s : Nat) : Bool := (h s).next == s

/-- `list::push_back`: `insert(end(), object)`. -/
def push_back (h : Heap) (s e : Nat) : Heap := (insert h s e).1

/-- `list::push_front`: `insert(begin(), object)`. -/
def push_front (h : Heap) (s e : Nat) : Heap := (insert h ((h s).next) e).1

/-- `list::pop_back`: `erase(--end())`. -/
def pop_back (h : Heap) (s : Nat) : Heap := (erase h ((h s).prev)).1

/-- `list::pop_front`: `erase(begin())`. -/
def pop_front (h : Heap) (s : Nat) : Heap := (erase h ((h s).next)).1

/-- `list::splice(position, list&, begin, end)`.  The `list&` argument is
unnamed and unused in the source; it is kept here as the (ignored)
parameter `other`. -/
def splice (h : Heap) (pos other first second : Nat) : Heap :=
  if first = second then h
  else
    let last := (h second).prev
    let h1 := h.setNext ((h first).prev) second
    let h2 := h1.setPrev second ((h1 first).prev)
    let h3 := h2.setNext ((h2 pos).prev) first
    let h4 := h3.setPrev first ((h3 pos).prev)
    let h5 := h4.setNext last pos
    h5.setPrev pos last

/-- `list::move(list&& other)`: `s` is this list's sentinel, `os` the
source list's sentinel. -/
def list_move (h : Heap) (s os : Nat) : Heap :=
  if empty h os then tie h s
  else
    let last := (h os).prev
    let h1 := (remove h os).1
    let h2 := (insert_after h1 last s).1
    tie h2 os

/-- Forward iteration: follow `next` from `cur` until the sentinel `s`
is reached (`fuel` bounds the walk so the function is total). -/
def traverse (h : Heap) (s : Nat) : Nat → Nat → List Nat
  | _, 0 => []
  | cur, fuel + 1 => if cur = s then [] else cur :: traverse h s ((h cur).next) fuel

/-- Iteration from `begin()` to `end()`. -/
def iterate (h : Heap) (s fuel : Nat) : List Nat :=
  traverse h s ((h s).next) fuel

/-- Chain of pointer links: starting at `cur`, following the field `f`
visits exactly the addresses in `l` and then arrives at `stop`. -/
def seg (f : Node → Nat) (h : Heap) (stop : Nat) : Nat → List Nat → Prop
  | cur, [] => f (h cur) = stop
  | cur, e :: rest => f (h cur) = e ∧ seg f h stop e rest

instance segDec (f : Node → Nat) (h : Heap) (stop : Nat) :
    (cur : Nat) → (l : List Nat) → Decidable (seg f h stop cur l)
  | _, [] => inferInstanceAs (Decidable (_ = _))
  | _, e :: rest =>
    letI := segDec f h stop e rest
    inferInstanceAs (Decidable (_ ∧ _))

/-- The cyclic chain `s :: m` is doubly linked: `next` goes
`s, m…, s` and `prev` goes the reverse way. -/
def isRing (h : Heap) (s : Nat) (m : List Nat) : Prop :=
  seg Node.next h s s m ∧ seg Node.prev h s s m.reverse

instance (h : Heap) (s : Nat) (m : List Nat) : Decidable (isRing h s m) :=
  inferInstanceAs (Decidable (_ ∧ _))

/-- A well-formed list state: the ring is linked, the sentinel and
members are pairwise distinct, and no ring address is null. -/
def Valid (h : Heap) (s : Nat) (m : List Nat) : Prop :=
  isRing h s m ∧ (s :: m).Nodup ∧ 0 ∉ s :: m

instance (h : Heap) (s : Nat) (m : List Nat) : Decidable (Valid h s m) :=
  inferInstanceAs (Decidable (_ ∧ _))

/-! ### List helpers -/

theorem headD_mem_cons (l : List Nat) (d : Nat) : l.headD d ∈ d :: l := by
  cases l <;> simp

theorem headD_reverse (l : List Nat) (d : Nat) : l.reverse.headD d = l.getLastD d := by
  rw [List.headD_eq_head?, List.head?_reverse, List.getLastD_eq_getLast?]

theorem getLastD_reverse (l : List Nat) (d : Nat) : l.reverse.getLastD d = l.headD d := by
  rw [List.getLastD_eq_getLast?, List.getLast?_reverse, List.headD_eq_head?]

/-- Abstract insertion of `e` immediately before the first occurrence of
`p`; if `p` does not occur, `e` is appended at the end (used with `p`
the sentinel). -/
def insertBefore : List Nat → Nat → Nat → List Nat
  | [], _, e => [e]
  | x :: t, p, e => if x = p then e :: x :: t else x :: insertBefore t p e

/-- Abstract removal of the first occurrence of an address. -/
def rmOne : List Nat → Nat → List Nat
  | [], _ => []
  | x :: t, a => if x = a then t else x :: rmOne t a

/-- Abstract effect of `list::insert` on the member sequence. -/
def minsert (m : List Nat) (pos e : Nat) : List Nat :=
  if e = pos then m else insertBefore (rmOne m e) pos e

theorem rmOne_not_mem {l : List Nat} {a : Nat} (h : a ∉ l) : rmOne l a = l := by
  induction l with
  | nil => rfl
  | cons x t ih =>
    simp only [List.mem_cons, not_or] at h
    simp [rmOne, Ne.symm h.1, ih h.2]

theorem rmOne_split {xs ys : List Nat} {a : Nat} (h : a ∉ xs) :
    rmOne (xs ++ a :: ys) a = xs ++ ys := by
  induction xs with
  | nil => simp [rmOne]
  | cons x t ih =>
    simp only [List.mem_cons, not_or] at h
    simp [rmOne, Ne.symm h.1, ih h.2]

theorem insertBefore_not_mem {l : List Nat} {p : Nat} (e : Nat) (h : p ∉ l) :
    insertBefore l p e = l ++ [e] := by
  induction l with
  | nil => rfl
  | cons x t ih =>
    simp only [List.mem_cons, not_or] at h
    simp [insertBefore, Ne.symm h.1, ih h.2]

theorem insertBefore_split {l1 l2 : List Nat} {p : Nat} (e : Nat) (h : p ∉ l1) :
    insertBefore (l1 ++ p :: l2) p e = l1 ++ e :: p :: l2 := by
  induction l1 with
  | nil => simp [insertBefore]
  | cons x t ih =>
    simp only [List.mem_cons, not_or] at h
    simp [insertBefore, Ne.symm h.1, ih h.2]

/-! ### Segment toolkit -/

theorem seg_head {f : Node → Nat} {h : Heap} {stop cur : Nat} {l : List Nat}
    (hs : seg f h stop cur l) : f (h cur) = l.headD stop := by
  cases l with
  | nil => simpa [seg] using hs
  | cons e rest => simpa [seg] using hs.1

theorem seg_getLast {f : Node → Nat} {h : Heap} {stop : Nat} :
    ∀ {cur : Nat} {l : List Nat}, seg f h stop cur l → f (h (l.getLastD cur)) = stop := by
  intro cur l
  induction l generalizing cur with
  | nil => intro hs; simpa [seg] using hs
  | cons e rest ih =>
    intro hs
    rw [List.getLastD_cons]
    exact ih hs.2

theorem seg_append {f : Node → Nat} {h : Heap} {stop : Nat} (l1 l2 : List Nat) :
    ∀ cur, seg f h stop cur (l1 ++ l2) ↔
      seg f h (l2.headD stop) cur l1 ∧ seg f h stop (l1.getLastD cur) l2 := by
  induction l1 with
  | nil =>
    intro cur
    cases l2 with
    | nil => simp [seg]
    | cons e rest =>
      constructor
      · intro hs; exact ⟨hs.1, hs⟩
      · intro hs; exact hs.2
  | cons a t ih =>
    intro cur
    simp only [List.cons_append, seg, List.append_eq, List.getLastD_cons, ih a, and_assoc]

theorem seg_congr {f : Node → Nat} {h h' : Heap} {stop : Nat} :
    ∀ {cur : Nat} {l : List Nat},
      (∀ x ∈ cur :: l, f (h' x) = f (h x)) →
      seg f h stop cur l → seg f h' stop cur l := by
  intro cur l
  induction l generalizing cur with
  | nil =>
    intro hcg hs
    simp only [seg] at hs ⊢
    rw [hcg cur (by simp)]; exact hs
  | cons e rest ih =>
    intro hcg hs
    refine ⟨?_, ih (fun x hx => hcg x (by simpa using Or.inr (by simpa using hx))) hs.2⟩
    rw [hcg cur (by simp)]; exact hs.1

theorem seg_retarget {f : Node → Nat} {h h' : Heap} {stop stop' : Nat} :
    ∀ {cur : Nat} {l : List Nat},
      (cur :: l).Nodup →
      seg f h stop cur l →
      f (h' (l.getLastD cur)) = stop' →
      (∀ x ∈ cur :: l, x ≠ l.getLastD cur → f (h' x) = f (h x)) →
      seg f h' stop' cur l := by
  intro cur l
  induction l generalizing cur with
  | nil =>
    intro _ _ hlast _
    simpa [seg] using hlast
  | cons e rest ih =>
    intro hnd hs hlast hcg
    rw [List.getLastD_cons] at hlast
    simp only [List.getLastD_cons] at hcg
    have hcur_ne : cur ≠ rest.getLastD e := by
      intro hc
      have hmem : rest.getLastD e ∈ e :: rest := List.getLastD_mem_cons rest e
      rw [← hc] at hmem
      exact (List.nodup_cons.mp hnd).1 hmem
    refine ⟨?_, ?_⟩
    · rw [hcg cur (by simp) hcur_ne]; exact hs.1
    · exact ih (List.nodup_cons.mp hnd).2 hs.2 hlast
        (fun x hx hne => hcg x (List.mem_cons_of_mem cur hx) hne)

theorem seg_mem {f : Node → Nat} {h : Heap} {stop : Nat} :
    ∀ {cur : Nat} {l : List Nat}, seg f h stop cur l →
      ∀ x ∈ cur :: l, f (h x) ∈ l ++ [stop] := by
  intro cur l
  induction l generalizing cur with
  | nil =>
    intro hs x hx
    simp only [List.mem_singleton, List.mem_cons, List.not_mem_nil, or_false] at hx
    subst hx
    simpa [seg] using hs
  | cons e rest ih =>
    intro hs x hx
    rcases List.mem_cons.mp hx with hx | hx
    · subst hx
      simp [hs.1]
    · have := ih hs.2 x hx
      simpa using Or.inr (by simpa using this)

/-! ### Ring lemmas -/

theorem ring_nodup_facts {s a : Nat} {xs ys : List Nat}
    (h : (s :: (xs ++ a :: ys)).Nodup) :
    a ∉ s :: xs ∧ a ∉ s :: ys ∧ (s :: xs).Nodup ∧ (s :: ys).Nodup ∧
    (∀ x, x ∈ s :: xs → x ∉ ys) ∧ (s :: (xs ++ ys)).Nodup := by
  obtain ⟨hs, hrest⟩ := List.nodup_cons.mp h
  rw [List.nodup_append] at hrest
  obtain ⟨hxs, hays, hdisj⟩ := hrest
  obtain ⟨hay, hys⟩ := List.nodup_cons.mp hays
  simp only [List.mem_append, List.mem_cons, not_or] at hs
  obtain ⟨hsxs, hsa, hsys⟩ := hs
  rw [List.disjoint_cons_right] at hdisj
  obtain ⟨haxs, hdisj⟩ := hdisj
  refine ⟨?_, ?_, ?_, ?_, ?_, ?_⟩
  · simp only [List.mem_cons, not_or]
    exact ⟨fun hh => hsa hh.symm, haxs⟩
  · simp only [List.mem_cons, not_or]
    exact ⟨fun hh => hsa hh.symm, hay⟩
  · exact List.nodup_cons.mpr ⟨hsxs, hxs⟩
  · exact List.nodup_cons.mpr ⟨hsys, hys⟩
  · intro x hx
    rcases List.mem_cons.mp hx with hx | hx
    · subst hx; exact hsys
    · exact fun hy => hdisj hx hy
  · refine List.nodup_cons.mpr ⟨?_, ?_⟩
    · simp only [List.mem_append, not_or]
      exact ⟨hsxs, hsys⟩
    · rw [List.nodup_append]
      exact ⟨hxs, hys, fun x hx hy => hdisj hx hy⟩

theorem ring_junction {h : Heap} {s : Nat} {xs ys : List Nat}
    (hr : isRing h s (xs ++ ys)) :
    (h (xs.getLastD s)).next = ys.headD s ∧ (h (ys.headD s)).prev = xs.getLastD s := by
  obtain ⟨hN, hP⟩ := hr
  constructor
  · exact seg_head ((seg_append xs ys s).mp hN).2
  · rw [show (xs ++ ys).reverse = ys.reverse ++ xs.reverse by simp] at hP
    have h2 := seg_head ((seg_append ys.reverse xs.reverse s).mp hP).2
    rwa [getLastD_reverse, headD_reverse] at h2

theorem ring_mem {h : Heap} {s : Nat} {m : List Nat} (hr : isRing h s m) {x : Nat}
    (hx : x ∈ s :: m) : (h x).next ∈ s :: m ∧ (h x).prev ∈ s :: m := by
  constructor
  · have := seg_mem hr.1 x hx
    simp only [List.mem_append, List.mem_singleton, List.mem_cons] at this ⊢
    tauto
  · have hx' : x ∈ s :: m.reverse := by
      simpa only [List.mem_cons, List.mem_reverse] using hx
    have := seg_mem hr.2 x hx'
    simp only [List.mem_append, List.mem_singleton, List.mem_cons,
      List.mem_reverse] at this ⊢
    tauto

theorem ring_rotate {h : Heap} {s e : Nat} {t : List Nat}
    (hr : isRing h s (e :: t)) : isRing h e (t ++ [s]) := by
  obtain ⟨hN, hP⟩ := hr
  simp only [seg] at hN
  constructor
  · rw [seg_append t [s] e]
    refine ⟨by simpa using hN.2, ?_⟩
    simp only [seg]
    exact ⟨seg_getLast hN.2, hN.1⟩
  · have hP' : seg Node.prev h s s (t.reverse ++ [e]) := by
      simpa using hP
    have hsp := (seg_append t.reverse [e] s).mp hP'
    simp only [List.headD_cons] at hsp
    simp only [seg] at hsp
    show seg Node.prev h e e ((t ++ [s]).reverse)
    rw [show (t ++ [s]).reverse = s :: t.reverse by simp]
    exact ⟨hsp.2.2, hsp.1⟩

theorem ring_rotate_back {h : Heap} {s c : Nat} {l : List Nat}
    (hr : isRing h c (l ++ [s])) : isRing h s (c :: l) := by
  obtain ⟨hN, hP⟩ := hr
  have hN' := (seg_append l [s] c).mp hN
  simp only [List.headD_cons, seg] at hN'
  constructor
  · exact ⟨hN'.2.2, hN'.1⟩
  · have hP' : seg Node.prev h c c (s :: l.reverse) := by
      simpa using hP
    simp only [seg] at hP'
    show seg Node.prev h s s ((c :: l).reverse)
    rw [show (c :: l).reverse = l.reverse ++ [c] by simp]
    rw [seg_append l.reverse [c] s]
    refine ⟨by simpa using hP'.2, ?_⟩
    simp only [seg]
    exact ⟨seg_getLast hP'.2, hP'.1⟩

theorem traverse_seg {h : Heap} {s : Nat} :
    ∀ {cur : Nat} {l : List Nat},
      seg Node.next h s cur l → (∀ x ∈ l, x ≠ s) →
      traverse h s ((h cur).next) (l.length + 1) = l := by
  intro cur l
  induction l generalizing cur with
  | nil =>
    intro hs _
    rw [seg_head hs]
    simp [traverse]
  | cons e rest ih =>
    intro hs hne
    rw [hs.1]
    simp only [List.length_cons, traverse]
    rw [if_neg (hne e (by simp))]
    congr 1
    exact ih hs.2 (fun x hx => hne x (by simp [hx]))

theorem iterate_ring {h : Heap} {s : Nat} {m : List Nat} (hv : Valid h s m) :
    iterate h s (m.length + 1) = m := by
  have hne : ∀ x ∈ m, x ≠ s := by
    intro x hx hxs
    subst hxs
    exact (List.nodup_cons.mp hv.2.1).1 hx
  exact traverse_seg hv.1.1 hne

/-! ### The `remove` operation -/

theorem remove_fst_apply {h : Heap} {a : Nat} (hap : (h a).prev ≠ a) (x : Nat) :
    (remove h a).1 x =
      if x = a then ⟨0, 0⟩
      else ⟨if x = (h a).next then (h a).prev else (h x).prev,
            if x = (h a).prev then (h a).next else (h x).next⟩ := by
  have hne : ¬(a = (h a).prev) := fun hh => hap hh.symm
  simp only [remove, unlink, Heap.setPrev, Heap.setNext, Heap.set]
  simp only [if_neg hne]
  split_ifs <;> simp_all

theorem remove_snd {h : Heap} {a : Nat} : (remove h a).2 = (h a).next := rfl

/-- Full correctness of `erase`/`remove` on a member of a valid ring:
the ring closes over the gap, the follower is returned, the erased node
is cleared, and nothing outside the three touched nodes changes. -/
theorem erase_ok {h : Heap} {s a : Nat} {xs ys : List Nat}
    (hv : Valid h s (xs ++ a :: ys)) :
    Valid (erase h a).1 s (xs ++ ys) ∧
    (erase h a).2 = ys.headD s ∧
    (erase h a).1 a = ⟨0, 0⟩ ∧
    ((erase h a).1 (xs.getLastD s)).next = ys.headD s ∧
    ((erase h a).1 (ys.headD s)).prev = xs.getLastD s ∧
    (∀ x, x ≠ a → x ≠ xs.getLastD s → x ≠ ys.headD s → (erase h a).1 x = h x) := by
  obtain ⟨hr, hnd, hz⟩ := hv
  obtain ⟨haxs, hays, hndxs, hndys, hdisj, hnd'⟩ := ring_nodup_facts hnd
  have hp_mem : xs.getLastD s ∈ s :: xs := List.getLastD_mem_cons xs s
  have hn_mem : ys.headD s ∈ s :: ys := headD_mem_cons ys s
  have hpa : (h a).prev = xs.getLastD s := by
    have := (@ring_junction _ _ xs (a :: ys) hr).2
    simpa using this
  have hna : (h a).next = ys.headD s := by
    have hr' : isRing h s ((xs ++ [a]) ++ ys) := by
      simpa using hr
    have := (@ring_junction _ _ (xs ++ [a]) ys hr').1
    simpa [List.getLastD_concat] using this
  have hap : xs.getLastD s ≠ a := fun hh => haxs (hh ▸ hp_mem)
  have hna' : ys.headD s ≠ a := fun hh => hays (hh ▸ hn_mem)
  have hw := @remove_fst_apply h a (by rw [hpa]; exact hap)
  simp only [hpa, hna] at hw
  have hw_self : (erase h a).1 a = ⟨0, 0⟩ := by rw [show (erase h a).1 = (remove h a).1 from rfl, hw]; simp
  have hnext_eq : ∀ x, x ≠ a → x ≠ xs.getLastD s → ((erase h a).1 x).next = (h x).next := by
    intro x hxa hxp
    rw [show (erase h a).1 = (remove h a).1 from rfl, hw, if_neg hxa]
    dsimp only
    rw [if_neg hxp]
  have hprev_eq : ∀ x, x ≠ a → x ≠ ys.headD s → ((erase h a).1 x).prev = (h x).prev := by
    intro x hxa hxn
    rw [show (erase h a).1 = (remove h a).1 from rfl, hw, if_neg hxa]
    dsimp only
    rw [if_neg hxn]
  have hnextp : ((erase h a).1 (xs.getLastD s)).next = ys.headD s := by
    rw [show (erase h a).1 = (remove h a).1 from rfl, hw, if_neg hap]
    dsimp only
    rw [if_pos rfl]
  have hprevn : ((erase h a).1 (ys.headD s)).prev = xs.getLastD s := by
    rw [show (erase h a).1 = (remove h a).1 from rfl, hw, if_neg hna']
    dsimp only
    rw [if_pos rfl]
  have hframe : ∀ x, x ≠ a → x ≠ xs.getLastD s → x ≠ ys.headD s → (erase h a).1 x = h x := by
    intro x hxa hxp hxn
    rw [show (erase h a).1 = (remove h a).1 from rfl, hw, if_neg hxa, if_neg hxn, if_neg hxp]
  have hN := hr.1
  rw [seg_append xs (a :: ys) s] at hN
  simp only [List.headD_cons] at hN
  obtain ⟨hN1, hN2⟩ := hN
  simp only [seg] at hN2
  have hP : seg Node.prev h s s (ys.reverse ++ a :: xs.reverse) := by
    have := hr.2
    rwa [show (xs ++ a :: ys).reverse = ys.reverse ++ a :: xs.reverse by simp] at this
  rw [seg_append ys.reverse (a :: xs.reverse) s] at hP
  simp only [List.headD_cons] at hP
  obtain ⟨hP1, hP2⟩ := hP
  rw [getLastD_reverse] at hP2
  simp only [seg] at hP2
  have hringN : seg Node.next (erase h a).1 s s (xs ++ ys) := by
    rw [seg_append xs ys s]
    constructor
    · exact seg_retarget hndxs hN1 hnextp
        (fun x hx hxp => hnext_eq x (fun hh => haxs (hh ▸ hx)) hxp)
    · cases ys with
      | nil =>
        simp only [seg]
        simpa using hnextp
      | cons y t =>
        simp only [seg, List.headD_cons] at hnextp hN2 ⊢
        refine ⟨hnextp, ?_⟩
        refine seg_congr ?_ hN2.2.2
        intro x hx
        have hxys : x ∈ s :: (y :: t) := List.mem_cons_of_mem s hx
        have hxa : x ≠ a := fun hh => hays (by rw [← hh]; exact hxys)
        have hxp : x ≠ xs.getLastD s := by
          intro hh
          exact hdisj x (by rw [hh]; exact hp_mem) hx
        exact hnext_eq x hxa hxp
  have hringP : seg Node.prev (erase h a).1 s s ((xs ++ ys).reverse) := by
    rw [show (xs ++ ys).reverse = ys.reverse ++ xs.reverse by simp]
    rw [seg_append ys.reverse xs.reverse s]
    constructor
    · rw [headD_reverse]
      have hndrev : (s :: ys.reverse).Nodup := by
        obtain ⟨h1, h2⟩ := List.nodup_cons.mp hndys
        exact List.nodup_cons.mpr ⟨by simpa using h1, by simpa using h2⟩
      refine seg_retarget hndrev hP1 ?_ ?_
      · rw [getLastD_reverse]
        exact hprevn
      · intro x hx hxn
        rw [getLastD_reverse] at hxn
        have hxys : x ∈ s :: ys := by
          simpa only [List.mem_cons, List.mem_reverse] using hx
        have hxa : x ≠ a := fun hh => hays (by rw [← hh]; exact hxys)
        exact hprev_eq x hxa hxn
    · rw [getLastD_reverse]
      rcases hrev : xs.reverse with _ | ⟨z, t'⟩
      · have hxs_nil : xs = [] := by
          rw [← List.reverse_reverse xs, hrev]; rfl
        simp only [seg]
        rw [hprevn, hxs_nil]
        rfl
      · have hz : xs.getLastD s = z := by
          rw [← headD_reverse, hrev]; rfl
        simp only [seg]
        constructor
        · rw [← hz]; exact hprevn
        · have hmem_xs : ∀ x, x ∈ z :: t' → x ∈ xs := by
            intro x hx
            rw [← List.mem_reverse, hrev]
            exact hx
          have hP2' : seg Node.prev h s z t' := by
            have := hP2.2
            rw [hrev] at this
            exact this.2
          refine seg_congr ?_ hP2'
          intro x hx
          have hxxs : x ∈ xs := hmem_xs x hx
          have hxa : x ≠ a := by
            intro hh
            apply haxs
            rw [← hh]
            exact List.mem_cons_of_mem s hxxs
          have hxn : x ≠ ys.headD s := by
            intro hh
            rcases List.mem_cons.mp hn_mem with hns | hny
            · apply (List.nodup_cons.mp hndxs).1
              rw [hh, hns] at hxxs
              exact hxxs
            · exact hdisj x (List.mem_cons_of_mem s hxxs) (by rw [hh]; exact hny)
          exact hprev_eq x hxa hxn
  have hz' : 0 ∉ s :: (xs ++ ys) := by
    simp only [List.mem_cons, List.mem_append, not_or] at hz ⊢
    tauto
  exact ⟨⟨⟨hringN, hringP⟩, hnd', hz'⟩, by rw [show (erase h a).2 = (h a).next from rfl, hna],
    hw_self, hnextp, hprevn, hframe⟩

/-! ### More list helpers -/

theorem getLastD_append (l1 l2 : List Nat) (d : Nat) :
    (l1 ++ l2).getLastD d = l2.getLastD (l1.getLastD d) := by
  induction l1 generalizing d with
  | nil => rfl
  | cons a t ih => simp only [List.cons_append, List.getLastD_cons, ih]

theorem headD_append (l1 l2 : List Nat) (d : Nat) :
    (l1 ++ l2).headD d = l1.headD (l2.headD d) := by
  cases l1 <;> rfl

theorem getLastD_indep {l : List Nat} (hne : l ≠ []) (d d' : Nat) :
    l.getLastD d = l.getLastD d' := by
  cases l with
  | nil => exact absurd rfl hne
  | cons a t => simp only [List.getLastD_cons]

theorem headD_indep {l : List Nat} (hne : l ≠ []) (d d' : Nat) :
    l.headD d = l.headD d' := by
  cases l with
  | nil => exact absurd rfl hne
  | cons a t => rfl

theorem ring_nodup_facts2 {s : Nat} {xs ys : List Nat}
    (h : (s :: (xs ++ ys)).Nodup) :
    (s :: xs).Nodup ∧ (s :: ys).Nodup ∧ (∀ x, x ∈ s :: xs → x ∉ ys) := by
  obtain ⟨hs, hrest⟩ := List.nodup_cons.mp h
  rw [List.nodup_append] at hrest
  obtain ⟨hxs, hys, hdisj⟩ := hrest
  simp only [List.mem_append, not_or] at hs
  obtain ⟨hsxs, hsys⟩ := hs
  refine ⟨List.nodup_cons.mpr ⟨hsxs, hxs⟩, List.nodup_cons.mpr ⟨hsys, hys⟩, ?_⟩
  intro x hx
  rcases List.mem_cons.mp hx with hx | hx
  · subst hx; exact hsys
  · exact fun hy => hdisj hx hy

/-! ### Heap congruence -/

theorem isRing_congr {h h' : Heap} {s : Nat} {m : List Nat}
    (hcg : ∀ x ∈ s :: m, h' x = h x) (hr : isRing h s m) : isRing h' s m := by
  refine ⟨seg_congr (fun x hx => by rw [hcg x hx]) hr.1, seg_congr ?_ hr.2⟩
  intro x hx
  have hx' : x ∈ s :: m := by
    simpa only [List.mem_cons, List.mem_reverse] using hx
  rw [hcg x hx']

theorem Valid_congr {h h' : Heap} {s : Nat} {m : List Nat}
    (hcg : ∀ x ∈ s :: m, h' x = h x) (hv : Valid h s m) : Valid h' s m :=
  ⟨isRing_congr hcg hv.1, hv.2.1, hv.2.2⟩

theorem is_linked_ring {h : Heap} {s : Nat} {m : List Nat} (hv : Valid h s m)
    {x : Nat} (hx : x ∈ s :: m) : is_linked h x = true := by
  have hmem := (ring_mem hv.1 hx).2
  have : (h x).prev ≠ 0 := by
    intro hh
    exact hv.2.2 (hh ▸ hmem)
  simpa [is_linked] using this

/-! ### The linking writes of `insert_after` -/

theorem link4_apply {h : Heap} {first e third : Nat}
    (he1 : e ≠ first) (he3 : e ≠ third) (x : Nat) :
    link4 h first e third x =
      if x = e then ⟨first, third⟩
      else ⟨if x = third then e else (h x).prev,
            if x = first then e else (h x).next⟩ := by
  have h1 : ¬(e = first) := he1
  simp only [link4, Heap.setNext, Heap.setPrev, Heap.set]
  split_ifs <;> simp_all

/-- Correctness of the four linking writes on a valid ring: inserting a
fresh node `e` between the junction `xs.getLastD s` / `ys.headD s`
produces the ring `xs ++ e :: ys`. -/
theorem link_ok {h : Heap} {s e : Nat} {xs ys : List Nat}
    (hv : Valid h s (xs ++ ys)) (he : e ∉ s :: (xs ++ ys)) (he0 : e ≠ 0) :
    Valid (link4 h (xs.getLastD s) e (ys.headD s)) s (xs ++ e :: ys) ∧
    link4 h (xs.getLastD s) e (ys.headD s) e = ⟨xs.getLastD s, ys.headD s⟩ ∧
    (∀ x, x ≠ e → x ≠ xs.getLastD s → x ≠ ys.headD s →
      link4 h (xs.getLastD s) e (ys.headD s) x = h x) := by
  obtain ⟨hr, hnd, hz⟩ := hv
  obtain ⟨hndxs, hndys, hdisj⟩ := ring_nodup_facts2 hnd
  have hp_mem : xs.getLastD s ∈ s :: xs := List.getLastD_mem_cons xs s
  have hn_mem : ys.headD s ∈ s :: ys := headD_mem_cons ys s
  have hp_ring : xs.getLastD s ∈ s :: (xs ++ ys) := by
    rcases List.mem_cons.mp hp_mem with hh | hh
    · rw [hh]; exact List.mem_cons_self _ _
    · exact List.mem_cons_of_mem s (List.mem_append_left ys hh)
  have hn_ring : ys.headD s ∈ s :: (xs ++ ys) := by
    rcases List.mem_cons.mp hn_mem with hh | hh
    · rw [hh]; exact List.mem_cons_self _ _
    · exact List.mem_cons_of_mem s (List.mem_append_right xs hh)
  have he1 : e ≠ xs.getLastD s := fun hh => he (by rw [hh]; exact hp_ring)
  have he3 : e ≠ ys.headD s := fun hh => he (by rw [hh]; exact hn_ring)
  have hw := @link4_apply h _ _ _ he1 he3
  have hnod_e : link4 h (xs.getLastD s) e (ys.headD s) e = ⟨xs.getLastD s, ys.headD s⟩ := by
    rw [hw, if_pos rfl]
  have hnext_eq : ∀ x, x ≠ e → x ≠ xs.getLastD s →
      (link4 h (xs.getLastD s) e (ys.headD s) x).next = (h x).next := by
    intro x hxe hxp
    rw [hw, if_neg hxe]
    dsimp only
    rw [if_neg hxp]
  have hprev_eq : ∀ x, x ≠ e → x ≠ ys.headD s →
      (link4 h (xs.getLastD s) e (ys.headD s) x).prev = (h x).prev := by
    intro x hxe hxn
    rw [hw, if_neg hxe]
    dsimp only
    rw [if_neg hxn]
  have hnextf : (link4 h (xs.getLastD s) e (ys.headD s) (xs.getLastD s)).next = e := by
    rw [hw, if_neg (Ne.symm he1)]
    dsimp only
    rw [if_pos rfl]
  have hprevt : (link4 h (xs.getLastD s) e (ys.headD s) (ys.headD s)).prev = e := by
    rw [hw, if_neg (Ne.symm he3)]
    dsimp only
    rw [if_pos rfl]
  have hframe : ∀ x, x ≠ e → x ≠ xs.getLastD s → x ≠ ys.headD s →
      link4 h (xs.getLastD s) e (ys.headD s) x = h x := by
    intro x hxe hxp hxn
    rw [hw, if_neg hxe, if_neg hxn, if_neg hxp]
  have hN := hr.1
  rw [seg_append xs ys s] at hN
  obtain ⟨hN1, hN2⟩ := hN
  have hP : seg Node.prev h s s (ys.reverse ++ xs.reverse) := by
    have := hr.2
    rwa [show (xs ++ ys).reverse = ys.reverse ++ xs.reverse by simp] at this
  rw [seg_append ys.reverse xs.reverse s] at hP
  obtain ⟨hP1, hP2⟩ := hP
  rw [headD_reverse] at hP1
  rw [getLastD_reverse] at hP2
  have hringN : seg Node.next (link4 h (xs.getLastD s) e (ys.headD s)) s s (xs ++ e :: ys) := by
    rw [seg_append xs (e :: ys) s]
    simp only [List.headD_cons]
    constructor
    · refine seg_retarget hndxs hN1 hnextf ?_
      intro x hx hxp
      have hxe : x ≠ e := by
        intro hh
        apply he
        rw [← hh]
        rcases List.mem_cons.mp hx with h' | h'
        · rw [h']; exact List.mem_cons_self _ _
        · exact List.mem_cons_of_mem s (List.mem_append_left ys h')
      exact hnext_eq x hxe hxp
    · simp only [seg]
      refine ⟨hnextf, ?_⟩
      cases ys with
      | nil =>
        simp only [seg]
        rw [hnod_e]
        rfl
      | cons y t =>
        simp only [seg, List.headD_cons] at hnod_e ⊢
        refine ⟨by rw [hnod_e], ?_⟩
        simp only [seg] at hN2
        refine seg_congr ?_ hN2.2
        intro x hx
        have hxe : x ≠ e := by
          intro hh
          apply he
          rw [← hh]
          exact List.mem_cons_of_mem s (List.mem_append_right xs hx)
        have hxp : x ≠ xs.getLastD s := by
          intro hh
          exact hdisj x (by rw [hh]; exact hp_mem) hx
        exact hnext_eq x hxe hxp
  have hringP : seg Node.prev (link4 h (xs.getLastD s) e (ys.headD s)) s s ((xs ++ e :: ys).reverse) := by
    rw [show (xs ++ e :: ys).reverse = ys.reverse ++ e :: xs.reverse by simp]
    rw [seg_append ys.reverse (e :: xs.reverse) s]
    simp only [List.headD_cons]
    constructor
    · have hndrev : (s :: ys.reverse).Nodup := by
        obtain ⟨h1, h2⟩ := List.nodup_cons.mp hndys
        exact List.nodup_cons.mpr ⟨by simpa using h1, by simpa using h2⟩
      refine seg_retarget hndrev hP1 ?_ ?_
      · rw [getLastD_reverse]
        exact hprevt
      · intro x hx hxn
        rw [getLastD_reverse] at hxn
        have hxys : x ∈ s :: ys := by
          simpa only [List.mem_cons, List.mem_reverse] using hx
        have hxe : x ≠ e := by
          intro hh
          apply he
          rw [← hh]
          rcases List.mem_cons.mp hxys with h' | h'
          · rw [h']; exact List.mem_cons_self _ _
          · exact List.mem_cons_of_mem s (List.mem_append_right xs h')
        exact hprev_eq x hxe hxn
    · rw [getLastD_reverse]
      simp only [seg]
      refine ⟨hprevt, ?_⟩
      rcases hrev : xs.reverse with _ | ⟨z, t'⟩
      · have hxs_nil : xs = [] := by
          rw [← List.reverse_reverse xs, hrev]; rfl
        simp only [seg]
        rw [hnod_e, hxs_nil]
        rfl
      · have hz2 : xs.getLastD s = z := by
          rw [← headD_reverse, hrev]; rfl
        simp only [seg]
        constructor
        · rw [hnod_e]
          exact hz2
        · have hmem_xs : ∀ x, x ∈ z :: t' → x ∈ xs := by
            intro x hx
            rw [← List.mem_reverse, hrev]
            exact hx
          have hP2' : seg Node.prev h s z t' := by
            rw [hrev] at hP2
            simp only [seg] at hP2
            exact hP2.2
          refine seg_congr ?_ hP2'
          intro x hx
          have hxxs : x ∈ xs := hmem_xs x hx
          have hxe : x ≠ e := by
            intro hh
            apply he
            rw [← hh]
            exact List.mem_cons_of_mem s (List.mem_append_left ys hxxs)
          have hxn : x ≠ ys.headD s := by
            intro hh
            rcases List.mem_cons.mp hn_mem with hns | hny
            · apply (List.nodup_cons.mp hndxs).1
              rw [hh, hns] at hxxs
              exact hxxs
            · exact hdisj x (List.mem_cons_of_mem s hxxs) (by rw [hh]; exact hny)
          exact hprev_eq x hxe hxn
  have hnd2 : (s :: (xs ++ e :: ys)).Nodup := by
    have heq : (s :: (xs ++ e :: ys)) = (s :: xs) ++ e :: ys := by simp
    rw [heq, List.nodup_middle, List.nodup_cons]
    constructor
    · intro hmem
      apply he
      rcases List.mem_append.mp hmem with hh | hh
      · rcases List.mem_cons.mp hh with h' | h'
        · rw [h']; exact List.mem_cons_self _ _
        · exact List.mem_cons_of_mem s (List.mem_append_left ys h')
      · exact List.mem_cons_of_mem s (List.mem_append_right xs hh)
    · rw [List.cons_append]
      exact hnd
  have hz2 : 0 ∉ s :: (xs ++ e :: ys) := by
    simp only [List.mem_cons, List.mem_append, not_or] at hz ⊢
    refine ⟨hz.1, hz.2.1, fun hh => he0 hh.symm, hz.2.2⟩
  exact ⟨⟨⟨hringN, hringP⟩, hnd2, hz2⟩, hnod_e, hframe⟩

/-! ### Unfolding equations for `insert` and `insert_after` -/

theorem insert_after_eq_not_linked {h : Heap} {first e : Nat}
    (hnl : is_linked h e = false) :
    (insert_after h first e).1 = link4 h first e ((h first).next) := by
  simp [insert_after, hnl]

theorem insert_after_eq_linked {h : Heap} {first e : Nat}
    (hl : is_linked h e = true) :
    (insert_after h first e).1 = link4 (remove h e).1 first e ((h first).next) := by
  simp [insert_after, hl]

theorem is_linked_false_of_free {h : Heap} {e : Nat} (hfree : (h e).prev = 0) :
    is_linked h e = false := by
  simp [is_linked, hfree]

theorem insert_guard_eq {h : Heap} {pos e : Nat}
    (hg : e = pos ∨ e = (h pos).prev) : (insert h pos e).1 = h := by
  rw [insert, if_pos hg]

theorem insert_eq_of_not_guard {h : Heap} {pos e : Nat}
    (h1 : e ≠ pos) (h2 : e ≠ (h pos).prev) :
    (insert h pos e).1 = (insert_after h ((h pos).prev) e).1 := by
  rw [insert, if_neg (not_or.mpr ⟨h1, h2⟩)]

theorem ring_prev_s {h : Heap} {s : Nat} {m : List Nat} (hr : isRing h s m) :
    (h s).prev = m.getLastD s := by
  have := seg_head hr.2
  rwa [headD_reverse] at this

theorem ring_next_s {h : Heap} {s : Nat} {m : List Nat} (hr : isRing h s m) :
    (h s).next = m.headD s := seg_head hr.1

theorem getLastD_eq_getLast {l : List Nat} (hne : l ≠ []) (d : Nat) :
    l.getLastD d = l.getLast hne := by
  rw [List.getLastD_eq_getLast?, List.getLast?_eq_getLast l hne]
  rfl

theorem nodup_mem_split {m : List Nat} {e : Nat} (hnd : m.Nodup) (he : e ∈ m) :
    ∃ xs ys, m = xs ++ e :: ys ∧ e ∉ xs ∧ e ∉ ys := by
  obtain ⟨xs, ys, rfl⟩ := List.append_of_mem he
  rw [List.nodup_middle, List.nodup_cons] at hnd
  exact ⟨xs, ys, rfl, fun hh => hnd.1 (List.mem_append_left _ hh),
    fun hh => hnd.1 (List.mem_append_right _ hh)⟩

theorem rmOne_append_left {l1 l2 : List Nat} {e : Nat} (h : e ∉ l1) :
    rmOne (l1 ++ l2) e = l1 ++ rmOne l2 e := by
  induction l1 with
  | nil => rfl
  | cons x t ih =>
    simp only [List.mem_cons, not_or] at h
    simp [rmOne, Ne.symm h.1, ih h.2]

theorem insertBefore_at_head {s pos e : Nat} {zs ws : List Nat}
    (hpos : pos = ws.headD s) (hnotin : pos ∉ zs) :
    insertBefore (zs ++ ws) pos e = zs ++ e :: ws := by
  cases ws with
  | nil =>
    rw [List.append_nil]
    exact insertBefore_not_mem e hnotin
  | cons w wt =>
    have hw : w = pos := by rw [hpos]; rfl
    subst hw
    exact insertBefore_split e hnotin

theorem model_guard2 {s e : Nat} {zs ws : List Nat}
    (hnd : (s :: (zs ++ ws)).Nodup) (hes : e ≠ s) (he_last : e = zs.getLastD s) :
    insertBefore (rmOne (zs ++ ws) e) (ws.headD s) e = zs ++ ws := by
  obtain ⟨hndzs, hndws, hdisj⟩ := ring_nodup_facts2 hnd
  have hzs_ne : zs ≠ [] := by
    intro hnil
    apply hes
    rw [he_last, hnil]
    rfl
  have hE : e = zs.getLast hzs_ne := by
    rw [he_last, getLastD_eq_getLast hzs_ne]
  have hzs_split : zs = zs.dropLast ++ [e] := by
    rw [hE, List.dropLast_append_getLast]
  have henotdl : e ∉ zs.dropLast := by
    have hz2 : zs.Nodup := (List.nodup_cons.mp hndzs).2
    rw [hzs_split, List.nodup_append] at hz2
    intro hh
    exact hz2.2.2 hh (List.mem_singleton_self e)
  have h1 : rmOne (zs ++ ws) e = zs.dropLast ++ ws := by
    conv_lhs => rw [hzs_split]
    rw [show (zs.dropLast ++ [e]) ++ ws = zs.dropLast ++ e :: ws by simp]
    exact rmOne_split henotdl
  rw [h1]
  rw [@insertBefore_at_head s _ _ _ _ rfl ?notin]
  case notin =>
    have hmem : ws.headD s ∈ s :: ws := headD_mem_cons ws s
    have hsub : ∀ x, x ∈ zs.dropLast → x ∈ zs := by
      intro x hx
      exact (List.dropLast_sublist zs).subset hx
    rcases List.mem_cons.mp hmem with hh | hh
    · rw [hh]
      intro hmem2
      exact (List.nodup_cons.mp hndzs).1 (hsub _ hmem2)
    · intro hmem2
      exact hdisj _ (List.mem_cons_of_mem s (hsub _ hmem2)) hh
  rw [show zs.dropLast ++ e :: ws = (zs.dropLast ++ [e]) ++ ws by simp, ← hzs_split]

/-- Full correctness of `list::insert` at the member-sequence level: the
ring is `zs ++ ws`, the position iterator points at the head of `ws`
(the sentinel when `ws` is empty), and the inserted element is either a
member of this ring or a free node.  The resulting member sequence is
`minsert`. -/
theorem insert_ok_split {h : Heap} {s pos e : Nat} {zs ws : List Nat}
    (hv : Valid h s (zs ++ ws)) (hpos : pos = ws.headD s)
    (he0 : e ≠ 0) (hes : e ≠ s)
    (hmem : e ∈ zs ++ ws ∨ (h e).prev = 0) :
    Valid (insert h pos e).1 s (minsert (zs ++ ws) pos e) := by
  obtain ⟨hr, hnd, hz⟩ := hv
  obtain ⟨hndzs, hndws, hdisj⟩ := ring_nodup_facts2 hnd
  have hfirst : (h pos).prev = zs.getLastD s := by
    rw [hpos]
    exact (ring_junction hr).2
  have hthird : (h (zs.getLastD s)).next = pos := by
    rw [hpos]
    exact (ring_junction hr).1
  have hpos_notin_zs : pos ∉ zs := by
    have hmem2 : pos ∈ s :: ws := by rw [hpos]; exact headD_mem_cons ws s
    rcases List.mem_cons.mp hmem2 with hh | hh
    · rw [hh]
      exact (List.nodup_cons.mp hndzs).1
    · intro hmem3
      exact hdisj pos (List.mem_cons_of_mem s hmem3) hh
  by_cases hep : e = pos
  · rw [insert_guard_eq (Or.inl hep), minsert, if_pos hep]
    exact ⟨hr, hnd, hz⟩
  by_cases hprev : e = (h pos).prev
  · rw [insert_guard_eq (Or.inr hprev), minsert, if_neg hep, hpos]
    rw [model_guard2 hnd hes (hprev.trans hfirst)]
    exact ⟨hr, hnd, hz⟩
  have hfirst_ne : e ≠ zs.getLastD s := by
    rw [← hfirst]
    exact hprev
  rw [insert_eq_of_not_guard hep hprev, hfirst]
  rcases hmem with hem | hfree
  · -- already a member of this ring: detach then relink
    have hlinked : is_linked h e = true :=
      is_linked_ring ⟨hr, hnd, hz⟩ (List.mem_cons_of_mem s hem)
    rw [insert_after_eq_linked hlinked, hthird]
    rcases List.mem_append.mp hem with hezs | hews
    · -- e sits in the prefix `zs`
      obtain ⟨za, zb, hzseq, heza, hezb⟩ :=
        nodup_mem_split (List.nodup_cons.mp hndzs).2 hezs
      have hzb_ne : zb ≠ [] := by
        intro hnil
        apply hfirst_ne
        rw [hzseq, hnil]
        rw [show za ++ [e] = za ++ [e] from rfl, List.getLastD_concat]
      have hv' : Valid h s (za ++ e :: (zb ++ ws)) := by
        rw [show za ++ e :: (zb ++ ws) = (za ++ e :: zb) ++ ws by simp, ← hzseq]
        exact ⟨hr, hnd, hz⟩
      have herase := erase_ok hv'
      have hv1 : Valid (erase h e).1 s ((za ++ zb) ++ ws) := by
        rw [List.append_assoc]
        exact herase.1
      have he_notin1 : e ∉ s :: ((za ++ zb) ++ ws) := by
        intro hmem2
        have hnd1 := hv'.2.1
        rcases List.mem_cons.mp hmem2 with hh | hh
        · exact hes hh
        · rcases List.mem_append.mp hh with hh2 | hh2
          · rcases List.mem_append.mp hh2 with hh3 | hh3
            · exact heza hh3
            · exact hezb hh3
          · have hzz : e ∈ zs := by
              rw [hzseq]
              exact List.mem_append_right za (List.mem_cons_self e zb)
            exact hdisj e (List.mem_cons_of_mem s hzz) hh2
      have hlk := link_ok hv1 he_notin1 he0
      have hlast_eq : (za ++ zb).getLastD s = zs.getLastD s := by
        rw [hzseq, getLastD_append, getLastD_append]
        rw [show (e :: zb).getLastD (za.getLastD s) = zb.getLastD e from List.getLastD_cons _ _ _]
        exact (getLastD_indep hzb_ne _ _).symm
      rw [minsert, if_neg hep, hpos]
      have hmodel : rmOne (zs ++ ws) e = (za ++ zb) ++ ws := by
        rw [hzseq, show (za ++ e :: zb) ++ ws = za ++ e :: (zb ++ ws) by simp,
          rmOne_split heza, List.append_assoc]
      rw [hmodel]
      have hnotin2 : ws.headD s ∉ za ++ zb := by
        intro hmem2
        apply hpos_notin_zs
        rw [hpos, hzseq]
        rcases List.mem_append.mp hmem2 with hh | hh
        · exact List.mem_append_left (e :: zb) hh
        · exact List.mem_append_right za (List.mem_cons_of_mem e hh)
      rw [@insertBefore_at_head s _ _ _ _ rfl hnotin2]
      rw [← hlast_eq]
      exact hlk.1
    · -- e sits in the suffix `ws`
      obtain ⟨wa, wb, hwseq, hewa, hewb⟩ :=
        nodup_mem_split (List.nodup_cons.mp hndws).2 hews
      have hwa_ne : wa ≠ [] := by
        intro hnil
        apply hep
        rw [hpos, hwseq, hnil]
        rfl
      have hv' : Valid h s ((zs ++ wa) ++ e :: wb) := by
        rw [show (zs ++ wa) ++ e :: wb = zs ++ (wa ++ e :: wb) by simp, ← hwseq]
        exact ⟨hr, hnd, hz⟩
      have herase := erase_ok hv'
      have hv1 : Valid (erase h e).1 s (zs ++ (wa ++ wb)) := by
        rw [show zs ++ (wa ++ wb) = (zs ++ wa) ++ wb by simp]
        exact herase.1
      have he_notin1 : e ∉ s :: (zs ++ (wa ++ wb)) := by
        intro hmem2
        rcases List.mem_cons.mp hmem2 with hh | hh
        · exact hes hh
        · rcases List.mem_append.mp hh with hh2 | hh2
          · have : e ∈ ws := by rw [hwseq]; exact List.mem_append_right wa (List.mem_cons_self e wb)
            exact hdisj e (List.mem_cons_of_mem s hh2) this
          · rcases List.mem_append.mp hh2 with hh3 | hh3
            · exact hewa hh3
            · exact hewb hh3
      have hlk := link_ok hv1 he_notin1 he0
      have hhead_eq : (wa ++ wb).headD s = ws.headD s := by
        rw [hwseq, headD_append, headD_append]
        exact headD_indep hwa_ne _ _
      rw [minsert, if_neg hep, hpos]
      have hmodel : rmOne (zs ++ ws) e = zs ++ (wa ++ wb) := by
        have hezs : e ∉ zs := by
          intro hh
          have : e ∈ ws := by rw [hwseq]; exact List.mem_append_right wa (List.mem_cons_self e wb)
          exact hdisj e (List.mem_cons_of_mem s hh) this
        rw [rmOne_append_left hezs, hwseq, rmOne_append_left hewa]
        rw [show rmOne (e :: wb) e = wb by simp [rmOne]]
      rw [hmodel]
      have hnotin2 : ws.headD s ∉ zs := by
        rw [← hpos]
        exact hpos_notin_zs
      rw [@insertBefore_at_head s _ _ _ _ hhead_eq.symm hnotin2]
      have := hlk.1
      rw [hhead_eq] at this
      exact this
  · -- free node: no detach needed
    have hnl : is_linked h e = false := is_linked_false_of_free hfree
    have he_notin : e ∉ s :: (zs ++ ws) := by
      intro hmem2
      rcases List.mem_cons.mp hmem2 with hh | hh
      · exact hes hh
      · have := (ring_mem hr (List.mem_cons_of_mem s hh)).2
        rw [hfree] at this
        exact hz this
    rw [insert_after_eq_not_linked hnl, hthird]
    rw [minsert, if_neg hep, hpos]
    rw [rmOne_not_mem (fun hh => he_notin (List.mem_cons_of_mem s hh))]
    have hnotin' : ws.headD s ∉ zs := by
      rw [← hpos]
      exact hpos_notin_zs
    rw [@insertBefore_at_head s _ _ _ _ rfl hnotin']
    exact (link_ok ⟨hr, hnd, hz⟩ he_notin he0).1

/-! ### Operation sequences (C1) -/

/-- A public mutating list operation, with iterator arguments given as
node addresses (iterators are plain node pointers in the source). -/
inductive Op where
  | opPushFront (e : Nat)
  | opPushBack (e : Nat)
  | opInsert (pos e : Nat)
  | opErase (pos : Nat)
  | opPopFront
  | opPopBack
deriving DecidableEq, Repr

/-- Concrete effect of one operation on the heap (`s` is the list's
sentinel). -/
def execOp (h : Heap) (s : Nat) : Op → Heap
  | .opPushFront e => push_front h s e
  | .opPushBack e => push_back h s e
  | .opInsert p e => (insert h p e).1
  | .opErase p => (erase h p).1
  | .opPopFront => pop_front h s
  | .opPopBack => pop_back h s

/-- Abstract effect of one operation on the member sequence. -/
def mOp (s : Nat) (m : List Nat) : Op → List Nat
  | .opPushFront e => minsert m (m.headD s) e
  | .opPushBack e => minsert m s e
  | .opInsert p e => minsert m p e
  | .opErase p => rmOne m p
  | .opPopFront => m.tail
  | .opPopBack => m.dropLast

/-- Stated precondition of one operation: iterators refer to members (or
the sentinel for an insertion position), inserted elements are real
nodes that are either members of this list or unlinked, and pops
require a non-empty list. -/
def preOp (h : Heap) (s : Nat) (m : List Nat) : Op → Prop
  | .opPushFront e => e ≠ 0 ∧ e ≠ s ∧ (e ∈ m ∨ (h e).prev = 0)
  | .opPushBack e => e ≠ 0 ∧ e ≠ s ∧ (e ∈ m ∨ (h e).prev = 0)
  | .opInsert p e => (p = s ∨ p ∈ m) ∧ e ≠ 0 ∧ e ≠ s ∧ (e ∈ m ∨ (h e).prev = 0)
  | .opErase p => p ∈ m
  | .opPopFront => m ≠ []
  | .opPopBack => m ≠ []

instance preOpDec (h : Heap) (s : Nat) (m : List Nat) :
    (op : Op) → Decidable (preOp h s m op)
  | .opPushFront _ => inferInstanceAs (Decidable (_ ∧ _))
  | .opPushBack _ => inferInstanceAs (Decidable (_ ∧ _))
  | .opInsert _ _ => inferInstanceAs (Decidable (_ ∧ _))
  | .opErase _ => inferInstanceAs (Decidable (_ ∈ _))
  | .opPopFront => inferInstanceAs (Decidable (_ ≠ _))
  | .opPopBack => inferInstanceAs (Decidable (_ ≠ _))

def execOps (h : Heap) (s : Nat) : List Op → Heap
  | [] => h
  | op :: rest => execOps (execOp h s op) s rest

def mOps (s : Nat) (m : List Nat) : List Op → List Nat
  | [] => m
  | op :: rest => mOps s (mOp s m op) rest

def preOps (h : Heap) (s : Nat) (m : List Nat) : List Op → Prop
  | [] => True
  | op :: rest => preOp h s m op ∧ preOps (execOp h s op) s (mOp s m op) rest

instance preOpsDec (h : Heap) (s : Nat) (m : List Nat) :
    (ops : List Op) → Decidable (preOps h s m ops)
  | [] => inferInstanceAs (Decidable True)
  | op :: rest =>
    letI := preOpsDec (execOp h s op) s (mOp s m op) rest
    inferInstanceAs (Decidable (_ ∧ _))

/-- One valid operation preserves well-formedness and tracks the
abstract model. -/
theorem step_ok {h : Heap} {s : Nat} {m : List Nat} {op : Op}
    (hv : Valid h s m) (hp : preOp h s m op) :
    Valid (execOp h s op) s (mOp s m op) := by
  cases op with
  | opPushBack e =>
    obtain ⟨he0, hes, hmem⟩ := hp
    have := @insert_ok_split h s s e m []
      (by rw [List.append_nil]; exact hv) rfl he0 hes
      (by rw [List.append_nil]; exact hmem)
    rw [List.append_nil] at this
    exact this
  | opPushFront e =>
    obtain ⟨he0, hes, hmem⟩ := hp
    have hnext : (h s).next = m.headD s := ring_next_s hv.1
    have := @insert_ok_split h s ((h s).next) e [] m
      hv hnext he0 hes hmem
    rw [List.nil_append] at this
    show Valid (insert h ((h s).next) e).1 s (minsert m (m.headD s) e)
    rw [hnext] at this ⊢
    exact this
  | opInsert p e =>
    obtain ⟨hpmem, he0, hes, hmem⟩ := hp
    rcases hpmem with hps | hpm
    · subst hps
      have := @insert_ok_split h _ p e m []
        (by rw [List.append_nil]; exact hv) rfl he0 hes
        (by rw [List.append_nil]; exact hmem)
      rw [List.append_nil] at this
      exact this
    · obtain ⟨zs, ws', rfl⟩ := List.append_of_mem hpm
      exact @insert_ok_split h s p e zs (p :: ws')
        hv rfl he0 hes hmem
  | opErase p =>
    have hpm : p ∈ m := hp
    obtain ⟨xs, ys, rfl, hpx, _⟩ :=
      nodup_mem_split (List.nodup_cons.mp hv.2.1).2 hpm
    show Valid (erase h p).1 s (rmOne (xs ++ p :: ys) p)
    rw [rmOne_split hpx]
    exact (erase_ok hv).1
  | opPopFront =>
    have hne : m ≠ [] := hp
    cases m with
    | nil => exact absurd rfl hne
    | cons a t =>
      have hnext : (h s).next = a := by
        have := ring_next_s hv.1
        simpa using this
      show Valid (erase h ((h s).next)).1 s t
      rw [hnext]
      have hv' : Valid h s ([] ++ a :: t) := hv
      have := (erase_ok hv').1
      simpa using this
  | opPopBack =>
    have hne : m ≠ [] := hp
    have hprev : (h s).prev = m.getLastD s := ring_prev_s hv.1
    have hlast : m.getLastD s = m.getLast hne := getLastD_eq_getLast hne s
    have hsplit : m.dropLast ++ m.getLast hne :: [] = m := by
      simpa using List.dropLast_append_getLast hne
    have hv' : Valid h s (m.dropLast ++ m.getLast hne :: []) := by
      rw [hsplit]
      exact hv
    show Valid (erase h ((h s).prev)).1 s m.dropLast
    rw [hprev, hlast]
    have := (erase_ok hv').1
    rw [List.append_nil] at this
    exact this

theorem sim_ok {s : Nat} :
    ∀ (ops : List Op) (h : Heap) (m : List Nat),
      Valid h s m → preOps h s m ops →
      Valid (execOps h s ops) s (mOps s m ops) := by
  intro ops
  induction ops with
  | nil => intro h m hv _; exact hv
  | cons op rest ih =>
    intro h m hv hp
    exact ih (execOp h s op) (mOp s m op) (step_ok hv hp.1) hp.2

/-- `pop_front` iterated `n` times (the repeated `erase(begin())` of the
claim). -/
def popN (h : Heap) (s : Nat) : Nat → Heap
  | 0 => h
  | n + 1 => popN (pop_front h s) s n

theorem popN_ok {s : Nat} :
    ∀ (m : List Nat) (h : Heap), Valid h s m → Valid (popN h s m.length) s [] := by
  intro m
  induction m with
  | nil => intro h hv; exact hv
  | cons a t ih =>
    intro h hv
    show Valid (popN (pop_front h s) s t.length) s []
    apply ih
    have hnext : (h s).next = a := by
      have := ring_next_s hv.1
      simpa using this
    show Valid (erase h ((h s).next)).1 s t
    rw [hnext]
    have hv' : Valid h s ([] ++ a :: t) := hv
    have := (erase_ok hv').1
    simpa using this

theorem empty_of_valid_nil {h : Heap} {s : Nat} (hv : Valid h s []) :
    empty h s = true := by
  have : (h s).next = s := hv.1.1
  simp [empty, this]

/-- Initial heap: every node unlinked. -/
def h0 : Heap := fun _ => ⟨0, 0⟩

/-- A freshly constructed list with sentinel at address 1
(`list()` ties the sentinel). -/
def hInit : Heap := tie h0 1

/-- The spec's concrete scenario: push_back elements 2, 3, 4 (holding
values 1, 2, 3), erase `begin()`, then push_front the detached
element. -/
def demoOps : List Op :=
  [.opPushBack 2, .opPushBack 3, .opPushBack 4, .opErase 2, .opPushFront 2]

/-- C1: for every sequence of `push_front`/`push_back`/`insert`/`erase`/
`pop_front`/`pop_back` operations respecting the stated preconditions,
forward iteration from `begin()` to `end()` visits exactly the current
members, in the order implied by the operation sequence (the abstract
model `mOps`), and the number of visited elements equals the live
count. -/
theorem claim_C1_op_sequences (ops : List Op) (h : Heap) (s : Nat) (m : List Nat)
    (hv : Valid h s m) (hp : preOps h s m ops) :
    Valid (execOps h s ops) s (mOps s m ops) ∧
    iterate (execOps h s ops) s ((mOps s m ops).length + 1) = mOps s m ops ∧
    (iterate (execOps h s ops) s ((mOps s m ops).length + 1)).length =
      (mOps s m ops).length := by
  have hv' := sim_ok ops h m hv hp
  exact ⟨hv', iterate_ring hv', by rw [iterate_ring hv']⟩

/-- Witness for C1: the spec's 1-2-3 scenario, including reuse of the
erased node, evaluated concretely. -/
theorem claim_C1_op_sequences_witness :
    Valid hInit 1 [] ∧ preOps hInit 1 [] demoOps ∧
    mOps 1 [] demoOps = [2, 3, 4] ∧
    mOps 1 [] [.opPushBack 2, .opPushBack 3, .opPushBack 4] = [2, 3, 4] ∧
    mOps 1 [] [.opPushBack 2, .opPushBack 3, .opPushBack 4, .opErase 2] = [3, 4] ∧
    (Valid (execOps hInit 1 demoOps) 1 (mOps 1 [] demoOps) ∧
      iterate (execOps hInit 1 demoOps) 1 ((mOps 1 [] demoOps).length + 1) =
        mOps 1 [] demoOps ∧
      (iterate (execOps hInit 1 demoOps) 1 ((mOps 1 [] demoOps).length + 1)).length =
        (mOps 1 [] demoOps).length) :=
  ⟨by decide, by decide, by decide, by decide, by decide,
    claim_C1_op_sequences demoOps hInit 1 [] (by decide) (by decide)⟩

/-- C4: `erase` detaches the node, bridging its two neighbours, leaves
the element's links cleared (not destroyed), and returns the prior
successor; repeatedly erasing `begin()` until the list is empty leaves
`begin() == end()`. -/
theorem claim_C4_erase (h : Heap) (s a : Nat) (xs ys : List Nat) (m : List Nat)
    (hv : Valid h s (xs ++ a :: ys)) (hv2 : Valid h s m) :
    (Valid (erase h a).1 s (xs ++ ys) ∧
      (erase h a).2 = ys.headD s ∧
      (erase h a).1 a = ⟨0, 0⟩ ∧
      ((erase h a).1 (xs.getLastD s)).next = ys.headD s ∧
      ((erase h a).1 (ys.headD s)).prev = xs.getLastD s) ∧
    empty (popN h s m.length) s = true := by
  have he := erase_ok hv
  exact ⟨⟨he.1, he.2.1, he.2.2.1, he.2.2.2.1, he.2.2.2.2.1⟩,
    empty_of_valid_nil (popN_ok m h hv2)⟩

/-- Witness for C4 on the concrete two-element list [2, 3]. -/
theorem claim_C4_erase_witness :
    Valid (execOps hInit 1 [.opPushBack 2, .opPushBack 3]) 1 ([] ++ 2 :: [3]) ∧
    ((Valid (erase (execOps hInit 1 [.opPushBack 2, .opPushBack 3]) 2).1 1 ([] ++ [3]) ∧
      (erase (execOps hInit 1 [.opPushBack 2, .opPushBack 3]) 2).2 = [3].headD 1 ∧
      (erase (execOps hInit 1 [.opPushBack 2, .opPushBack 3]) 2).1 2 = ⟨0, 0⟩ ∧
      ((erase (execOps hInit 1 [.opPushBack 2, .opPushBack 3]) 2).1 ([].getLastD 1)).next = [3].headD 1 ∧
      ((erase (execOps hInit 1 [.opPushBack 2, .opPushBack 3]) 2).1 ([3].headD 1)).prev = [].getLastD 1) ∧
      empty (popN (execOps hInit 1 [.opPushBack 2, .opPushBack 3]) 1 ([2, 3] : List Nat).length) 1 = true) :=
  ⟨by decide,
    claim_C4_erase (execOps hInit 1 [.opPushBack 2, .opPushBack 3]) 1 2 [] [3] [2, 3]
      (by decide) (by decide)⟩

/-! ### The insert guard (C5) -/

theorem insert_snd (h : Heap) (pos e : Nat) : (insert h pos e).2 = e := by
  rw [insert]
  split <;> rfl

/-- On a ring, `prev` inverts `next`. -/
theorem ring_prev_next {h : Heap} {s : Nat} {m : List Nat} (hr : isRing h s m)
    {x : Nat} (hx : x ∈ s :: m) : (h ((h x).next)).prev = x := by
  rcases List.mem_cons.mp hx with hh | hh
  · subst hh
    rw [ring_next_s hr]
    have := (@ring_junction _ _ [] m hr).2
    simpa using this
  · obtain ⟨xs, ys, rfl⟩ := List.append_of_mem hh
    have hr' : isRing h s ((xs ++ [x]) ++ ys) := by
      simpa using hr
    have h1 := (@ring_junction _ _ (xs ++ [x]) ys hr').1
    have h2 := (@ring_junction _ _ (xs ++ [x]) ys hr').2
    rw [List.getLastD_concat] at h1 h2
    rw [show (h x).next = ys.headD s from h1]
    exact h2

/-- C5 (counterexample to the claim as stated): on the list [2, 3] the
target position 2 equals element 3's immediate predecessor, yet
`insert(2, 3)` is not a no-op: it relinks the ring to [3, 2]. -/
theorem claim_C5_guard_counterexample :
    (2 : Nat) = ((execOps hInit 1 [.opPushBack 2, .opPushBack 3]) 3).prev ∧
    iterate (execOps hInit 1 [.opPushBack 2, .opPushBack 3]) 1 3 = [2, 3] ∧
    iterate (insert (execOps hInit 1 [.opPushBack 2, .opPushBack 3]) 2 3).1 1 3 = [3, 2] ∧
    ((insert (execOps hInit 1 [.opPushBack 2, .opPushBack 3]) 2 3).1 1).next ≠
      ((execOps hInit 1 [.opPushBack 2, .opPushBack 3]) 1).next := by
  decide

/-- C5 (amended): `insert(pos, element)` is a silent no-op — the heap is
returned unchanged together with an iterator to the element — exactly
when the target position is the element itself or the element's
immediate successor (equivalently, the element is `pos` or `pos`'s
immediate predecessor). -/
theorem claim_C5_guard_noop (h : Heap) (s pos e : Nat) (m : List Nat)
    (hv : Valid h s m) (he : e ∈ s :: m)
    (hg : pos = e ∨ pos = (h e).next) :
    (insert h pos e).1 = h ∧ (insert h pos e).2 = e := by
  refine ⟨?_, insert_snd h pos e⟩
  rcases hg with hg | hg
  · exact insert_guard_eq (Or.inl hg.symm)
  · apply insert_guard_eq
    right
    rw [hg, ring_prev_next hv.1 he]

/-- Witness for the amended C5 on the list [2, 3]: inserting 2 before
its successor 3 (and before itself) changes nothing. -/
theorem claim_C5_guard_noop_witness :
    (insert (execOps hInit 1 [.opPushBack 2, .opPushBack 3]) 3 2).1 =
      execOps hInit 1 [.opPushBack 2, .opPushBack 3] ∧
    (insert (execOps hInit 1 [.opPushBack 2, .opPushBack 3]) 3 2).2 = 2 :=
  claim_C5_guard_noop (execOps hInit 1 [.opPushBack 2, .opPushBack 3]) 1 3 2 [2, 3]
    (by decide) (by decide) (by decide)

/-! ### Re-inserting a linked element (C2) -/

/-- Moving a linked element from one list into another via `insert`:
the element is detached from the source ring and relinked before `pos`;
the computation coincides, heap for heap, with `erase`-then-`insert`. -/
theorem insert_cross_ok {h : Heap} {s1 s2 pos e : Nat} {zs ws m2 : List Nat}
    (hv1 : Valid h s1 (zs ++ ws)) (hv2 : Valid h s2 m2)
    (hdisj : ∀ x ∈ s2 :: m2, x ∉ s1 :: (zs ++ ws))
    (hpos : pos = ws.headD s1) (hem : e ∈ m2) (he0 : e ≠ 0) :
    Valid (insert h pos e).1 s1 (zs ++ e :: ws) ∧
    Valid (insert h pos e).1 s2 (rmOne m2 e) ∧
    (insert h pos e).1 = (insert (erase h e).1 pos e).1 := by
  have hfirst : (h pos).prev = zs.getLastD s1 := by
    rw [hpos]; exact (ring_junction hv1.1).2
  have hthird : (h (zs.getLastD s1)).next = pos := by
    rw [hpos]; exact (ring_junction hv1.1).1
  have hfirst_ring : zs.getLastD s1 ∈ s1 :: (zs ++ ws) := by
    rcases List.mem_cons.mp (List.getLastD_mem_cons zs s1) with hh | hh
    · rw [hh]; exact List.mem_cons_self _ _
    · exact List.mem_cons_of_mem s1 (List.mem_append_left ws hh)
  have hpos_ring : pos ∈ s1 :: (zs ++ ws) := by
    rw [hpos]
    rcases List.mem_cons.mp (headD_mem_cons ws s1) with hh | hh
    · rw [hh]; exact List.mem_cons_self _ _
    · exact List.mem_cons_of_mem s1 (List.mem_append_right zs hh)
  have he_notin1 : e ∉ s1 :: (zs ++ ws) := hdisj e (List.mem_cons_of_mem s2 hem)
  have hep : e ≠ pos := fun hh => he_notin1 (hh ▸ hpos_ring)
  have hprev_ne : e ≠ (h pos).prev := by
    rw [hfirst]
    intro hh
    exact he_notin1 (hh ▸ hfirst_ring)
  have hlinked : is_linked h e = true :=
    is_linked_ring hv2 (List.mem_cons_of_mem s2 hem)
  obtain ⟨xs2, ys2, rfl, hex, hey⟩ :=
    nodup_mem_split (List.nodup_cons.mp hv2.2.1).2 hem
  have herase := erase_ok hv2
  have hrm : rmOne (xs2 ++ e :: ys2) e = xs2 ++ ys2 := rmOne_split hex
  -- the three nodes touched by the removal all live in the source ring
  have hp2_mem : xs2.getLastD s2 ∈ s2 :: (xs2 ++ e :: ys2) := by
    rcases List.mem_cons.mp (List.getLastD_mem_cons xs2 s2) with hh | hh
    · rw [hh]; exact List.mem_cons_self _ _
    · exact List.mem_cons_of_mem s2 (List.mem_append_left _ hh)
  have hn2_mem : ys2.headD s2 ∈ s2 :: (xs2 ++ e :: ys2) := by
    rcases List.mem_cons.mp (headD_mem_cons ys2 s2) with hh | hh
    · rw [hh]; exact List.mem_cons_self _ _
    · exact List.mem_cons_of_mem s2 (List.mem_append_right _ (List.mem_cons_of_mem e hh))
  have he_mem2 : e ∈ s2 :: (xs2 ++ e :: ys2) :=
    List.mem_cons_of_mem s2 (List.mem_append_right _ (List.mem_cons_self e ys2))
  have hcg1 : ∀ x ∈ s1 :: (zs ++ ws), (erase h e).1 x = h x := by
    intro x hx
    refine herase.2.2.2.2.2 x ?_ ?_ ?_
    · intro hh; exact hdisj e he_mem2 (hh ▸ hx)
    · intro hh; exact hdisj _ hp2_mem (hh ▸ hx)
    · intro hh; exact hdisj _ hn2_mem (hh ▸ hx)
  have hv1' : Valid (erase h e).1 s1 (zs ++ ws) := Valid_congr hcg1 hv1
  have he_notin1' : e ∉ s1 :: (zs ++ ws) := he_notin1
  have hlk := link_ok hv1' he_notin1' he0
  -- the insert call reduces to link4 after the removal
  have hstep : (insert h pos e).1 =
      link4 (erase h e).1 (zs.getLastD s1) e pos := by
    rw [insert_eq_of_not_guard hep hprev_ne, hfirst,
      insert_after_eq_linked hlinked, hthird]
    rfl
  have hgoal1 : Valid (insert h pos e).1 s1 (zs ++ e :: ws) := by
    rw [hstep, hpos]
    exact hlk.1
  have hmap : ∀ x, x ∈ s2 :: (xs2 ++ ys2) → x ∈ s2 :: (xs2 ++ e :: ys2) := by
    intro x hx
    rcases List.mem_cons.mp hx with hh | hh
    · rw [hh]; exact List.mem_cons_self _ _
    · rcases List.mem_append.mp hh with hh2 | hh2
      · exact List.mem_cons_of_mem s2 (List.mem_append_left _ hh2)
      · exact List.mem_cons_of_mem s2
          (List.mem_append_right _ (List.mem_cons_of_mem e hh2))
  have hgoal2 : Valid (insert h pos e).1 s2 (rmOne (xs2 ++ e :: ys2) e) := by
    rw [hrm, hstep, hpos]
    refine Valid_congr ?_ herase.1
    intro x hx
    have hx' : x ∈ s2 :: (xs2 ++ e :: ys2) := hmap x hx
    have hxr1 : x ∉ s1 :: (zs ++ ws) := hdisj x hx'
    refine hlk.2.2 x ?_ ?_ ?_
    · intro hh
      rcases List.mem_cons.mp hx with hh2 | hh2
      · apply (List.nodup_cons.mp hv2.2.1).1
        rw [show s2 = e by rw [← hh2]; exact hh]
        exact hem
      · rw [hh] at hh2
        rcases List.mem_append.mp hh2 with hh3 | hh3
        · exact hex hh3
        · exact hey hh3
    · intro hh
      exact hxr1 (hh ▸ hfirst_ring)
    · intro hh
      rw [← hpos] at hh
      exact hxr1 (hh ▸ hpos_ring)
  have hgoal3 : (insert h pos e).1 = (insert (erase h e).1 pos e).1 := by
    have hprev_ne' : e ≠ ((erase h e).1 pos).prev := by
      rw [hcg1 pos hpos_ring]
      exact hprev_ne
    have hnl : is_linked (erase h e).1 e = false := by
      simp [is_linked, herase.2.2.1]
    rw [hstep, insert_eq_of_not_guard hep hprev_ne',
      hcg1 pos hpos_ring, hfirst, insert_after_eq_not_linked hnl,
      hcg1 _ hfirst_ring, hthird]
  exact ⟨hgoal1, hgoal2, hgoal3⟩

/-- C2: re-inserting an already-linked element at a new position first
detaches it and then relinks it immediately before `pos`; the result is
observationally the `erase`-then-`insert` state.  Part one: moving from
another list (heap-for-heap equal to erase-then-insert; the element
appears exactly once in the destination and no longer in the source).
Part two: repositioning inside the same list tracks the
erase-then-insert model sequence. -/
theorem claim_C2_relink :
    (∀ (h : Heap) (s1 s2 pos e : Nat) (zs ws m2 : List Nat),
      Valid h s1 (zs ++ ws) → Valid h s2 m2 →
      (∀ x ∈ s2 :: m2, x ∉ s1 :: (zs ++ ws)) →
      pos = ws.headD s1 → e ∈ m2 → e ≠ 0 →
      Valid (insert h pos e).1 s1 (zs ++ e :: ws) ∧
      Valid (insert h pos e).1 s2 (rmOne m2 e) ∧
      (insert h pos e).1 = (insert (erase h e).1 pos e).1 ∧
      (zs ++ e :: ws).count e = 1 ∧ (rmOne m2 e).count e = 0) ∧
    (∀ (h : Heap) (s pos e : Nat) (zs ws : List Nat),
      Valid h s (zs ++ ws) → pos = ws.headD s →
      e ∈ zs ++ ws → e ≠ pos → e ≠ 0 → e ≠ s →
      Valid (insert h pos e).1 s (insertBefore (rmOne (zs ++ ws) e) pos e)) := by
  constructor
  · intro h s1 s2 pos e zs ws m2 hv1 hv2 hdisj hpos hem he0
    have hmain := insert_cross_ok hv1 hv2 hdisj hpos hem he0
    refine ⟨hmain.1, hmain.2.1, hmain.2.2, ?_, ?_⟩
    · refine List.count_eq_one_of_mem (List.nodup_cons.mp hmain.1.2.1).2 ?_
      exact List.mem_append_right zs (List.mem_cons_self e ws)
    · rw [List.count_eq_zero]
      obtain ⟨xs2, ys2, rfl, hex, hey⟩ :=
        nodup_mem_split (List.nodup_cons.mp hv2.2.1).2 hem
      rw [rmOne_split hex]
      intro hh
      rcases List.mem_append.mp hh with hh2 | hh2
      · exact hex hh2
      · exact hey hh2
  · intro h s pos e zs ws hv hpos hem hep he0 hes
    have := insert_ok_split hv hpos he0 hes (Or.inl hem)
    rwa [minsert, if_neg hep] at this

/-- Two disjoint lists in one heap: sentinels 1 and 5, members [2, 3]
and [6, 7]. -/
def hTwo : Heap :=
  execOps (execOps (tie (tie h0 1) 5) 1 [.opPushBack 2, .opPushBack 3]) 5
    [.opPushBack 6, .opPushBack 7]

/-- Witness for C2: moving element 6 from the list [6, 7] to before
position 2 of the list [2, 3], and repositioning 3 before 2 inside the
same list. -/
theorem claim_C2_relink_witness :
    (Valid (insert hTwo 2 6).1 1 ([] ++ 6 :: [2, 3]) ∧
      Valid (insert hTwo 2 6).1 5 (rmOne [6, 7] 6) ∧
      (insert hTwo 2 6).1 = (insert (erase hTwo 6).1 2 6).1 ∧
      ([] ++ 6 :: [2, 3]).count 6 = 1 ∧ (rmOne [6, 7] 6).count 6 = 0) ∧
    Valid (insert hTwo 2 3).1 1 (insertBefore (rmOne ([] ++ [2, 3]) 3) 2 3) :=
  ⟨claim_C2_relink.1 hTwo 1 5 2 6 [] [2, 3] [6, 7]
      (by decide) (by decide) (by decide) (by decide) (by decide) (by decide),
    claim_C2_relink.2 hTwo 1 2 3 [] [2, 3]
      (by decide) (by decide) (by decide) (by decide) (by decide) (by decide)⟩

/-! ### Destruction of a linked node (C7) -/

theorem base_destruct_eq_erase {h : Heap} {s a : Nat} {xs ys : List Nat}
    (hv : Valid h s (xs ++ a :: ys)) :
    base_destruct h a = (erase h a).1 := by
  have hlinked : is_linked h a = true :=
    is_linked_ring hv
      (List.mem_cons_of_mem s (List.mem_append_right xs (List.mem_cons_self a ys)))
  have herase := erase_ok hv
  funext x
  show (unlink (if is_linked h a then (remove h a).1 else h) a) x = (erase h a).1 x
  rw [hlinked]
  by_cases hx : x = a
  · subst hx
    rw [herase.2.2.1]
    simp [unlink, Heap.set]
  · show (if x = a then (⟨0, 0⟩ : Node) else (remove h a).1 x) = (erase h a).1 x
    rw [if_neg hx]
    rfl

/-- C7: destroying a linked node performs the removal before release:
its two former neighbours then reference each other directly, the
remaining ring is intact and valid, iterating the former list never
observes the destroyed node, and no ring node retains a `prev` or
`next` reference to it. -/
theorem claim_C7_destructor_unlinks (h : Heap) (s a : Nat) (xs ys : List Nat)
    (hv : Valid h s (xs ++ a :: ys)) :
    ((base_destruct h a) (xs.getLastD s)).next = ys.headD s ∧
    ((base_destruct h a) (ys.headD s)).prev = xs.getLastD s ∧
    Valid (base_destruct h a) s (xs ++ ys) ∧
    iterate (base_destruct h a) s ((xs ++ ys).length + 1) = xs ++ ys ∧
    a ∉ xs ++ ys ∧
    (∀ x ∈ s :: (xs ++ ys),
      ((base_destruct h a) x).next ≠ a ∧ ((base_destruct h a) x).prev ≠ a) := by
  have hfun := base_destruct_eq_erase hv
  have herase := erase_ok hv
  obtain ⟨haxs, hays, _, _, _, _⟩ := ring_nodup_facts hv.2.1
  have hanot : a ∉ xs ++ ys := by
    intro hh
    rcases List.mem_append.mp hh with hh2 | hh2
    · exact haxs (List.mem_cons_of_mem s hh2)
    · exact hays (List.mem_cons_of_mem s hh2)
  have hanot' : a ∉ s :: (xs ++ ys) := by
    intro hh
    rcases List.mem_cons.mp hh with hh2 | hh2
    · exact haxs (by rw [hh2]; exact List.mem_cons_self _ _)
    · exact hanot hh2
  rw [hfun]
  refine ⟨herase.2.2.2.1, herase.2.2.2.2.1, herase.1, iterate_ring herase.1, hanot, ?_⟩
  intro x hx
  have hmem := ring_mem herase.1.1 hx
  constructor
  · intro hh
    exact hanot' (hh ▸ hmem.1)
  · intro hh
    exact hanot' (hh ▸ hmem.2)

/-- Witness for C7: destroying element 3 of the list [2, 3, 4]. -/
theorem claim_C7_destructor_unlinks_witness :
    ((base_destruct (execOps hInit 1 [.opPushBack 2, .opPushBack 3, .opPushBack 4]) 3)
        ([2].getLastD 1)).next = [4].headD 1 ∧
    ((base_destruct (execOps hInit 1 [.opPushBack 2, .opPushBack 3, .opPushBack 4]) 3)
        ([4].headD 1)).prev = [2].getLastD 1 ∧
    Valid (base_destruct (execOps hInit 1 [.opPushBack 2, .opPushBack 3, .opPushBack 4]) 3)
      1 ([2] ++ [4]) ∧
    iterate (base_destruct (execOps hInit 1 [.opPushBack 2, .opPushBack 3, .opPushBack 4]) 3)
      1 (([2] ++ [4]).length + 1) = [2] ++ [4] ∧
    3 ∉ [2] ++ [4] ∧
    (∀ x ∈ 1 :: ([2] ++ [4]),
      ((base_destruct (execOps hInit 1 [.opPushBack 2, .opPushBack 3, .opPushBack 4]) 3) x).next ≠ 3 ∧
      ((base_destruct (execOps hInit 1 [.opPushBack 2, .opPushBack 3, .opPushBack 4]) 3) x).prev ≠ 3) :=
  claim_C7_destructor_unlinks (execOps hInit 1 [.opPushBack 2, .opPushBack 3, .opPushBack 4])
    1 3 [2] [4] (by decide)

/-! ### Move construction of a list (C6) -/

theorem Valid_rotate {h : Heap} {os e : Nat} {t : List Nat}
    (hv : Valid h os (e :: t)) : Valid h e (t ++ [os]) := by
  have hperm : (e :: (t ++ [os])).Perm (os :: e :: t) :=
    ((List.perm_append_singleton os t).cons e).trans (List.Perm.swap os e t)
  refine ⟨ring_rotate hv.1, ?_, ?_⟩
  · exact hperm.nodup_iff.mpr hv.2.1
  · intro h0
    exact hv.2.2 (hperm.mem_iff.mp h0)

theorem Valid_rotate_back {h : Heap} {s c : Nat} {l : List Nat}
    (hv : Valid h c (l ++ [s])) : Valid h s (c :: l) := by
  have hperm : (s :: c :: l).Perm (c :: (l ++ [s])) :=
    ((List.perm_append_singleton s l).cons c).trans (List.Perm.swap s c l) |>.symm
  refine ⟨ring_rotate_back hv.1, ?_, ?_⟩
  · exact hperm.nodup_iff.mpr hv.2.1
  · intro h0
    exact hv.2.2 (hperm.mem_iff.mp h0)

/-- C6: move-constructing a list (destination sentinel `s`, freshly
default-constructed) from a source list (sentinel `os`, members `m`)
re-anchors the member chain at `s` in the original order and leaves the
source tied to an empty self-loop (`begin() == end()`); no element is a
member of both lists. -/
theorem claim_C6_move_construct (h : Heap) (s os : Nat) (m : List Nat)
    (hv : Valid h os m) (hs0 : s ≠ 0) (hfresh : s ∉ os :: m)
    (hfree : h s = ⟨0, 0⟩) :
    Valid (list_move h s os) s m ∧
    iterate (list_move h s os) s (m.length + 1) = m ∧
    empty (list_move h s os) os = true ∧
    isRing (list_move h s os) os [] ∧
    (∀ x ∈ m, x ≠ os ∧ x ≠ s) := by
  have hsos : s ≠ os := fun hh => hfresh (by rw [hh]; exact List.mem_cons_self _ _)
  have hsm : s ∉ m := fun hh => hfresh (List.mem_cons_of_mem os hh)
  have hmem_facts : ∀ x ∈ m, x ≠ os ∧ x ≠ s := by
    intro x hx
    constructor
    · intro hh
      exact (List.nodup_cons.mp hv.2.1).1 (hh ▸ hx)
    · intro hh
      exact hsm (hh ▸ hx)
  cases m with
  | nil =>
    have hempty : empty h os = true := empty_of_valid_nil hv
    have hlm : list_move h s os = tie h s := by
      simp [list_move, hempty]
    have hos_s : (tie h s) os = h os := by
      simp [tie, Heap.set, Ne.symm hsos]
    have hss : (tie h s) s = ⟨s, s⟩ := by
      simp [tie, Heap.set]
    rw [hlm]
    refine ⟨⟨⟨?_, ?_⟩, by simp, by simpa using Ne.symm hs0⟩, ?_, ?_, ⟨?_, ?_⟩, by simp⟩
    · show ((tie h s) s).next = s
      rw [hss]
    · show ((tie h s) s).prev = s
      rw [hss]
    · show traverse (tie h s) s (((tie h s) s).next) 1 = []
      rw [hss]
      simp [traverse]
    · show (((tie h s) os).next == os) = true
      rw [hos_s]
      simp [empty] at hempty
      simp [hempty]
    · show ((tie h s) os).next = os
      rw [hos_s]
      simpa [empty] using hempty
    · show ((tie h s) os).prev = os
      rw [hos_s]
      exact hv.1.2
  | cons e t =>
    have hne : (h os).next = e := by
      have := ring_next_s hv.1
      simpa using this
    have heos : e ≠ os := (hmem_facts e (List.mem_cons_self e t)).1
    have hempty : empty h os = false := by
      simp [empty, hne, heos]
    have hlm : list_move h s os =
        tie ((insert_after (remove h os).1 ((h os).prev) s).1) os := by
      simp [list_move, hempty]
    have hprev_os : (h os).prev = t.getLastD e := by
      have := ring_prev_s hv.1
      rw [this, List.getLastD_cons]
    have hrot : Valid h e (t ++ os :: []) := Valid_rotate hv
    have herase := erase_ok hrot
    have hp_mem_rot : t.getLastD e ∈ e :: t := List.getLastD_mem_cons t e
    have hs_frame : (erase h os).1 s = h s := by
      refine herase.2.2.2.2.2 s hsos ?_ ?_
      · intro hh
        rcases List.mem_cons.mp hp_mem_rot with hh2 | hh2
        · exact hsm (by rw [hh, hh2]; exact List.mem_cons_self e t)
        · exact hsm (by rw [hh]; exact List.mem_cons_of_mem e hh2)
      · intro hh
        exact hsm (by rw [hh]; exact List.mem_cons_self e t)
    have hnl : is_linked (erase h os).1 s = false := by
      rw [is_linked, hs_frame, hfree]
      rfl
    have hnextp : ((erase h os).1 (t.getLastD e)).next = e := by
      have := herase.2.2.2.1
      simpa using this
    have hstep : (insert_after (remove h os).1 ((h os).prev) s).1 =
        link4 (erase h os).1 (t.getLastD e) s e := by
      rw [hprev_os]
      rw [show (remove h os).1 = (erase h os).1 from rfl]
      rw [insert_after_eq_not_linked hnl, hnextp]
    have hsfresh' : s ∉ e :: (t ++ []) := by
      rw [List.append_nil]
      intro hh
      exact hsm hh
    have hlk := @link_ok (erase h os).1 e s t []
      herase.1 hsfresh' hs0
    have hv2 : Valid (link4 (erase h os).1 (t.getLastD e) s e) e (t ++ [s]) := by
      have := hlk.1
      simpa using this
    have hv2' : Valid (link4 (erase h os).1 (t.getLastD e) s e) s (e :: t) :=
      Valid_rotate_back hv2
    have hos_notin : os ∉ s :: e :: t := by
      intro hh
      rcases List.mem_cons.mp hh with hh2 | hh2
      · exact hsos hh2.symm
      · exact (List.nodup_cons.mp hv.2.1).1 hh2
    have htie_cg : ∀ x ∈ s :: e :: t,
        (tie (link4 (erase h os).1 (t.getLastD e) s e) os) x =
          (link4 (erase h os).1 (t.getLastD e) s e) x := by
      intro x hx
      have hxos : x ≠ os := fun hh => hos_notin (hh ▸ hx)
      simp [tie, Heap.set, hxos]
    have hv3 : Valid (tie (link4 (erase h os).1 (t.getLastD e) s e) os) s (e :: t) :=
      Valid_congr htie_cg hv2'
    have htie_os : (tie (link4 (erase h os).1 (t.getLastD e) s e) os) os = ⟨os, os⟩ := by
      simp [tie, Heap.set]
    rw [hlm, hstep]
    refine ⟨hv3, iterate_ring hv3, ?_, ⟨?_, ?_⟩, hmem_facts⟩
    · show (((tie (link4 (erase h os).1 (t.getLastD e) s e) os) os).next == os) = true
      rw [htie_os]
      simp
    · show ((tie (link4 (erase h os).1 (t.getLastD e) s e) os) os).next = os
      rw [htie_os]
    · show ((tie (link4 (erase h os).1 (t.getLastD e) s e) os) os).prev = os
      rw [htie_os]

/-- Witness for C6: move-constructing from the list [2, 3] (sentinel 1)
into a fresh list with sentinel 5. -/
theorem claim_C6_move_construct_witness :
    Valid (list_move (execOps hInit 1 [.opPushBack 2, .opPushBack 3]) 5 1) 5 [2, 3] ∧
    iterate (list_move (execOps hInit 1 [.opPushBack 2, .opPushBack 3]) 5 1) 5
      (([2, 3] : List Nat).length + 1) = [2, 3] ∧
    empty (list_move (execOps hInit 1 [.opPushBack 2, .opPushBack 3]) 5 1) 1 = true ∧
    isRing (list_move (execOps hInit 1 [.opPushBack 2, .opPushBack 3]) 5 1) 1 [] ∧
    (∀ x ∈ ([2, 3] : List Nat), x ≠ 1 ∧ x ≠ 5) :=
  claim_C6_move_construct (execOps hInit 1 [.opPushBack 2, .opPushBack 3]) 5 1 [2, 3]
    (by decide) (by decide) (by decide) (by decide)

/-! ### Move construction of a node (C8) -/

theorem ring_elem_junction {h : Heap} {s a : Nat} {xs ys : List Nat}
    (hr : isRing h s (xs ++ a :: ys)) :
    (h a).prev = xs.getLastD s ∧ (h a).next = ys.headD s := by
  constructor
  · have := (@ring_junction _ _ xs (a :: ys) hr).2
    simpa using this
  · have hr' : isRing h s ((xs ++ [a]) ++ ys) := by simpa using hr
    have := (@ring_junction _ _ (xs ++ [a]) ys hr').1
    simpa [List.getLastD_concat] using this

theorem base_move_apply {h : Heap} {src dst p n : Nat}
    (hp : (h src).prev = p) (hn : (h src).next = n)
    (hp0 : p ≠ 0) (hn0 : n ≠ 0) (hps : p ≠ src) (hns : n ≠ src)
    (hd1 : dst ≠ src) (hd2 : dst ≠ p) (hd3 : dst ≠ n) (x : Nat) :
    base_move h src dst x =
      if x = src then ⟨0, 0⟩
      else if x = dst then ⟨p, n⟩
      else ⟨if x = n then dst else (h x).prev,
            if x = p then dst else (h x).next⟩ := by
  have hsp : src ≠ p := Ne.symm hps
  have hsn : src ≠ n := Ne.symm hns
  have hsd : src ≠ dst := Ne.symm hd1
  simp only [base_move, unlink, Heap.setNext, Heap.setPrev, Heap.set, hp, hn]
  split_ifs <;> simp_all [Heap.set]

/-- The heap transform of `base_list_element`'s move constructor
coincides with detach-then-relink at the same ring slot. -/
theorem base_move_eq {h : Heap} {s src dst : Nat} {xs ys : List Nat}
    (hv : Valid h s (xs ++ src :: ys)) (hd : dst ∉ s :: (xs ++ src :: ys))
    (hd0 : dst ≠ 0) :
    base_move h src dst =
      link4 (erase h src).1 (xs.getLastD s) dst (ys.headD s) := by
  obtain ⟨hjp, hjn⟩ := ring_elem_junction hv.1
  obtain ⟨haxs, hays, hndxs, hndys, hdisj, _⟩ := ring_nodup_facts hv.2.1
  have hp_mem : xs.getLastD s ∈ s :: xs := List.getLastD_mem_cons xs s
  have hn_mem : ys.headD s ∈ s :: ys := headD_mem_cons ys s
  have hp_ring : xs.getLastD s ∈ s :: (xs ++ src :: ys) := by
    rcases List.mem_cons.mp hp_mem with hh | hh
    · rw [hh]; exact List.mem_cons_self _ _
    · exact List.mem_cons_of_mem s (List.mem_append_left _ hh)
  have hn_ring : ys.headD s ∈ s :: (xs ++ src :: ys) := by
    rcases List.mem_cons.mp hn_mem with hh | hh
    · rw [hh]; exact List.mem_cons_self _ _
    · exact List.mem_cons_of_mem s (List.mem_append_right _ (List.mem_cons_of_mem src hh))
  have hp0 : xs.getLastD s ≠ 0 := by
    intro hh
    exact hv.2.2 (hh ▸ hp_ring)
  have hn0 : ys.headD s ≠ 0 := by
    intro hh
    exact hv.2.2 (hh ▸ hn_ring)
  have hps : xs.getLastD s ≠ src := fun hh => haxs (hh ▸ hp_mem)
  have hns : ys.headD s ≠ src := fun hh => hays (hh ▸ hn_mem)
  have hd1 : dst ≠ src := by
    intro hh
    apply hd
    rw [hh]
    exact List.mem_cons_of_mem s (List.mem_append_right xs (List.mem_cons_self src ys))
  have hd2 : dst ≠ xs.getLastD s := fun hh => hd (hh ▸ hp_ring)
  have hd3 : dst ≠ ys.headD s := fun hh => hd (hh ▸ hn_ring)
  have hsrc_prev_ne : (h src).prev ≠ src := by
    rw [hjp]; exact hps
  have herw := @remove_fst_apply h src hsrc_prev_ne
  have hlw := @link4_apply (erase h src).1 (xs.getLastD s) dst (ys.headD s) hd2 hd3
  funext x
  rw [base_move_apply hjp hjn hp0 hn0 hps hns hd1 hd2 hd3 x, hlw x]
  rw [show (erase h src).1 = (remove h src).1 from rfl]
  rw [herw x, hjp, hjn]
  split_ifs <;> simp_all

/-- C8 (link-node part): move-constructing a node from a linked source
rewires both neighbours to the destination, gives the destination the
source's ring slot (the remaining ring is valid with `dst` in `src`'s
position), and leaves the source unlinked. -/
theorem claim_C8_node_move_construct (h : Heap) (s src dst : Nat) (xs ys : List Nat)
    (hv : Valid h s (xs ++ src :: ys)) (hd : dst ∉ s :: (xs ++ src :: ys))
    (hd0 : dst ≠ 0) :
    ((base_move h src dst) (xs.getLastD s)).next = dst ∧
    ((base_move h src dst) (ys.headD s)).prev = dst ∧
    (base_move h src dst) dst = ⟨xs.getLastD s, ys.headD s⟩ ∧
    (base_move h src dst) src = ⟨0, 0⟩ ∧
    is_linked (base_move h src dst) src = false ∧
    Valid (base_move h src dst) s (xs ++ dst :: ys) := by
  obtain ⟨hjp, hjn⟩ := ring_elem_junction hv.1
  obtain ⟨haxs, hays, _, _, _, _⟩ := ring_nodup_facts hv.2.1
  have hp_mem : xs.getLastD s ∈ s :: xs := List.getLastD_mem_cons xs s
  have hn_mem : ys.headD s ∈ s :: ys := headD_mem_cons ys s
  have hps : xs.getLastD s ≠ src := fun hh => haxs (hh ▸ hp_mem)
  have hns : ys.headD s ≠ src := fun hh => hays (hh ▸ hn_mem)
  have hfun := base_move_eq hv hd hd0
  have herase := erase_ok hv
  have hd2 : dst ≠ xs.getLastD s := by
    intro hh
    apply hd
    rw [hh]
    rcases List.mem_cons.mp hp_mem with hh2 | hh2
    · rw [hh2]; exact List.mem_cons_self _ _
    · exact List.mem_cons_of_mem s (List.mem_append_left _ hh2)
  have hd3 : dst ≠ ys.headD s := by
    intro hh
    apply hd
    rw [hh]
    rcases List.mem_cons.mp hn_mem with hh2 | hh2
    · rw [hh2]; exact List.mem_cons_self _ _
    · exact List.mem_cons_of_mem s (List.mem_append_right _ (List.mem_cons_of_mem src hh2))
  have hd_notin' : dst ∉ s :: (xs ++ ys) := by
    intro hh
    apply hd
    rcases List.mem_cons.mp hh with hh2 | hh2
    · rw [hh2]; exact List.mem_cons_self _ _
    · rcases List.mem_append.mp hh2 with hh3 | hh3
      · exact List.mem_cons_of_mem s (List.mem_append_left _ hh3)
      · exact List.mem_cons_of_mem s (List.mem_append_right _ (List.mem_cons_of_mem src hh3))
  have hlk := @link_ok (erase h src).1 s dst xs ys
    herase.1 hd_notin' hd0
  have hlw := @link4_apply (erase h src).1 (xs.getLastD s) dst (ys.headD s) hd2 hd3
  rw [hfun]
  refine ⟨?_, ?_, ?_, ?_, ?_, hlk.1⟩
  · rw [hlw, if_neg (Ne.symm hd2)]
    dsimp only
    rw [if_pos rfl]
  · rw [hlw, if_neg (Ne.symm hd3)]
    dsimp only
    rw [if_pos rfl]
  · rw [hlw, if_pos rfl]
  · have hsrc_ne_first : src ≠ xs.getLastD s := Ne.symm hps
    have hsrc_ne_third : src ≠ ys.headD s := Ne.symm hns
    have hsrc_ne_dst : src ≠ dst := by
      intro hh
      apply hd
      rw [← hh]
      exact List.mem_cons_of_mem s (List.mem_append_right xs (List.mem_cons_self src ys))
    rw [hlw, if_neg hsrc_ne_dst, if_neg hsrc_ne_third, if_neg hsrc_ne_first,
      herase.2.2.1]
  · have hsrc_ne_first : src ≠ xs.getLastD s := Ne.symm hps
    have hsrc_ne_third : src ≠ ys.headD s := Ne.symm hns
    have hsrc_ne_dst : src ≠ dst := by
      intro hh
      apply hd
      rw [← hh]
      exact List.mem_cons_of_mem s (List.mem_append_right xs (List.mem_cons_self src ys))
    rw [is_linked, hlw, if_neg hsrc_ne_dst, if_neg hsrc_ne_third, if_neg hsrc_ne_first,
      herase.2.2.1]
    rfl

/-- Witness for C8: moving the node 3 of the ring [2, 3, 4] to the
fresh address 9. -/
theorem claim_C8_node_move_construct_witness :
    ((base_move (execOps hInit 1 [.opPushBack 2, .opPushBack 3, .opPushBack 4]) 3 9)
        ([2].getLastD 1)).next = 9 ∧
    ((base_move (execOps hInit 1 [.opPushBack 2, .opPushBack 3, .opPushBack 4]) 3 9)
        ([4].headD 1)).prev = 9 ∧
    (base_move (execOps hInit 1 [.opPushBack 2, .opPushBack 3, .opPushBack 4]) 3 9) 9 =
      ⟨[2].getLastD 1, [4].headD 1⟩ ∧
    (base_move (execOps hInit 1 [.opPushBack 2, .opPushBack 3, .opPushBack 4]) 3 9) 3 =
      ⟨0, 0⟩ ∧
    is_linked (base_move (execOps hInit 1 [.opPushBack 2, .opPushBack 3, .opPushBack 4]) 3 9) 3 = false ∧
    Valid (base_move (execOps hInit 1 [.opPushBack 2, .opPushBack 3, .opPushBack 4]) 3 9)
      1 ([2] ++ 9 :: [4]) :=
  claim_C8_node_move_construct (execOps hInit 1 [.opPushBack 2, .opPushBack 3, .opPushBack 4])
    1 3 9 [2] [4] (by decide) (by decide) (by decide)

/-! ### Splice (C3, C10) -/

theorem splice_empty (h : Heap) (pos other b : Nat) : splice h pos other b b = h := by
  rw [splice, if_pos rfl]

theorem setNext_prev (h : Heap) (a t x : Nat) :
    ((h.setNext a t) x).prev = (h x).prev := by
  simp only [Heap.setNext, Heap.set]
  split_ifs with hx
  · subst hx; rfl
  · rfl

theorem setNext_next (h : Heap) (a t x : Nat) :
    ((h.setNext a t) x).next = if x = a then t else (h x).next := by
  simp only [Heap.setNext, Heap.set]
  split_ifs <;> rfl

theorem setPrev_next (h : Heap) (a t x : Nat) :
    ((h.setPrev a t) x).next = (h x).next := by
  simp only [Heap.setPrev, Heap.set]
  split_ifs with hx
  · subst hx; rfl
  · rfl

theorem setPrev_prev (h : Heap) (a t x : Nat) :
    ((h.setPrev a t) x).prev = if x = a then t else (h x).prev := by
  simp only [Heap.setPrev, Heap.set]
  split_ifs <;> rfl

/-- Pointwise description of a non-degenerate splice: exactly six
reference rewrites, independent of the range length. -/
theorem splice_apply {h : Heap} {pos other first second : Nat}
    (hfs : first ≠ second) (hps : pos ≠ second) (x : Nat) :
    splice h pos other first second x =
      ⟨if x = pos then (h second).prev
        else if x = first then (h pos).prev
        else if x = second then (h first).prev
        else (h x).prev,
       if x = (h second).prev then pos
        else if x = (h pos).prev then first
        else if x = (h first).prev then second
        else (h x).next⟩ := by
  have hx : splice h pos other first second x =
      ⟨(splice h pos other first second x).prev,
        (splice h pos other first second x).next⟩ := rfl
  rw [hx]
  simp only [splice, if_neg hfs]
  simp only [setNext_prev, setNext_next, setPrev_prev, setPrev_next, hps, if_false]

/-- Transfer of a pointer chain to a new heap: the entry pointer now
comes from `cur'`, the exit pointer is redirected to `stopN`, and the
interior of the chain is untouched. -/
theorem seg_shift {f : Node → Nat} {h h' : Heap} {stopO stopN cur cur' : Nat}
    {l : List Nat}
    (hseg : seg f h stopO cur l)
    (hnd : l.Nodup)
    (hentry : f (h' cur') = l.headD stopN)
    (hlast : l ≠ [] → f (h' (l.getLastD cur')) = stopN)
    (hmid : ∀ x ∈ l, x ≠ l.getLastD cur' → f (h' x) = f (h x)) :
    seg f h' stopN cur' l := by
  cases l with
  | nil => simpa [seg] using hentry
  | cons e t =>
    refine ⟨by simpa using hentry, ?_⟩
    rw [List.getLastD_cons] at hlast hmid
    refine seg_retarget ?_ hseg.2 (hlast (by simp)) hmid
    exact hnd

theorem ne_of_mem_not_mem {x w : Nat} {l : List Nat} (hx : x ∈ l) (hw : w ∉ l) :
    x ≠ w := fun hh => hw (hh ▸ hx)

theorem mem_ring_left {s x : Nat} {xs ys : List Nat} (hx : x ∈ s :: xs) :
    x ∈ s :: (xs ++ ys) := by
  rcases List.mem_cons.mp hx with hh | hh
  · rw [hh]; exact List.mem_cons_self _ _
  · exact List.mem_cons_of_mem s (List.mem_append_left ys hh)

theorem mem_ring_right {s x : Nat} {xs ys : List Nat} (hx : x ∈ s :: ys) :
    x ∈ s :: (xs ++ ys) := by
  rcases List.mem_cons.mp hx with hh | hh
  · rw [hh]; exact List.mem_cons_self _ _
  · exact List.mem_cons_of_mem s (List.mem_append_right xs hh)

theorem nodup_ring_insert_middle {s1 : Nat} {c d r2 : List Nat}
    (h1 : (s1 :: (c ++ d)).Nodup) (h2 : r2.Nodup)
    (hdj : ∀ x ∈ r2, x ∉ s1 :: (c ++ d)) :
    (s1 :: (c ++ (r2 ++ d))).Nodup := by
  obtain ⟨hs1, hcd⟩ := List.nodup_cons.mp h1
  rw [List.nodup_append] at hcd
  obtain ⟨hc, hd, hcddisj⟩ := hcd
  simp only [List.mem_append, not_or] at hs1
  refine List.nodup_cons.mpr ⟨?_, ?_⟩
  · simp only [List.mem_append, not_or]
    refine ⟨hs1.1, ?_, hs1.2⟩
    intro hh
    exact hdj s1 hh (List.mem_cons_self _ _)
  · rw [List.nodup_append]
    refine ⟨hc, ?_, ?_⟩
    · rw [List.nodup_append]
      refine ⟨h2, hd, ?_⟩
      intro x hx hx2
      exact hdj x hx (List.mem_cons_of_mem s1 (List.mem_append_right c hx2))
    · intro x hx hx2
      rcases List.mem_append.mp hx2 with hh | hh
      · exact hdj x hh (List.mem_cons_of_mem s1 (List.mem_append_left d hx))
      · exact hcddisj hx hh

/-- Cross-list splice: the half-open range `[first, second)` — the
segment `r` of the source ring — is relocated immediately before `pos`
in the destination ring, preserving its relative order, with a
footprint of six nodes independent of the range length. -/
theorem splice_cross_ok {h : Heap} {s1 s2 other pos first second : Nat}
    {c d u r v : List Nat}
    (hv1 : Valid h s1 (c ++ d)) (hv2 : Valid h s2 (u ++ (r ++ v)))
    (hdisj : ∀ x ∈ s2 :: (u ++ (r ++ v)), x ∉ s1 :: (c ++ d))
    (hrne : r ≠ [])
    (hpos : pos = d.headD s1) (hfirst : first = r.headD 0)
    (hsecond : second = v.headD s2) :
    Valid (splice h pos other first second) s1 (c ++ (r ++ d)) ∧
    Valid (splice h pos other first second) s2 (u ++ v) ∧
    (∀ x, x ≠ first → x ≠ second → x ≠ pos →
      x ≠ (h first).prev → x ≠ (h pos).prev → x ≠ (h second).prev →
      splice h pos other first second x = h x) := by
  obtain ⟨rh, rt, rfl⟩ : ∃ a t, r = a :: t := by
    cases r with
    | nil => exact absurd rfl hrne
    | cons a t => exact ⟨a, t, rfl⟩
  simp only [List.headD_cons] at hfirst
  rw [eq_comm] at hfirst
  subst hfirst
  subst hpos
  subst hsecond
  -- nodup decompositions
  obtain ⟨hnd_c, hnd_d, hdj_cd⟩ := ring_nodup_facts2 hv1.2.1
  obtain ⟨hnd_u, hnd_rv, hdj_u_rv⟩ := ring_nodup_facts2 hv2.2.1
  obtain ⟨hnd_r, hnd_v, hdj_r_v⟩ :=
    @ring_nodup_facts2 _ (rh :: rt) v hnd_rv
  -- memberships of the six touched nodes
  have hPP_mem : c.getLastD s1 ∈ s1 :: c := List.getLastD_mem_cons c s1
  have hpos_mem : d.headD s1 ∈ s1 :: d := headD_mem_cons d s1
  have hFP_mem : u.getLastD s2 ∈ s2 :: u := List.getLastD_mem_cons u s2
  have hsec_mem : v.headD s2 ∈ s2 :: v := headD_mem_cons v s2
  have hLAST_mem : rt.getLastD rh ∈ rh :: rt := List.getLastD_mem_cons rt rh
  have hPP_ring1 : c.getLastD s1 ∈ s1 :: (c ++ d) := mem_ring_left hPP_mem
  have hpos_ring1 : d.headD s1 ∈ s1 :: (c ++ d) := mem_ring_right hpos_mem
  have hFP_ring2 : u.getLastD s2 ∈ s2 :: (u ++ ((rh :: rt) ++ v)) :=
    mem_ring_left hFP_mem
  have hsec_ring2 : v.headD s2 ∈ s2 :: (u ++ ((rh :: rt) ++ v)) := by
    refine @mem_ring_right s2 _ u _ ?_
    exact mem_ring_right hsec_mem
  have hLAST_ring2 : rt.getLastD rh ∈ s2 :: (u ++ ((rh :: rt) ++ v)) := by
    refine @mem_ring_right s2 _ u _ ?_
    exact mem_ring_left (List.mem_cons_of_mem s2 hLAST_mem)
  have hrh_ring2 : rh ∈ s2 :: (u ++ ((rh :: rt) ++ v)) := by
    refine @mem_ring_right s2 _ u _ ?_
    exact mem_ring_left (List.mem_cons_of_mem s2 (List.mem_cons_self rh rt))
  have hne12 : ∀ x ∈ s2 :: (u ++ ((rh :: rt) ++ v)), ∀ y ∈ s1 :: (c ++ d), x ≠ y :=
    fun x hx y hy hh => hdisj x hx (hh ▸ hy)
  -- in-ring2 inequalities
  have hFP_ne_LAST : u.getLastD s2 ≠ rt.getLastD rh := by
    intro hh
    exact hdj_u_rv _ hFP_mem (by rw [hh]; exact List.mem_append_left v hLAST_mem)
  have hFP_ne_rh : u.getLastD s2 ≠ rh := by
    intro hh
    exact hdj_u_rv _ hFP_mem (by rw [hh]; exact List.mem_append_left v (List.mem_cons_self rh rt))
  have hsec_ne_rh : v.headD s2 ≠ rh := by
    rcases List.mem_cons.mp hsec_mem with hh | hh
    · rw [hh]
      intro hh2
      exact (List.nodup_cons.mp hnd_r).1 (hh2 ▸ List.mem_cons_self rh rt)
    · intro hh2
      exact hdj_r_v rh (List.mem_cons_of_mem s2 (List.mem_cons_self rh rt)) (hh2 ▸ hh)
  have hsec_ne_LAST : v.headD s2 ≠ rt.getLastD rh := by
    rcases List.mem_cons.mp hsec_mem with hh | hh
    · rw [hh]
      intro hh2
      exact (List.nodup_cons.mp hnd_r).1 (hh2 ▸ hLAST_mem)
    · intro hh2
      exact hdj_r_v _ (List.mem_cons_of_mem s2 hLAST_mem) (hh2 ▸ hh)
  have hfs : rh ≠ v.headD s2 := Ne.symm hsec_ne_rh
  have hps2 : d.headD s1 ≠ v.headD s2 :=
    Ne.symm (hne12 _ hsec_ring2 _ hpos_ring1)
  -- junction values in the original heap
  have hjp : (h (d.headD s1)).prev = c.getLastD s1 := (ring_junction hv1.1).2
  have hjf : (h rh).prev = u.getLastD s2 := by
    have := (@ring_junction _ _ u ((rh :: rt) ++ v) hv2.1).2
    simpa using this
  have hjs : (h (v.headD s2)).prev = rt.getLastD rh := by
    have hv2' : isRing h s2 ((u ++ (rh :: rt)) ++ v) := by
      rw [List.append_assoc]
      exact hv2.1
    have := (@ring_junction _ _ (u ++ (rh :: rt)) v hv2').2
    rw [getLastD_append, List.getLastD_cons] at this
    exact this
  -- pointwise description of the spliced heap
  have hw := @splice_apply h _ other _ _ hfs hps2
  have hw' : ∀ x, splice h (d.headD s1) other rh (v.headD s2) x =
      ⟨if x = d.headD s1 then rt.getLastD rh
        else if x = rh then c.getLastD s1
        else if x = v.headD s2 then u.getLastD s2
        else (h x).prev,
       if x = rt.getLastD rh then d.headD s1
        else if x = c.getLastD s1 then rh
        else if x = u.getLastD s2 then v.headD s2
        else (h x).next⟩ := by
    intro x
    rw [hw x, hjp, hjf, hjs]
  have n_pp : (splice h (d.headD s1) other rh (v.headD s2) (c.getLastD s1)).next = rh := by
    rw [hw']
    dsimp only
    rw [if_neg (Ne.symm (hne12 _ hLAST_ring2 _ hPP_ring1)), if_pos rfl]
  have n_last : (splice h (d.headD s1) other rh (v.headD s2) (rt.getLastD rh)).next =
      d.headD s1 := by
    rw [hw']
    dsimp only
    rw [if_pos rfl]
  have n_fp : (splice h (d.headD s1) other rh (v.headD s2) (u.getLastD s2)).next =
      v.headD s2 := by
    rw [hw']
    dsimp only
    rw [if_neg hFP_ne_LAST, if_neg (hne12 _ hFP_ring2 _ hPP_ring1), if_pos rfl]
  have n_other : ∀ x, x ≠ rt.getLastD rh → x ≠ c.getLastD s1 → x ≠ u.getLastD s2 →
      (splice h (d.headD s1) other rh (v.headD s2) x).next = (h x).next := by
    intro x h1 h2 h3
    rw [hw']
    dsimp only
    rw [if_neg h1, if_neg h2, if_neg h3]
  have p_pos : (splice h (d.headD s1) other rh (v.headD s2) (d.headD s1)).prev =
      rt.getLastD rh := by
    rw [hw']
    dsimp only
    rw [if_pos rfl]
  have p_first : (splice h (d.headD s1) other rh (v.headD s2) rh).prev =
      c.getLastD s1 := by
    rw [hw']
    dsimp only
    rw [if_neg (hne12 _ hrh_ring2 _ hpos_ring1), if_pos rfl]
  have p_second : (splice h (d.headD s1) other rh (v.headD s2) (v.headD s2)).prev =
      u.getLastD s2 := by
    rw [hw']
    dsimp only
    rw [if_neg (hne12 _ hsec_ring2 _ hpos_ring1), if_neg hsec_ne_rh, if_pos rfl]
  have p_other : ∀ x, x ≠ d.headD s1 → x ≠ rh → x ≠ v.headD s2 →
      (splice h (d.headD s1) other rh (v.headD s2) x).prev = (h x).prev := by
    intro x h1 h2 h3
    rw [hw']
    dsimp only
    rw [if_neg h1, if_neg h2, if_neg h3]
  -- original chains, next direction
  have hN := hv1.1.1
  rw [seg_append c d s1] at hN
  obtain ⟨hN1, hN2⟩ := hN
  have hM := hv2.1.1
  rw [seg_append u ((rh :: rt) ++ v) s2] at hM
  obtain ⟨hM1, hM2⟩ := hM
  rw [seg_append (rh :: rt) v (u.getLastD s2)] at hM2
  obtain ⟨hM2a, hM2b⟩ := hM2
  rw [List.getLastD_cons] at hM2b
  simp only [List.cons_append, List.headD_cons] at hM1 hM2a
  -- original chains, prev direction
  have hP := hv1.1.2
  rw [show (c ++ d).reverse = d.reverse ++ c.reverse by simp] at hP
  rw [seg_append d.reverse c.reverse s1] at hP
  obtain ⟨hP1, hP2⟩ := hP
  rw [headD_reverse] at hP1
  rw [getLastD_reverse] at hP2
  have hQ := hv2.1.2
  rw [show (u ++ ((rh :: rt) ++ v)).reverse =
      v.reverse ++ ((rh :: rt).reverse ++ u.reverse) by simp] at hQ
  rw [seg_append v.reverse ((rh :: rt).reverse ++ u.reverse) s2] at hQ
  obtain ⟨hQ1, hQ2⟩ := hQ
  rw [headD_append, headD_reverse, List.getLastD_cons] at hQ1
  rw [getLastD_reverse] at hQ2
  rw [seg_append (rh :: rt).reverse u.reverse (v.headD s2)] at hQ2
  obtain ⟨hQ2a, hQ2b⟩ := hQ2
  rw [headD_reverse] at hQ2a
  rw [getLastD_reverse, List.headD_cons] at hQ2b
  -- frame
  have hframe : ∀ x, x ≠ rh → x ≠ v.headD s2 → x ≠ d.headD s1 →
      x ≠ (h rh).prev → x ≠ (h (d.headD s1)).prev → x ≠ (h (v.headD s2)).prev →
      splice h (d.headD s1) other rh (v.headD s2) x = h x := by
    intro x h1 h2 h3 h4 h5 h6
    rw [hjf] at h4
    rw [hjp] at h5
    rw [hjs] at h6
    have hxp := p_other x h3 h1 h2
    have hxn := n_other x h6 h5 h4
    have : splice h (d.headD s1) other rh (v.headD s2) x =
        ⟨(splice h (d.headD s1) other rh (v.headD s2) x).prev,
          (splice h (d.headD s1) other rh (v.headD s2) x).next⟩ := rfl
    rw [this, hxp, hxn]  -- membership helpers for the four sublists
  have getLastD_mem' : ∀ (l : List Nat) (dd : Nat), l ≠ [] → l.getLastD dd ∈ l := by
    intro l dd hl
    cases l with
    | nil => exact absurd rfl hl
    | cons a t =>
      rw [List.getLastD_cons]
      exact List.getLastD_mem_cons t a
  have headD_mem' : ∀ (l : List Nat) (dd : Nat), l ≠ [] → l.headD dd ∈ l := by
    intro l dd hl
    cases l with
    | nil => exact absurd rfl hl
    | cons a t => exact List.mem_cons_self a t
  have hndr2 : (rh :: rt).Nodup := (List.nodup_cons.mp hnd_r).2
  have hrh_notin_rt : rh ∉ rt := (List.nodup_cons.mp hndr2).1
  have hs2_notin_u : s2 ∉ u := (List.nodup_cons.mp hnd_u).1
  have hs2_notin_r : s2 ∉ rh :: rt := (List.nodup_cons.mp hnd_r).1
  have hs2_notin_v : s2 ∉ v := (List.nodup_cons.mp hnd_v).1
  have hc_ring1 : ∀ x ∈ c, x ∈ s1 :: (c ++ d) :=
    fun x hx => List.mem_cons_of_mem s1 (List.mem_append_left d hx)
  have hd_ring1 : ∀ x ∈ d, x ∈ s1 :: (c ++ d) :=
    fun x hx => List.mem_cons_of_mem s1 (List.mem_append_right c hx)
  have hu_ring2 : ∀ x ∈ u, x ∈ s2 :: (u ++ ((rh :: rt) ++ v)) :=
    fun x hx => List.mem_cons_of_mem s2 (List.mem_append_left _ hx)
  have hr_ring2 : ∀ x ∈ rh :: rt, x ∈ s2 :: (u ++ ((rh :: rt) ++ v)) :=
    fun x hx => List.mem_cons_of_mem s2 (List.mem_append_right u (List.mem_append_left v hx))
  have hv_ring2 : ∀ x ∈ v, x ∈ s2 :: (u ++ ((rh :: rt) ++ v)) :=
    fun x hx => List.mem_cons_of_mem s2 (List.mem_append_right u (List.mem_append_right _ hx))
  have h1ne : ∀ x ∈ s1 :: (c ++ d),
      x ≠ rt.getLastD rh ∧ x ≠ u.getLastD s2 ∧ x ≠ rh ∧ x ≠ v.headD s2 :=
    fun x hx => ⟨(hne12 _ hLAST_ring2 x hx).symm, (hne12 _ hFP_ring2 x hx).symm,
      (hne12 _ hrh_ring2 x hx).symm, (hne12 _ hsec_ring2 x hx).symm⟩
  have h2ne : ∀ x ∈ s2 :: (u ++ ((rh :: rt) ++ v)),
      x ≠ d.headD s1 ∧ x ≠ c.getLastD s1 ∧ x ≠ s1 :=
    fun x hx => ⟨hne12 x hx _ hpos_ring1, hne12 x hx _ hPP_ring1,
      hne12 x hx s1 (List.mem_cons_self _ _)⟩
  have hc_ne_pos : ∀ x ∈ c, x ≠ d.headD s1 := by
    intro x hx h2
    rcases List.mem_cons.mp hpos_mem with hh | hh
    · rw [h2.trans hh] at hx
      exact (List.nodup_cons.mp hnd_c).1 hx
    · apply hdj_cd x (List.mem_cons_of_mem s1 hx)
      rw [h2]
      exact hh
  have hd_ne_PP : ∀ x ∈ d, x ≠ c.getLastD s1 := by
    intro x hx h2
    rcases List.mem_cons.mp hPP_mem with hh | hh
    · rw [h2.trans hh] at hx
      exact (List.nodup_cons.mp hnd_d).1 hx
    · exact hdj_cd _ (List.mem_cons_of_mem s1 hh) (by rw [← h2]; exact hx)
  have hr_ne_FP : ∀ x ∈ rh :: rt, x ≠ u.getLastD s2 := by
    intro x hx h2
    exact hdj_u_rv _ hFP_mem (by rw [← h2]; exact List.mem_append_left v hx)
  have hr_ne_sec : ∀ x ∈ rh :: rt, x ≠ v.headD s2 := by
    intro x hx h2
    rcases List.mem_cons.mp hsec_mem with hh | hh
    · rw [h2.trans hh] at hx
      exact hs2_notin_r hx
    · exact hdj_r_v x (List.mem_cons_of_mem s2 hx) (by rw [h2]; exact hh)
  have hu_ne_LAST : ∀ x ∈ u, x ≠ rt.getLastD rh := by
    intro x hx h2
    exact hdj_u_rv x (List.mem_cons_of_mem s2 hx)
      (by rw [h2]; exact List.mem_append_left v hLAST_mem)
  have hu_ne_rh : ∀ x ∈ u, x ≠ rh := by
    intro x hx h2
    exact hdj_u_rv x (List.mem_cons_of_mem s2 hx)
      (by rw [h2]; exact List.mem_append_left v (List.mem_cons_self rh rt))
  have hu_ne_sec : ∀ x ∈ u, x ≠ v.headD s2 := by
    intro x hx h2
    rcases List.mem_cons.mp hsec_mem with hh | hh
    · rw [h2.trans hh] at hx
      exact hs2_notin_u hx
    · exact hdj_u_rv x (List.mem_cons_of_mem s2 hx)
        (by rw [h2]; exact List.mem_append_right _ hh)
  have hv_ne_LAST : ∀ x ∈ v, x ≠ rt.getLastD rh := by
    intro x hx h2
    exact hdj_r_v _ (List.mem_cons_of_mem s2 hLAST_mem) (by rw [← h2]; exact hx)
  have hv_ne_rh : ∀ x ∈ v, x ≠ rh := by
    intro x hx h2
    exact hdj_r_v rh (List.mem_cons_of_mem s2 (List.mem_cons_self rh rt))
      (by rw [← h2]; exact hx)
  have hv_ne_FP : ∀ x ∈ v, x ≠ u.getLastD s2 := by
    intro x hx h2
    exact hdj_u_rv _ hFP_mem (by rw [← h2]; exact List.mem_append_right _ hx)
  have hs1_facts := h1ne s1 (List.mem_cons_self _ _)
  have hs2_facts := h2ne s2 (List.mem_cons_self _ _)
  simp only [seg] at hM2a
  have hsub : List.Sublist (s2 :: (u ++ v)) (s2 :: (u ++ ((rh :: rt) ++ v))) := by
    refine List.Sublist.cons₂ s2 ?_
    refine List.Sublist.append_left ?_ u
    exact List.sublist_append_right (rh :: rt) v
  refine ⟨⟨⟨?_, ?_⟩, ?_, ?_⟩, ⟨⟨?_, ?_⟩, ?_, ?_⟩, hframe⟩
  · -- destination ring, next direction
    rw [seg_append c ((rh :: rt) ++ d) s1]
    simp only [List.cons_append, List.headD_cons]
    constructor
    · refine seg_shift hN1 (List.nodup_cons.mp hnd_c).2 ?_ (fun _ => n_pp) ?_
      · cases c with
        | nil => exact n_pp
        | cons c0 ct =>
          have hs1_ne_pp : s1 ≠ (c0 :: ct).getLastD s1 := by
            intro hh
            have hmm : (c0 :: ct).getLastD s1 ∈ c0 :: ct := by
              rw [List.getLastD_cons]
              exact List.getLastD_mem_cons ct c0
            rw [← hh] at hmm
            exact (List.nodup_cons.mp hnd_c).1 hmm
          have h5 : Node.next (h s1) = c0 ∧ seg Node.next h (d.headD s1) c0 ct := hN1
          rw [n_other s1 hs1_facts.1 hs1_ne_pp hs1_facts.2.1]
          exact h5.1
      · intro x hx hne
        exact n_other x (h1ne x (hc_ring1 x hx)).1 hne (h1ne x (hc_ring1 x hx)).2.1
    · simp only [seg]
      refine ⟨n_pp, ?_⟩
      rw [seg_append rt d rh]
      constructor
      · refine seg_shift hM2a.2 (List.nodup_cons.mp hndr2).2 ?_ (fun _ => n_last) ?_
        · cases rt with
          | nil => exact n_last
          | cons r1 rt' =>
            have hrh_ne_last : rh ≠ (r1 :: rt').getLastD rh := by
              intro hh
              have hmm : (r1 :: rt').getLastD rh ∈ r1 :: rt' := by
                rw [List.getLastD_cons]
                exact List.getLastD_mem_cons rt' r1
              rw [← hh] at hmm
              exact hrh_notin_rt hmm
            have h5 : Node.next (h rh) = r1 ∧ seg Node.next h (v.headD s2) r1 rt' :=
              hM2a.2
            rw [n_other rh hrh_ne_last (hne12 rh hrh_ring2 _ hPP_ring1)
              (Ne.symm hFP_ne_rh)]
            exact h5.1
        · intro x hx hne
          have hx' : x ∈ rh :: rt := List.mem_cons_of_mem rh hx
          exact n_other x hne (hne12 x (hr_ring2 x hx') _ hPP_ring1) (hr_ne_FP x hx')
      · refine seg_shift hN2 (List.nodup_cons.mp hnd_d).2 n_last ?_ ?_
        · intro hdne
          have hld := getLastD_mem' d (c.getLastD s1) hdne
          rw [getLastD_indep hdne (rt.getLastD rh) (c.getLastD s1)]
          rw [n_other _ (h1ne _ (hd_ring1 _ hld)).1 (hd_ne_PP _ hld)
            (h1ne _ (hd_ring1 _ hld)).2.1]
          exact seg_getLast hN2
        · intro x hx _
          exact n_other x (h1ne x (hd_ring1 x hx)).1 (hd_ne_PP x hx)
            (h1ne x (hd_ring1 x hx)).2.1
  · -- destination ring, prev direction
    rw [show (c ++ ((rh :: rt) ++ d)).reverse =
        d.reverse ++ ((rh :: rt).reverse ++ c.reverse) by simp]
    rw [seg_append d.reverse ((rh :: rt).reverse ++ c.reverse) s1]
    rw [headD_append, headD_reverse, List.getLastD_cons]
    constructor
    · refine seg_shift hP1 (List.nodup_reverse.mpr (List.nodup_cons.mp hnd_d).2) ?_ ?_ ?_
      · cases d with
        | nil => exact p_pos
        | cons d0 dt =>
          have hs1_ne_pos : s1 ≠ (d0 :: dt).headD s1 := by
            intro hh
            rw [show (d0 :: dt).headD s1 = d0 from rfl] at hh
            apply (List.nodup_cons.mp hnd_d).1
            rw [hh]
            exact List.mem_cons_self d0 dt
          rw [p_other s1 hs1_ne_pos hs1_facts.2.2.1 hs1_facts.2.2.2, seg_head hP1]
          exact headD_indep (by simp) _ _
      · intro _
        rw [getLastD_reverse]
        exact p_pos
      · intro x hx hne
        rw [getLastD_reverse] at hne
        have hx' : x ∈ d := List.mem_reverse.mp hx
        exact p_other x hne (h1ne x (hd_ring1 x hx')).2.2.1 (h1ne x (hd_ring1 x hx')).2.2.2
    · rw [getLastD_reverse]
      rw [seg_append (rh :: rt).reverse c.reverse (d.headD s1)]
      constructor
      · refine seg_shift hQ2a (List.nodup_reverse.mpr hndr2) ?_ ?_ ?_
        · rw [headD_reverse, List.getLastD_cons]
          exact p_pos
        · intro _
          rw [getLastD_reverse, List.headD_cons, headD_reverse]
          exact p_first
        · intro x hx hne
          rw [getLastD_reverse, List.headD_cons] at hne
          have hx' : x ∈ rh :: rt := List.mem_reverse.mp hx
          exact p_other x (h2ne x (hr_ring2 x hx')).1 hne (hr_ne_sec x hx')
      · rw [getLastD_reverse, List.headD_cons]
        refine seg_shift hP2 (List.nodup_reverse.mpr (List.nodup_cons.mp hnd_c).2) ?_ ?_ ?_
        · rw [headD_reverse]
          exact p_first
        · intro hcne
          have hcne' : c ≠ [] := by
            intro hh
            rw [hh] at hcne
            exact hcne rfl
          rw [getLastD_indep hcne rh s1, getLastD_reverse]
          have hc0 := headD_mem' c s1 hcne'
          rw [p_other _ (hc_ne_pos _ hc0) (h1ne _ (hc_ring1 _ hc0)).2.2.1
            (h1ne _ (hc_ring1 _ hc0)).2.2.2]
          have hgl := seg_getLast hP2
          rw [getLastD_reverse] at hgl
          rw [headD_indep hcne' s1 (d.headD s1)]
          exact hgl
        · intro x hx _
          have hx' : x ∈ c := List.mem_reverse.mp hx
          exact p_other x (hc_ne_pos x hx') (h1ne x (hc_ring1 x hx')).2.2.1
            (h1ne x (hc_ring1 x hx')).2.2.2
  · exact nodup_ring_insert_middle hv1.2.1 hndr2 (fun x hx => hdisj x (hr_ring2 x hx))
  · have hz1 := hv1.2.2
    have hz2 := hv2.2.2
    simp only [List.mem_cons, List.mem_append, not_or] at hz1 hz2 ⊢
    tauto
  · -- source ring, next direction
    rw [seg_append u v s2]
    constructor
    · refine seg_shift hM1 (List.nodup_cons.mp hnd_u).2 ?_ (fun _ => n_fp) ?_
      · cases u with
        | nil => exact n_fp
        | cons u0 ut =>
          have hs2_ne_fp : s2 ≠ (u0 :: ut).getLastD s2 := by
            intro hh
            have hmm : (u0 :: ut).getLastD s2 ∈ u0 :: ut := by
              rw [List.getLastD_cons]
              exact List.getLastD_mem_cons ut u0
            rw [← hh] at hmm
            exact hs2_notin_u hmm
          have h5 : Node.next (h s2) = u0 ∧ seg Node.next h rh u0 ut := hM1
          rw [n_other s2 (fun hh => hs2_notin_r (by rw [hh]; exact hLAST_mem))
            hs2_facts.2.1 hs2_ne_fp]
          exact h5.1
      · intro x hx hne
        exact n_other x (hu_ne_LAST x hx) (h2ne x (hu_ring2 x hx)).2.1 hne
    · refine seg_shift hM2b (List.nodup_cons.mp hnd_v).2 n_fp ?_ ?_
      · intro hvne
        have hlv := getLastD_mem' v (rt.getLastD rh) hvne
        rw [getLastD_indep hvne (u.getLastD s2) (rt.getLastD rh)]
        rw [n_other _ (hv_ne_LAST _ hlv) (h2ne _ (hv_ring2 _ hlv)).2.1 (hv_ne_FP _ hlv)]
        exact seg_getLast hM2b
      · intro x hx _
        exact n_other x (hv_ne_LAST x hx) (h2ne x (hv_ring2 x hx)).2.1 (hv_ne_FP x hx)
  · -- source ring, prev direction
    rw [show (u ++ v).reverse = v.reverse ++ u.reverse by simp]
    rw [seg_append v.reverse u.reverse s2]
    rw [headD_reverse]
    constructor
    · refine seg_shift hQ1 (List.nodup_reverse.mpr (List.nodup_cons.mp hnd_v).2) ?_ ?_ ?_
      · cases v with
        | nil => exact p_second
        | cons v0 vt =>
          have hs2_ne_sec : s2 ≠ (v0 :: vt).headD s2 := by
            intro hh
            rw [show (v0 :: vt).headD s2 = v0 from rfl] at hh
            apply hs2_notin_v
            rw [hh]
            exact List.mem_cons_self v0 vt
          rw [p_other s2 hs2_facts.1
            (fun hh => hs2_notin_r (by rw [hh]; exact List.mem_cons_self rh rt))
            hs2_ne_sec, seg_head hQ1]
          exact headD_indep (by simp) _ _
      · intro _
        rw [getLastD_reverse]
        exact p_second
      · intro x hx hne
        rw [getLastD_reverse] at hne
        have hx' : x ∈ v := List.mem_reverse.mp hx
        exact p_other x (h2ne x (hv_ring2 x hx')).1 (hv_ne_rh x hx') hne
    · rw [getLastD_reverse]
      refine seg_shift hQ2b (List.nodup_reverse.mpr (List.nodup_cons.mp hnd_u).2) ?_ ?_ ?_
      · rw [headD_reverse]
        exact p_second
      · intro hune
        have hune' : u ≠ [] := by
          intro hh
          rw [hh] at hune
          exact hune rfl
        rw [getLastD_indep hune (v.headD s2) s2, getLastD_reverse]
        have hu0 := headD_mem' u s2 hune'
        rw [p_other _ (h2ne _ (hu_ring2 _ hu0)).1 (hu_ne_rh _ hu0) (hu_ne_sec _ hu0)]
        have hgl := seg_getLast hQ2b
        rw [getLastD_reverse] at hgl
        rw [headD_indep hune' s2 rh]
        exact hgl
      · intro x hx _
        have hx' : x ∈ u := List.mem_reverse.mp hx
        exact p_other x (h2ne x (hu_ring2 x hx')).1 (hu_ne_rh x hx') (hu_ne_sec x hx')
  · exact hv2.2.1.sublist hsub
  · intro hh
    exact hv2.2.2 (hsub.subset hh)

/-- Splicing a range to the position just past its own end restores every
pointer: the heap is unchanged. -/
theorem splice_restore {h : Heap} {f e other : Nat}
    (hfe : f ≠ e)
    (hfp : (h ((h f).prev)).next = f)
    (hep : (h ((h e).prev)).next = e) :
    splice h e other f e = h := by
  funext x
  have hx : splice h e other f e x =
      ⟨(splice h e other f e x).prev, (splice h e other f e x).next⟩ := rfl
  have hx2 : h x = ⟨(h x).prev, (h x).next⟩ := rfl
  rw [hx, hx2]
  clear hx hx2
  simp only [splice, if_neg hfe]
  simp only [setNext_prev, setNext_next, setPrev_prev, setPrev_next]
  simp only [Node.mk.injEq]
  constructor
  · split_ifs <;> simp_all
  · split_ifs <;> simp_all

/-- Same-list splice moving a non-empty range `r` later in the list:
the member sequence `u ++ r ++ v1 ++ v2` becomes `u ++ v1 ++ r ++ v2`
(the range is re-inserted before the head of `v2`). -/
theorem splice_same_after_ok {h : Heap} {s other pos first second : Nat}
    {u r v1 v2 : List Nat}
    (hv : Valid h s (u ++ (r ++ (v1 ++ v2))))
    (hrne : r ≠ []) (hv1ne : v1 ≠ [])
    (hpos : pos = v2.headD s) (hfirst : first = r.headD 0)
    (hsecond : second = v1.headD s) :
    Valid (splice h pos other first second) s (u ++ (v1 ++ (r ++ v2))) ∧
    (∀ x, x ≠ first → x ≠ second → x ≠ pos →
      x ≠ (h first).prev → x ≠ (h pos).prev → x ≠ (h second).prev →
      splice h pos other first second x = h x) := by
  obtain ⟨rh, rt, rfl⟩ : ∃ a t, r = a :: t := by
    cases r with
    | nil => exact absurd rfl hrne
    | cons a t => exact ⟨a, t, rfl⟩
  simp only [List.headD_cons] at hfirst
  rw [eq_comm] at hfirst
  subst hfirst
  subst hpos
  subst hsecond
  have getLastD_mem' : ∀ (l : List Nat) (dd : Nat), l ≠ [] → l.getLastD dd ∈ l := by
    intro l dd hl
    cases l with
    | nil => exact absurd rfl hl
    | cons a t =>
      rw [List.getLastD_cons]
      exact List.getLastD_mem_cons t a
  have headD_mem' : ∀ (l : List Nat) (dd : Nat), l ≠ [] → l.headD dd ∈ l := by
    intro l dd hl
    cases l with
    | nil => exact absurd rfl hl
    | cons a t => exact List.mem_cons_self a t
  -- nodup decompositions
  obtain ⟨hnd_u, hnd_rvv, hdj_u⟩ := ring_nodup_facts2 hv.2.1
  obtain ⟨hnd_r, hnd_vv, hdj_r⟩ := @ring_nodup_facts2 _ (rh :: rt) (v1 ++ v2) hnd_rvv
  obtain ⟨hnd_v1, hnd_v2, hdj_v⟩ := @ring_nodup_facts2 _ v1 v2 hnd_vv
  have hs_u : s ∉ u := (List.nodup_cons.mp hnd_u).1
  have hs_r : s ∉ rh :: rt := (List.nodup_cons.mp hnd_r).1
  have hs_v1 : s ∉ v1 := (List.nodup_cons.mp hnd_v1).1
  have hs_v2 : s ∉ v2 := (List.nodup_cons.mp hnd_v2).1
  have hndr2 : (rh :: rt).Nodup := (List.nodup_cons.mp hnd_r).2
  have hrh_notin_rt : rh ∉ rt := (List.nodup_cons.mp hndr2).1
  -- memberships of the touched nodes
  have hFP_mem : u.getLastD s ∈ s :: u := List.getLastD_mem_cons u s
  have hPP_mem : v1.getLastD s ∈ v1 := getLastD_mem' v1 s hv1ne
  have hsec_mem : v1.headD s ∈ v1 := headD_mem' v1 s hv1ne
  have hLAST_mem : rt.getLastD rh ∈ rh :: rt := List.getLastD_mem_cons rt rh
  have hpos_mem0 : v2.headD s ∈ s :: v2 := headD_mem_cons v2 s
  -- block inequalities
  have hu_ne : ∀ x ∈ u,
      x ≠ rt.getLastD rh ∧ x ≠ v1.getLastD s ∧ x ≠ v1.headD s ∧ x ≠ rh := by
    intro x hx
    have hnot := hdj_u x (List.mem_cons_of_mem s hx)
    refine ⟨?_, ?_, ?_, ?_⟩ <;> intro hh
    · exact hnot (by rw [hh]; exact List.mem_append_left _ hLAST_mem)
    · exact hnot (by rw [hh]; exact List.mem_append_right _ (List.mem_append_left _ hPP_mem))
    · exact hnot (by rw [hh]; exact List.mem_append_right _ (List.mem_append_left _ hsec_mem))
    · exact hnot (by rw [hh]; exact List.mem_append_left _ (List.mem_cons_self rh rt))
  have hu_ne_pos : ∀ x ∈ u, x ≠ v2.headD s := by
    intro x hx hh
    rcases List.mem_cons.mp hpos_mem0 with h0 | h0
    · rw [hh.trans h0] at hx
      exact hs_u hx
    · exact hdj_u x (List.mem_cons_of_mem s hx)
        (by rw [hh]; exact List.mem_append_right _ (List.mem_append_right _ h0))
  have hr_ne : ∀ x ∈ rh :: rt,
      x ≠ v1.getLastD s ∧ x ≠ v1.headD s ∧ x ≠ u.getLastD s := by
    intro x hx
    have hnot := hdj_r x (List.mem_cons_of_mem s hx)
    have hfp_not := hdj_u (u.getLastD s) hFP_mem
    refine ⟨?_, ?_, ?_⟩ <;> intro hh
    · exact hnot (by rw [hh]; exact List.mem_append_left _ hPP_mem)
    · exact hnot (by rw [hh]; exact List.mem_append_left _ hsec_mem)
    · exact hfp_not (by rw [← hh]; exact List.mem_append_left _ hx)
  have hr_ne_pos : ∀ x ∈ rh :: rt, x ≠ v2.headD s := by
    intro x hx hh
    rcases List.mem_cons.mp hpos_mem0 with h0 | h0
    · rw [hh.trans h0] at hx
      exact hs_r hx
    · exact hdj_r x (List.mem_cons_of_mem s hx)
        (by rw [hh]; exact List.mem_append_right _ h0)
  have hv1_ne : ∀ x ∈ v1, x ≠ rt.getLastD rh ∧ x ≠ u.getLastD s ∧ x ≠ rh := by
    intro x hx
    have hlast_not := hdj_r (rt.getLastD rh) (List.mem_cons_of_mem s hLAST_mem)
    have hfp_not := hdj_u (u.getLastD s) hFP_mem
    have hrh_not := hdj_r rh (List.mem_cons_of_mem s (List.mem_cons_self rh rt))
    refine ⟨?_, ?_, ?_⟩ <;> intro hh
    · exact hlast_not (by rw [← hh]; exact List.mem_append_left _ hx)
    · exact hfp_not (by rw [← hh]; exact List.mem_append_right _ (List.mem_append_left _ hx))
    · exact hrh_not (by rw [← hh]; exact List.mem_append_left _ hx)
  have hv1_ne_pos : ∀ x ∈ v1, x ≠ v2.headD s := by
    intro x hx hh
    rcases List.mem_cons.mp hpos_mem0 with h0 | h0
    · rw [hh.trans h0] at hx
      exact hs_v1 hx
    · exact hdj_v x (List.mem_cons_of_mem s hx) (by rw [hh]; exact h0)
  have hv2_ne : ∀ x ∈ v2, x ≠ rt.getLastD rh ∧ x ≠ v1.getLastD s ∧
      x ≠ v1.headD s ∧ x ≠ u.getLastD s ∧ x ≠ rh := by
    intro x hx
    have hlast_not := hdj_r (rt.getLastD rh) (List.mem_cons_of_mem s hLAST_mem)
    have hrh_not := hdj_r rh (List.mem_cons_of_mem s (List.mem_cons_self rh rt))
    have hfp_not := hdj_u (u.getLastD s) hFP_mem
    refine ⟨?_, ?_, ?_, ?_, ?_⟩ <;> intro hh
    · exact hlast_not (by rw [← hh]; exact List.mem_append_right _ hx)
    · exact hdj_v (v1.getLastD s) (List.mem_cons_of_mem s hPP_mem) (by rw [← hh]; exact hx)
    · exact hdj_v (v1.headD s) (List.mem_cons_of_mem s hsec_mem) (by rw [← hh]; exact hx)
    · exact hfp_not (by rw [← hh]; exact List.mem_append_right _ (List.mem_append_right _ hx))
    · exact hrh_not (by rw [← hh]; exact List.mem_append_right _ hx)
  have hs_ne_last : s ≠ rt.getLastD rh := fun hh => hs_r (by rw [hh]; exact hLAST_mem)
  have hs_ne_pp : s ≠ v1.getLastD s := fun hh => hs_v1 (by rw [hh]; exact hPP_mem)
  have hs_ne_sec : s ≠ v1.headD s := fun hh => hs_v1 (by rw [hh]; exact hsec_mem)
  have hs_ne_rh : s ≠ rh := fun hh => hs_r (by rw [hh]; exact List.mem_cons_self rh rt)
  have hFP_ne_LAST : u.getLastD s ≠ rt.getLastD rh := fun hh =>
    hdj_u _ hFP_mem (by rw [hh]; exact List.mem_append_left _ hLAST_mem)
  have hFP_ne_PP : u.getLastD s ≠ v1.getLastD s := fun hh =>
    hdj_u _ hFP_mem (by rw [hh]; exact List.mem_append_right _ (List.mem_append_left _ hPP_mem))
  have hfs : rh ≠ v1.headD s := (hr_ne rh (List.mem_cons_self rh rt)).2.1
  have hps : v2.headD s ≠ v1.headD s := Ne.symm (hv1_ne_pos _ hsec_mem)
  -- junction values
  have hjf : (h rh).prev = u.getLastD s := by
    have := (@ring_junction _ _ u ((rh :: rt) ++ (v1 ++ v2)) hv.1).2
    simpa using this
  have hjs : (h (v1.headD s)).prev = rt.getLastD rh := by
    have hv' : isRing h s ((u ++ (rh :: rt)) ++ (v1 ++ v2)) := by
      rw [List.append_assoc]
      exact hv.1
    have := (@ring_junction _ _ (u ++ (rh :: rt)) (v1 ++ v2) hv').2
    rw [getLastD_append, List.getLastD_cons] at this
    rw [headD_append, headD_indep hv1ne (v2.headD s) s] at this
    exact this
  have hjp : (h (v2.headD s)).prev = v1.getLastD s := by
    have hv' : isRing h s ((u ++ ((rh :: rt) ++ v1)) ++ v2) := by
      rw [List.append_assoc, List.append_assoc]
      exact hv.1
    have := (@ring_junction _ _ (u ++ ((rh :: rt) ++ v1)) v2 hv').2
    rw [getLastD_append, getLastD_append, List.getLastD_cons] at this
    rw [getLastD_indep hv1ne (rt.getLastD rh) s] at this
    exact this
  -- pointwise description of the spliced heap
  have hw := @splice_apply h _ other _ _ hfs hps
  have hw' : ∀ x, splice h (v2.headD s) other rh (v1.headD s) x =
      ⟨if x = v2.headD s then rt.getLastD rh
        else if x = rh then v1.getLastD s
        else if x = v1.headD s then u.getLastD s
        else (h x).prev,
       if x = rt.getLastD rh then v2.headD s
        else if x = v1.getLastD s then rh
        else if x = u.getLastD s then v1.headD s
        else (h x).next⟩ := by
    intro x
    rw [hw x, hjp, hjf, hjs]
  have n_last : (splice h (v2.headD s) other rh (v1.headD s) (rt.getLastD rh)).next =
      v2.headD s := by
    rw [hw']
    dsimp only
    rw [if_pos rfl]
  have n_pp : (splice h (v2.headD s) other rh (v1.headD s) (v1.getLastD s)).next = rh := by
    rw [hw']
    dsimp only
    rw [if_neg (hv1_ne _ hPP_mem).1, if_pos rfl]
  have n_fp : (splice h (v2.headD s) other rh (v1.headD s) (u.getLastD s)).next =
      v1.headD s := by
    rw [hw']
    dsimp only
    rw [if_neg hFP_ne_LAST, if_neg hFP_ne_PP, if_pos rfl]
  have n_other : ∀ x, x ≠ rt.getLastD rh → x ≠ v1.getLastD s → x ≠ u.getLastD s →
      (splice h (v2.headD s) other rh (v1.headD s) x).next = (h x).next := by
    intro x h1 h2 h3
    rw [hw']
    dsimp only
    rw [if_neg h1, if_neg h2, if_neg h3]
  have p_pos : (splice h (v2.headD s) other rh (v1.headD s) (v2.headD s)).prev =
      rt.getLastD rh := by
    rw [hw']
    dsimp only
    rw [if_pos rfl]
  have p_first : (splice h (v2.headD s) other rh (v1.headD s) rh).prev =
      v1.getLastD s := by
    rw [hw']
    dsimp only
    rw [if_neg (hr_ne_pos rh (List.mem_cons_self rh rt)), if_pos rfl]
  have p_second : (splice h (v2.headD s) other rh (v1.headD s) (v1.headD s)).prev =
      u.getLastD s := by
    rw [hw']
    dsimp only
    rw [if_neg (hv1_ne_pos _ hsec_mem), if_neg (Ne.symm hfs), if_pos rfl]
  have p_other : ∀ x, x ≠ v2.headD s → x ≠ rh → x ≠ v1.headD s →
      (splice h (v2.headD s) other rh (v1.headD s) x).prev = (h x).prev := by
    intro x h1 h2 h3
    rw [hw']
    dsimp only
    rw [if_neg h1, if_neg h2, if_neg h3]
  -- original chains, next direction
  have hN := hv.1.1
  rw [seg_append u ((rh :: rt) ++ (v1 ++ v2)) s] at hN
  obtain ⟨hU, hRest⟩ := hN
  simp only [List.cons_append, List.headD_cons] at hU
  rw [seg_append (rh :: rt) (v1 ++ v2) (u.getLastD s)] at hRest
  obtain ⟨hRa, hRb⟩ := hRest
  rw [List.getLastD_cons] at hRb
  rw [headD_append, headD_indep hv1ne (v2.headD s) s] at hRa
  simp only [seg] at hRa
  rw [seg_append v1 v2 (rt.getLastD rh)] at hRb
  obtain ⟨hV1, hV2⟩ := hRb
  rw [getLastD_indep hv1ne (rt.getLastD rh) s] at hV2
  -- original chains, prev direction
  have hP := hv.1.2
  rw [show (u ++ ((rh :: rt) ++ (v1 ++ v2))).reverse =
      v2.reverse ++ (v1.reverse ++ ((rh :: rt).reverse ++ u.reverse)) by simp] at hP
  rw [seg_append v2.reverse (v1.reverse ++ ((rh :: rt).reverse ++ u.reverse)) s] at hP
  obtain ⟨hPv2, hPrest⟩ := hP
  rw [headD_append, headD_reverse,
    getLastD_indep hv1ne (((rh :: rt).reverse ++ u.reverse).headD s) s] at hPv2
  rw [getLastD_reverse] at hPrest
  rw [seg_append v1.reverse ((rh :: rt).reverse ++ u.reverse) (v2.headD s)] at hPrest
  obtain ⟨hPv1, hPrest2⟩ := hPrest
  rw [headD_append, headD_reverse, List.getLastD_cons] at hPv1
  rw [getLastD_reverse, headD_indep hv1ne (v2.headD s) s] at hPrest2
  rw [seg_append (rh :: rt).reverse u.reverse (v1.headD s)] at hPrest2
  obtain ⟨hPr, hPu⟩ := hPrest2
  rw [headD_reverse] at hPr
  rw [getLastD_reverse, List.headD_cons] at hPu
  -- frame
  have hframe : ∀ x, x ≠ rh → x ≠ v1.headD s → x ≠ v2.headD s →
      x ≠ (h rh).prev → x ≠ (h (v2.headD s)).prev → x ≠ (h (v1.headD s)).prev →
      splice h (v2.headD s) other rh (v1.headD s) x = h x := by
    intro x h1 h2 h3 h4 h5 h6
    rw [hjf] at h4
    rw [hjp] at h5
    rw [hjs] at h6
    have hxp := p_other x h3 h1 h2
    have hxn := n_other x h6 h5 h4
    have heta : splice h (v2.headD s) other rh (v1.headD s) x =
        ⟨(splice h (v2.headD s) other rh (v1.headD s) x).prev,
          (splice h (v2.headD s) other rh (v1.headD s) x).next⟩ := rfl
    rw [heta, hxp, hxn]
  -- permutation of the member multiset
  have hperm : ((rh :: rt) ++ (v1 ++ v2)).Perm (v1 ++ ((rh :: rt) ++ v2)) := by
    have h1 : (rh :: rt) ++ (v1 ++ v2) = ((rh :: rt) ++ v1) ++ v2 :=
      (List.append_assoc _ _ _).symm
    have h2 : List.Perm (((rh :: rt) ++ v1) ++ v2) ((v1 ++ (rh :: rt)) ++ v2) :=
      List.Perm.append_right v2 List.perm_append_comm
    rw [h1, ← List.append_assoc]
    exact h2
  have hperm2 : (s :: (u ++ ((rh :: rt) ++ (v1 ++ v2)))).Perm
      (s :: (u ++ (v1 ++ ((rh :: rt) ++ v2)))) :=
    (List.Perm.append_left u hperm).cons s
  refine ⟨⟨⟨?_, ?_⟩, ?_, ?_⟩, hframe⟩
  · -- next direction
    rw [seg_append u (v1 ++ ((rh :: rt) ++ v2)) s]
    rw [headD_append, show ((rh :: rt) ++ v2).headD s = rh from rfl,
      headD_indep hv1ne rh s]
    constructor
    · refine seg_shift hU (List.nodup_cons.mp hnd_u).2 ?_ (fun _ => n_fp) ?_
      · cases u with
        | nil => exact n_fp
        | cons u0 ut =>
          have hs_ne_fp : s ≠ (u0 :: ut).getLastD s := by
            intro hh
            have hmm : (u0 :: ut).getLastD s ∈ u0 :: ut := by
              rw [List.getLastD_cons]
              exact List.getLastD_mem_cons ut u0
            rw [← hh] at hmm
            exact hs_u hmm
          have h5 : Node.next (h s) = u0 ∧ seg Node.next h rh u0 ut := hU
          rw [n_other s hs_ne_last hs_ne_pp hs_ne_fp]
          exact h5.1
      · intro x hx hne
        exact n_other x (hu_ne x hx).1 (hu_ne x hx).2.1 hne
    · rw [seg_append v1 ((rh :: rt) ++ v2) (u.getLastD s)]
      rw [show ((rh :: rt) ++ v2).headD s = rh from rfl]
      constructor
      · refine seg_shift hV1 (List.nodup_cons.mp hnd_v1).2 ?_ ?_ ?_
        · rw [n_fp]
          exact headD_indep hv1ne s rh
        · intro _
          rw [getLastD_indep hv1ne (u.getLastD s) s]
          exact n_pp
        · intro x hx hne
          rw [getLastD_indep hv1ne (u.getLastD s) s] at hne
          exact n_other x (hv1_ne x hx).1 hne (hv1_ne x hx).2.1
      · rw [getLastD_indep hv1ne (u.getLastD s) s]
        simp only [List.cons_append, seg, List.append_eq]
        refine ⟨n_pp, ?_⟩
        rw [seg_append rt v2 rh]
        constructor
        · have hr_ne_rh := hr_ne rh (List.mem_cons_self rh rt)
          refine seg_shift hRa.2 (List.nodup_cons.mp hndr2).2 ?_ (fun _ => n_last) ?_
          · cases rt with
            | nil => exact n_last
            | cons r1 rt' =>
              have hrh_ne_last : rh ≠ (r1 :: rt').getLastD rh := by
                intro hh
                have hmm : (r1 :: rt').getLastD rh ∈ r1 :: rt' := by
                  rw [List.getLastD_cons]
                  exact List.getLastD_mem_cons rt' r1
                rw [← hh] at hmm
                exact hrh_notin_rt hmm
              have h5 : Node.next (h rh) = r1 ∧ seg Node.next h (v1.headD s) r1 rt' :=
                hRa.2
              rw [n_other rh hrh_ne_last hr_ne_rh.1 hr_ne_rh.2.2]
              exact h5.1
          · intro x hx hne
            have hx' : x ∈ rh :: rt := List.mem_cons_of_mem rh hx
            exact n_other x hne (hr_ne x hx').1 (hr_ne x hx').2.2
        · refine seg_shift hV2 (List.nodup_cons.mp hnd_v2).2 n_last ?_ ?_
          · intro hv2ne
            have hld := getLastD_mem' v2 (v1.getLastD s) hv2ne
            rw [getLastD_indep hv2ne (rt.getLastD rh) (v1.getLastD s)]
            rw [n_other _ (hv2_ne _ hld).1 (hv2_ne _ hld).2.1 (hv2_ne _ hld).2.2.2.1]
            exact seg_getLast hV2
          · intro x hx _
            exact n_other x (hv2_ne x hx).1 (hv2_ne x hx).2.1 (hv2_ne x hx).2.2.2.1
  · -- prev direction
    rw [show (u ++ (v1 ++ ((rh :: rt) ++ v2))).reverse =
        v2.reverse ++ ((rh :: rt).reverse ++ (v1.reverse ++ u.reverse)) by simp]
    rw [seg_append v2.reverse ((rh :: rt).reverse ++ (v1.reverse ++ u.reverse)) s]
    rw [headD_append, headD_reverse, List.getLastD_cons]
    constructor
    · refine seg_shift hPv2 (List.nodup_reverse.mpr (List.nodup_cons.mp hnd_v2).2) ?_ ?_ ?_
      · cases v2 with
        | nil => exact p_pos
        | cons v20 v2t =>
          have hs_ne_pos : s ≠ (v20 :: v2t).headD s := by
            intro hh
            rw [show (v20 :: v2t).headD s = v20 from rfl] at hh
            apply hs_v2
            rw [hh]
            exact List.mem_cons_self v20 v2t
          rw [p_other s hs_ne_pos hs_ne_rh hs_ne_sec, seg_head hPv2]
          exact headD_indep (by simp) _ _
      · intro _
        rw [getLastD_reverse]
        exact p_pos
      · intro x hx hne
        rw [getLastD_reverse] at hne
        have hx' : x ∈ v2 := List.mem_reverse.mp hx
        exact p_other x hne (hv2_ne x hx').2.2.2.2 (hv2_ne x hx').2.2.1
    · rw [getLastD_reverse]
      rw [seg_append (rh :: rt).reverse (v1.reverse ++ u.reverse) (v2.headD s)]
      rw [headD_append, headD_reverse, getLastD_indep hv1ne (u.reverse.headD s) s]
      constructor
      · refine seg_shift hPr (List.nodup_reverse.mpr hndr2) ?_ ?_ ?_
        · rw [headD_reverse, List.getLastD_cons]
          exact p_pos
        · intro _
          rw [getLastD_reverse, List.headD_cons]
          exact p_first
        · intro x hx hne
          rw [getLastD_reverse, List.headD_cons] at hne
          have hx' : x ∈ rh :: rt := List.mem_reverse.mp hx
          exact p_other x (hr_ne_pos x hx') hne (hr_ne x hx').2.1
      · rw [getLastD_reverse, List.headD_cons]
        rw [seg_append v1.reverse u.reverse rh]
        rw [headD_reverse]
        constructor
        · refine seg_shift hPv1 (List.nodup_reverse.mpr (List.nodup_cons.mp hnd_v1).2) ?_ ?_ ?_
          · rw [headD_reverse, getLastD_indep hv1ne (u.getLastD s) s]
            exact p_first
          · intro _
            rw [getLastD_reverse, headD_indep hv1ne rh s]
            exact p_second
          · intro x hx hne
            rw [getLastD_reverse, headD_indep hv1ne rh s] at hne
            have hx' : x ∈ v1 := List.mem_reverse.mp hx
            exact p_other x (hv1_ne_pos x hx') (hv1_ne x hx').2.2 hne
        · rw [getLastD_reverse, headD_indep hv1ne rh s]
          refine seg_shift hPu (List.nodup_reverse.mpr (List.nodup_cons.mp hnd_u).2) ?_ ?_ ?_
          · rw [headD_reverse]
            exact p_second
          · intro hune
            have hune' : u ≠ [] := by
              intro hh
              rw [hh] at hune
              exact hune rfl
            rw [getLastD_indep hune (v1.headD s) rh, getLastD_reverse]
            have hu0 := headD_mem' u rh hune'
            rw [p_other _ (hu_ne_pos _ hu0) (hu_ne _ hu0).2.2.2 (hu_ne _ hu0).2.2.1]
            have hgl := seg_getLast hPu
            rw [getLastD_reverse] at hgl
            exact hgl
          · intro x hx _
            have hx' : x ∈ u := List.mem_reverse.mp hx
            exact p_other x (hu_ne_pos x hx') (hu_ne x hx').2.2.2 (hu_ne x hx').2.2.1
  · exact hperm2.nodup_iff.mp hv.2.1
  · intro hh
    exact hv.2.2 (hperm2.mem_iff.mpr hh)

/-- Same-list splice moving a non-empty range `r` earlier in the list:
the member sequence `u1 ++ u2 ++ r ++ v` becomes `u1 ++ r ++ u2 ++ v`
(the range is re-inserted before the head of `u2`). -/
theorem splice_same_before_ok {h : Heap} {s other pos first second : Nat}
    {u1 u2 r v : List Nat}
    (hv : Valid h s (u1 ++ (u2 ++ (r ++ v))))
    (hrne : r ≠ []) (hu2ne : u2 ≠ [])
    (hpos : pos = u2.headD s) (hfirst : first = r.headD 0)
    (hsecond : second = v.headD s) :
    Valid (splice h pos other first second) s (u1 ++ (r ++ (u2 ++ v))) ∧
    (∀ x, x ≠ first → x ≠ second → x ≠ pos →
      x ≠ (h first).prev → x ≠ (h pos).prev → x ≠ (h second).prev →
      splice h pos other first second x = h x) := by
  obtain ⟨rh, rt, rfl⟩ : ∃ a t, r = a :: t := by
    cases r with
    | nil => exact absurd rfl hrne
    | cons a t => exact ⟨a, t, rfl⟩
  simp only [List.headD_cons] at hfirst
  rw [eq_comm] at hfirst
  subst hfirst
  subst hpos
  subst hsecond
  have getLastD_mem' : ∀ (l : List Nat) (dd : Nat), l ≠ [] → l.getLastD dd ∈ l := by
    intro l dd hl
    cases l with
    | nil => exact absurd rfl hl
    | cons a t =>
      rw [List.getLastD_cons]
      exact List.getLastD_mem_cons t a
  have headD_mem' : ∀ (l : List Nat) (dd : Nat), l ≠ [] → l.headD dd ∈ l := by
    intro l dd hl
    cases l with
    | nil => exact absurd rfl hl
    | cons a t => exact List.mem_cons_self a t
  -- nodup decompositions
  obtain ⟨hnd_u1, hnd_urv, hdj_u1⟩ := ring_nodup_facts2 hv.2.1
  obtain ⟨hnd_u2, hnd_rv, hdj_u2⟩ := @ring_nodup_facts2 _ u2 ((rh :: rt) ++ v) hnd_urv
  obtain ⟨hnd_r, hnd_v, hdj_r⟩ := @ring_nodup_facts2 _ (rh :: rt) v hnd_rv
  have hs_u1 : s ∉ u1 := (List.nodup_cons.mp hnd_u1).1
  have hs_u2 : s ∉ u2 := (List.nodup_cons.mp hnd_u2).1
  have hs_r : s ∉ rh :: rt := (List.nodup_cons.mp hnd_r).1
  have hs_v : s ∉ v := (List.nodup_cons.mp hnd_v).1
  have hndr2 : (rh :: rt).Nodup := (List.nodup_cons.mp hnd_r).2
  have hrh_notin_rt : rh ∉ rt := (List.nodup_cons.mp hndr2).1
  -- memberships of the touched nodes
  have hPP_mem : u1.getLastD s ∈ s :: u1 := List.getLastD_mem_cons u1 s
  have hFP_mem : u2.getLastD s ∈ u2 := getLastD_mem' u2 s hu2ne
  have hpos_memu : u2.headD s ∈ u2 := headD_mem' u2 s hu2ne
  have hLAST_mem : rt.getLastD rh ∈ rh :: rt := List.getLastD_mem_cons rt rh
  have hsec_mem0 : v.headD s ∈ s :: v := headD_mem_cons v s
  -- block inequalities
  have hu1_ne : ∀ x ∈ u1,
      x ≠ rt.getLastD rh ∧ x ≠ u2.getLastD s ∧ x ≠ u2.headD s ∧ x ≠ rh := by
    intro x hx
    have hnot := hdj_u1 x (List.mem_cons_of_mem s hx)
    refine ⟨?_, ?_, ?_, ?_⟩ <;> intro hh
    · exact hnot (by rw [hh]; exact List.mem_append_right _ (List.mem_append_left _ hLAST_mem))
    · exact hnot (by rw [hh]; exact List.mem_append_left _ hFP_mem)
    · exact hnot (by rw [hh]; exact List.mem_append_left _ hpos_memu)
    · exact hnot
        (by rw [hh]; exact List.mem_append_right _ (List.mem_append_left _ (List.mem_cons_self rh rt)))
  have hu1_ne_sec : ∀ x ∈ u1, x ≠ v.headD s := by
    intro x hx hh
    rcases List.mem_cons.mp hsec_mem0 with h0 | h0
    · rw [hh.trans h0] at hx
      exact hs_u1 hx
    · exact hdj_u1 x (List.mem_cons_of_mem s hx)
        (by rw [hh]; exact List.mem_append_right _ (List.mem_append_right _ h0))
  have hu2_ne : ∀ x ∈ u2, x ≠ rt.getLastD rh ∧ x ≠ u1.getLastD s ∧ x ≠ rh := by
    intro x hx
    have hnot := hdj_u2 x (List.mem_cons_of_mem s hx)
    have hpp_not := hdj_u1 (u1.getLastD s) hPP_mem
    refine ⟨?_, ?_, ?_⟩ <;> intro hh
    · exact hnot (by rw [hh]; exact List.mem_append_left _ hLAST_mem)
    · exact hpp_not (by rw [← hh]; exact List.mem_append_left _ hx)
    · exact hnot (by rw [hh]; exact List.mem_append_left _ (List.mem_cons_self rh rt))
  have hu2_ne_sec : ∀ x ∈ u2, x ≠ v.headD s := by
    intro x hx hh
    rcases List.mem_cons.mp hsec_mem0 with h0 | h0
    · rw [hh.trans h0] at hx
      exact hs_u2 hx
    · exact hdj_u2 x (List.mem_cons_of_mem s hx)
        (by rw [hh]; exact List.mem_append_right _ h0)
  have hr_ne : ∀ x ∈ rh :: rt,
      x ≠ u1.getLastD s ∧ x ≠ u2.getLastD s ∧ x ≠ u2.headD s := by
    intro x hx
    have hpp_not := hdj_u1 (u1.getLastD s) hPP_mem
    have hfp_not := hdj_u2 (u2.getLastD s) (List.mem_cons_of_mem s hFP_mem)
    have hpos_not := hdj_u2 (u2.headD s) (List.mem_cons_of_mem s hpos_memu)
    refine ⟨?_, ?_, ?_⟩ <;> intro hh
    · exact hpp_not (by rw [← hh]; exact List.mem_append_right _ (List.mem_append_left _ hx))
    · exact hfp_not (by rw [← hh]; exact List.mem_append_left _ hx)
    · exact hpos_not (by rw [← hh]; exact List.mem_append_left _ hx)
  have hr_ne_sec : ∀ x ∈ rh :: rt, x ≠ v.headD s := by
    intro x hx hh
    rcases List.mem_cons.mp hsec_mem0 with h0 | h0
    · rw [hh.trans h0] at hx
      exact hs_r hx
    · exact hdj_r x (List.mem_cons_of_mem s hx) (by rw [hh]; exact h0)
  have hv_ne : ∀ x ∈ v, x ≠ rt.getLastD rh ∧ x ≠ u1.getLastD s ∧
      x ≠ u2.getLastD s ∧ x ≠ u2.headD s ∧ x ≠ rh := by
    intro x hx
    have hlast_not := hdj_r (rt.getLastD rh) (List.mem_cons_of_mem s hLAST_mem)
    have hrh_not := hdj_r rh (List.mem_cons_of_mem s (List.mem_cons_self rh rt))
    have hpp_not := hdj_u1 (u1.getLastD s) hPP_mem
    have hfp_not := hdj_u2 (u2.getLastD s) (List.mem_cons_of_mem s hFP_mem)
    have hpos_not := hdj_u2 (u2.headD s) (List.mem_cons_of_mem s hpos_memu)
    refine ⟨?_, ?_, ?_, ?_, ?_⟩ <;> intro hh
    · exact hlast_not (by rw [← hh]; exact hx)
    · exact hpp_not (by rw [← hh]; exact List.mem_append_right _ (List.mem_append_right _ hx))
    · exact hfp_not (by rw [← hh]; exact List.mem_append_right _ hx)
    · exact hpos_not (by rw [← hh]; exact List.mem_append_right _ hx)
    · exact hrh_not (by rw [← hh]; exact hx)
  have hs_ne_last : s ≠ rt.getLastD rh := fun hh => hs_r (by rw [hh]; exact hLAST_mem)
  have hs_ne_fp : s ≠ u2.getLastD s := fun hh => hs_u2 (by rw [hh]; exact hFP_mem)
  have hs_ne_pos : s ≠ u2.headD s := fun hh => hs_u2 (by rw [hh]; exact hpos_memu)
  have hs_ne_rh : s ≠ rh := fun hh => hs_r (by rw [hh]; exact List.mem_cons_self rh rt)
  have hfs : rh ≠ v.headD s := hr_ne_sec rh (List.mem_cons_self rh rt)
  have hps : u2.headD s ≠ v.headD s := hu2_ne_sec _ hpos_memu
  -- junction values
  have hjf : (h rh).prev = u2.getLastD s := by
    have hv' : isRing h s ((u1 ++ u2) ++ ((rh :: rt) ++ v)) := by
      rw [List.append_assoc]
      exact hv.1
    have := (@ring_junction _ _ (u1 ++ u2) ((rh :: rt) ++ v) hv').2
    rw [getLastD_append, getLastD_indep hu2ne (u1.getLastD s) s] at this
    simpa using this
  have hjs : (h (v.headD s)).prev = rt.getLastD rh := by
    have hv' : isRing h s (((u1 ++ u2) ++ (rh :: rt)) ++ v) := by
      rw [List.append_assoc, List.append_assoc]
      exact hv.1
    have := (@ring_junction _ _ ((u1 ++ u2) ++ (rh :: rt)) v hv').2
    rw [getLastD_append, List.getLastD_cons] at this
    exact this
  have hjp : (h (u2.headD s)).prev = u1.getLastD s := by
    have := (@ring_junction _ _ u1 (u2 ++ ((rh :: rt) ++ v)) hv.1).2
    rw [headD_append, headD_indep hu2ne (((rh :: rt) ++ v).headD s) s] at this
    exact this
  -- pointwise description of the spliced heap
  have hw := @splice_apply h _ other _ _ hfs hps
  have hw' : ∀ x, splice h (u2.headD s) other rh (v.headD s) x =
      ⟨if x = u2.headD s then rt.getLastD rh
        else if x = rh then u1.getLastD s
        else if x = v.headD s then u2.getLastD s
        else (h x).prev,
       if x = rt.getLastD rh then u2.headD s
        else if x = u1.getLastD s then rh
        else if x = u2.getLastD s then v.headD s
        else (h x).next⟩ := by
    intro x
    rw [hw x, hjp, hjf, hjs]
  have n_last : (splice h (u2.headD s) other rh (v.headD s) (rt.getLastD rh)).next =
      u2.headD s := by
    rw [hw']
    dsimp only
    rw [if_pos rfl]
  have n_pp : (splice h (u2.headD s) other rh (v.headD s) (u1.getLastD s)).next = rh := by
    rw [hw']
    dsimp only
    rw [if_neg (Ne.symm (hr_ne _ hLAST_mem).1), if_pos rfl]
  have n_fp : (splice h (u2.headD s) other rh (v.headD s) (u2.getLastD s)).next =
      v.headD s := by
    rw [hw']
    dsimp only
    rw [if_neg (Ne.symm (hr_ne _ hLAST_mem).2.1), if_neg (hu2_ne _ hFP_mem).2.1, if_pos rfl]
  have n_other : ∀ x, x ≠ rt.getLastD rh → x ≠ u1.getLastD s → x ≠ u2.getLastD s →
      (splice h (u2.headD s) other rh (v.headD s) x).next = (h x).next := by
    intro x h1 h2 h3
    rw [hw']
    dsimp only
    rw [if_neg h1, if_neg h2, if_neg h3]
  have p_pos : (splice h (u2.headD s) other rh (v.headD s) (u2.headD s)).prev =
      rt.getLastD rh := by
    rw [hw']
    dsimp only
    rw [if_pos rfl]
  have p_first : (splice h (u2.headD s) other rh (v.headD s) rh).prev =
      u1.getLastD s := by
    rw [hw']
    dsimp only
    rw [if_neg (hr_ne rh (List.mem_cons_self rh rt)).2.2, if_pos rfl]
  have p_second : (splice h (u2.headD s) other rh (v.headD s) (v.headD s)).prev =
      u2.getLastD s := by
    rw [hw']
    dsimp only
    rw [if_neg (Ne.symm hps), if_neg (Ne.symm hfs), if_pos rfl]
  have p_other : ∀ x, x ≠ u2.headD s → x ≠ rh → x ≠ v.headD s →
      (splice h (u2.headD s) other rh (v.headD s) x).prev = (h x).prev := by
    intro x h1 h2 h3
    rw [hw']
    dsimp only
    rw [if_neg h1, if_neg h2, if_neg h3]
  -- original chains, next direction
  have hN := hv.1.1
  rw [seg_append u1 (u2 ++ ((rh :: rt) ++ v)) s] at hN
  obtain ⟨hU1, hRest⟩ := hN
  rw [headD_append, headD_indep hu2ne (((rh :: rt) ++ v).headD s) s] at hU1
  rw [seg_append u2 ((rh :: rt) ++ v) (u1.getLastD s)] at hRest
  obtain ⟨hU2, hRest2⟩ := hRest
  rw [show ((rh :: rt) ++ v).headD s = rh from rfl] at hU2
  rw [getLastD_indep hu2ne (u1.getLastD s) s] at hRest2
  simp only [List.cons_append, seg, List.append_eq] at hRest2
  obtain ⟨hRhead, hRtail⟩ := hRest2
  rw [seg_append rt v rh] at hRtail
  obtain ⟨hRt, hV⟩ := hRtail
  -- original chains, prev direction
  have hP := hv.1.2
  rw [show (u1 ++ (u2 ++ ((rh :: rt) ++ v))).reverse =
      v.reverse ++ ((rh :: rt).reverse ++ (u2.reverse ++ u1.reverse)) by simp] at hP
  rw [seg_append v.reverse ((rh :: rt).reverse ++ (u2.reverse ++ u1.reverse)) s] at hP
  obtain ⟨hPv, hPrest⟩ := hP
  rw [headD_append, headD_reverse, List.getLastD_cons] at hPv
  rw [getLastD_reverse] at hPrest
  rw [seg_append (rh :: rt).reverse (u2.reverse ++ u1.reverse) (v.headD s)] at hPrest
  obtain ⟨hPr, hPrest2⟩ := hPrest
  rw [headD_append, headD_reverse,
    getLastD_indep hu2ne (u1.reverse.headD s) s] at hPr
  rw [getLastD_reverse, List.headD_cons] at hPrest2
  rw [seg_append u2.reverse u1.reverse rh] at hPrest2
  obtain ⟨hPu2, hPu1⟩ := hPrest2
  rw [headD_reverse] at hPu2
  rw [getLastD_reverse, headD_indep hu2ne rh s] at hPu1
  -- frame
  have hframe : ∀ x, x ≠ rh → x ≠ v.headD s → x ≠ u2.headD s →
      x ≠ (h rh).prev → x ≠ (h (u2.headD s)).prev → x ≠ (h (v.headD s)).prev →
      splice h (u2.headD s) other rh (v.headD s) x = h x := by
    intro x h1 h2 h3 h4 h5 h6
    rw [hjf] at h4
    rw [hjp] at h5
    rw [hjs] at h6
    have hxp := p_other x h3 h1 h2
    have hxn := n_other x h6 h5 h4
    have heta : splice h (u2.headD s) other rh (v.headD s) x =
        ⟨(splice h (u2.headD s) other rh (v.headD s) x).prev,
          (splice h (u2.headD s) other rh (v.headD s) x).next⟩ := rfl
    rw [heta, hxp, hxn]
  -- permutation of the member multiset
  have hperm : (u2 ++ ((rh :: rt) ++ v)).Perm ((rh :: rt) ++ (u2 ++ v)) := by
    have h1 : u2 ++ ((rh :: rt) ++ v) = (u2 ++ (rh :: rt)) ++ v :=
      (List.append_assoc _ _ _).symm
    have h2 : List.Perm ((u2 ++ (rh :: rt)) ++ v) (((rh :: rt) ++ u2) ++ v) :=
      List.Perm.append_right v List.perm_append_comm
    rw [h1, ← List.append_assoc]
    exact h2
  have hperm2 : (s :: (u1 ++ (u2 ++ ((rh :: rt) ++ v)))).Perm
      (s :: (u1 ++ ((rh :: rt) ++ (u2 ++ v)))) :=
    (List.Perm.append_left u1 hperm).cons s
  refine ⟨⟨⟨?_, ?_⟩, ?_, ?_⟩, hframe⟩
  · -- next direction
    rw [seg_append u1 ((rh :: rt) ++ (u2 ++ v)) s]
    rw [show ((rh :: rt) ++ (u2 ++ v)).headD s = rh from rfl]
    constructor
    · refine seg_shift hU1 (List.nodup_cons.mp hnd_u1).2 ?_ (fun _ => n_pp) ?_
      · cases u1 with
        | nil => exact n_pp
        | cons a t =>
          have hs_ne_pp : s ≠ (a :: t).getLastD s := by
            intro hh
            have hmm : (a :: t).getLastD s ∈ a :: t := by
              rw [List.getLastD_cons]
              exact List.getLastD_mem_cons t a
            rw [← hh] at hmm
            exact hs_u1 hmm
          have h5 : Node.next (h s) = a ∧ seg Node.next h (u2.headD s) a t := hU1
          rw [n_other s hs_ne_last hs_ne_pp hs_ne_fp]
          exact h5.1
      · intro x hx hne
        exact n_other x (hu1_ne x hx).1 hne (hu1_ne x hx).2.1
    · simp only [List.cons_append, seg, List.append_eq]
      refine ⟨n_pp, ?_⟩
      rw [seg_append rt (u2 ++ v) rh]
      rw [headD_append, headD_indep hu2ne (v.headD s) s]
      constructor
      · have hr_ne_rh := hr_ne rh (List.mem_cons_self rh rt)
        refine seg_shift hRt (List.nodup_cons.mp hndr2).2 ?_ (fun _ => n_last) ?_
        · cases rt with
          | nil => exact n_last
          | cons r1 rt' =>
            have hrh_ne_last : rh ≠ (r1 :: rt').getLastD rh := by
              intro hh
              have hmm : (r1 :: rt').getLastD rh ∈ r1 :: rt' := by
                rw [List.getLastD_cons]
                exact List.getLastD_mem_cons rt' r1
              rw [← hh] at hmm
              exact hrh_notin_rt hmm
            have h5 : Node.next (h rh) = r1 ∧ seg Node.next h (v.headD s) r1 rt' := hRt
            rw [n_other rh hrh_ne_last hr_ne_rh.1 hr_ne_rh.2.1]
            exact h5.1
        · intro x hx hne
          have hx' : x ∈ rh :: rt := List.mem_cons_of_mem rh hx
          exact n_other x hne (hr_ne x hx').1 (hr_ne x hx').2.1
      · rw [seg_append u2 v (rt.getLastD rh)]
        constructor
        · refine seg_shift hU2 (List.nodup_cons.mp hnd_u2).2 ?_ ?_ ?_
          · rw [n_last]
            exact headD_indep hu2ne s (v.headD s)
          · intro _
            rw [getLastD_indep hu2ne (rt.getLastD rh) s]
            exact n_fp
          · intro x hx hne
            rw [getLastD_indep hu2ne (rt.getLastD rh) s] at hne
            exact n_other x (hu2_ne x hx).1 (hu2_ne x hx).2.1 hne
        · rw [getLastD_indep hu2ne (rt.getLastD rh) s]
          refine seg_shift hV (List.nodup_cons.mp hnd_v).2 n_fp ?_ ?_
          · intro hvne
            have hld := getLastD_mem' v (rt.getLastD rh) hvne
            rw [getLastD_indep hvne (u2.getLastD s) (rt.getLastD rh)]
            rw [n_other _ (hv_ne _ hld).1 (hv_ne _ hld).2.1 (hv_ne _ hld).2.2.1]
            exact seg_getLast hV
          · intro x hx _
            exact n_other x (hv_ne x hx).1 (hv_ne x hx).2.1 (hv_ne x hx).2.2.1
  · -- prev direction
    rw [show (u1 ++ ((rh :: rt) ++ (u2 ++ v))).reverse =
        v.reverse ++ (u2.reverse ++ ((rh :: rt).reverse ++ u1.reverse)) by simp]
    rw [seg_append v.reverse (u2.reverse ++ ((rh :: rt).reverse ++ u1.reverse)) s]
    rw [headD_append, headD_reverse,
      getLastD_indep hu2ne (((rh :: rt).reverse ++ u1.reverse).headD s) s]
    constructor
    · refine seg_shift hPv (List.nodup_reverse.mpr (List.nodup_cons.mp hnd_v).2) ?_ ?_ ?_
      · cases v with
        | nil => exact p_second
        | cons v0 vt =>
          have hs_ne_sec : s ≠ (v0 :: vt).headD s := by
            intro hh
            rw [show (v0 :: vt).headD s = v0 from rfl] at hh
            apply hs_v
            rw [hh]
            exact List.mem_cons_self v0 vt
          rw [p_other s hs_ne_pos hs_ne_rh hs_ne_sec, seg_head hPv]
          exact headD_indep (by simp) _ _
      · intro _
        rw [getLastD_reverse]
        exact p_second
      · intro x hx hne
        rw [getLastD_reverse] at hne
        have hx' : x ∈ v := List.mem_reverse.mp hx
        exact p_other x (hv_ne x hx').2.2.2.1 (hv_ne x hx').2.2.2.2 hne
    · rw [getLastD_reverse]
      rw [seg_append u2.reverse ((rh :: rt).reverse ++ u1.reverse) (v.headD s)]
      rw [headD_append, headD_reverse, List.getLastD_cons]
      have hu2rne : u2.reverse ≠ [] := by
        simp [hu2ne]
      constructor
      · refine seg_shift hPu2 (List.nodup_reverse.mpr (List.nodup_cons.mp hnd_u2).2) ?_ ?_ ?_
        · rw [headD_reverse, getLastD_indep hu2ne (rt.getLastD rh) s]
          exact p_second
        · intro _
          rw [getLastD_indep hu2rne (v.headD s) rh, getLastD_reverse,
            headD_indep hu2ne rh s]
          exact p_pos
        · intro x hx hne
          rw [getLastD_indep hu2rne (v.headD s) rh, getLastD_reverse,
            headD_indep hu2ne rh s] at hne
          have hx' : x ∈ u2 := List.mem_reverse.mp hx
          exact p_other x hne (hu2_ne x hx').2.2 (hu2_ne_sec x hx')
      · rw [getLastD_indep hu2rne (v.headD s) rh, getLastD_reverse,
          headD_indep hu2ne rh s]
        rw [seg_append (rh :: rt).reverse u1.reverse (u2.headD s)]
        rw [headD_reverse]
        constructor
        · refine seg_shift hPr (List.nodup_reverse.mpr hndr2) ?_ ?_ ?_
          · rw [headD_reverse, List.getLastD_cons]
            exact p_pos
          · intro _
            rw [getLastD_reverse, List.headD_cons]
            exact p_first
          · intro x hx hne
            rw [getLastD_reverse, List.headD_cons] at hne
            have hx' : x ∈ rh :: rt := List.mem_reverse.mp hx
            exact p_other x (hr_ne x hx').2.2 hne (hr_ne_sec x hx')
        · rw [getLastD_reverse, List.headD_cons]
          refine seg_shift hPu1 (List.nodup_reverse.mpr (List.nodup_cons.mp hnd_u1).2) ?_ ?_ ?_
          · rw [headD_reverse]
            exact p_first
          · intro hune
            have hune' : u1 ≠ [] := by
              intro hh
              rw [hh] at hune
              exact hune rfl
            rw [getLastD_indep hune rh (u2.headD s), getLastD_reverse]
            have hu0 := headD_mem' u1 (u2.headD s) hune'
            rw [p_other _ (hu1_ne _ hu0).2.2.1 (hu1_ne _ hu0).2.2.2 (hu1_ne_sec _ hu0)]
            have hgl := seg_getLast hPu1
            rw [getLastD_reverse] at hgl
            exact hgl
          · intro x hx _
            have hx' : x ∈ u1 := List.mem_reverse.mp hx
            exact p_other x (hu1_ne x hx').2.2.1 (hu1_ne x hx').2.2.2 (hu1_ne_sec x hx')
  · exact hperm2.nodup_iff.mp hv.2.1
  · intro hh
    exact hv.2.2 (hperm2.mem_iff.mpr hh)

/-- C3: `splice(pos, otherList, first, second)` relocates the non-empty
half-open range to sit immediately before `pos`, preserving the relative
order of the moved range and conserving the total element count across
source and destination, touching only a constant set of six nodes; it
also covers same-list repositioning in both directions, splicing a range
to the position just past itself restores the heap exactly, and an empty
range is a no-op. -/
theorem claim_C3_splice :
    (∀ (h : Heap) (s1 s2 other pos first second : Nat) (c d u r v : List Nat),
      Valid h s1 (c ++ d) → Valid h s2 (u ++ (r ++ v)) →
      (∀ x ∈ s2 :: (u ++ (r ++ v)), x ∉ s1 :: (c ++ d)) →
      r ≠ [] → pos = d.headD s1 → first = r.headD 0 → second = v.headD s2 →
      Valid (splice h pos other first second) s1 (c ++ (r ++ d)) ∧
      Valid (splice h pos other first second) s2 (u ++ v) ∧
      (c ++ (r ++ d)).length + (u ++ v).length
        = (c ++ d).length + (u ++ (r ++ v)).length ∧
      (∀ x, x ≠ first → x ≠ second → x ≠ pos →
        x ≠ (h first).prev → x ≠ (h pos).prev → x ≠ (h second).prev →
        splice h pos other first second x = h x)) ∧
    (∀ (h : Heap) (s other pos first second : Nat) (u r v1 v2 : List Nat),
      Valid h s (u ++ (r ++ (v1 ++ v2))) → r ≠ [] → v1 ≠ [] →
      pos = v2.headD s → first = r.headD 0 → second = v1.headD s →
      Valid (splice h pos other first second) s (u ++ (v1 ++ (r ++ v2)))) ∧
    (∀ (h : Heap) (s other pos first second : Nat) (u1 u2 r v : List Nat),
      Valid h s (u1 ++ (u2 ++ (r ++ v))) → r ≠ [] → u2 ≠ [] →
      pos = u2.headD s → first = r.headD 0 → second = v.headD s →
      Valid (splice h pos other first second) s (u1 ++ (r ++ (u2 ++ v)))) ∧
    (∀ (h : Heap) (s other first second : Nat) (u r v : List Nat),
      Valid h s (u ++ (r ++ v)) → r ≠ [] →
      first = r.headD 0 → second = v.headD s →
      splice h second other first second = h) ∧
    (∀ (h : Heap) (pos other b : Nat), splice h pos other b b = h) := by
  refine ⟨?_, ?_, ?_, ?_, ?_⟩
  · intro h s1 s2 other pos first second c d u r v hv1 hv2 hdisj hrne hpos hfirst hsecond
    obtain ⟨g1, g2, g3⟩ :=
      splice_cross_ok hv1 hv2 hdisj hrne hpos hfirst hsecond
    refine ⟨g1, g2, ?_, g3⟩
    simp only [List.length_append]
    omega
  · intro h s other pos first second u r v1 v2 hv hrne hv1ne hpos hfirst hsecond
    exact (splice_same_after_ok hv hrne hv1ne hpos hfirst hsecond).1
  · intro h s other pos first second u1 u2 r v hv hrne hu2ne hpos hfirst hsecond
    exact (splice_same_before_ok hv hrne hu2ne hpos hfirst hsecond).1
  · intro h s other first second u r v hv hrne hfirst hsecond
    obtain ⟨rh, rt, rfl⟩ : ∃ a t, r = a :: t := by
      cases r with
      | nil => exact absurd rfl hrne
      | cons a t => exact ⟨a, t, rfl⟩
    simp only [List.headD_cons] at hfirst
    rw [eq_comm] at hfirst
    subst hfirst
    subst hsecond
    obtain ⟨hnd_u, hnd_rv, hdj_u⟩ := ring_nodup_facts2 hv.2.1
    obtain ⟨hnd_r, hnd_v, hdj_r⟩ := @ring_nodup_facts2 _ (rh :: rt) v hnd_rv
    have hs_r : s ∉ rh :: rt := (List.nodup_cons.mp hnd_r).1
    have hfe : rh ≠ v.headD s := by
      intro hh
      rcases List.mem_cons.mp (headD_mem_cons v s) with h0 | h0
      · exact hs_r (by rw [← hh.trans h0]; exact List.mem_cons_self rh rt)
      · exact hdj_r rh (List.mem_cons_of_mem s (List.mem_cons_self rh rt)) (by rw [hh]; exact h0)
    have hj1 := @ring_junction _ _ u ((rh :: rt) ++ v) hv.1
    have hfp : (h ((h rh).prev)).next = rh := by
      have h2 := hj1.2
      simp only [List.cons_append, List.headD_cons] at h2
      rw [h2]
      have h1 := hj1.1
      simpa using h1
    have hep : (h ((h (v.headD s)).prev)).next = v.headD s := by
      have hv' : isRing h s ((u ++ (rh :: rt)) ++ v) := by
        rw [List.append_assoc]
        exact hv.1
      have hj2 := @ring_junction _ _ (u ++ (rh :: rt)) v hv'
      rw [hj2.2]
      exact hj2.1
    exact splice_restore hfe hfp hep
  · intro h pos other b
    exact splice_empty h pos other b

/-- Witness for C3: in the two-list heap ([2,3] at sentinel 1 and [6,7]
at sentinel 5), splicing the range [7] before node 3 yields the lists
[2,7,3] and [6]; an empty range is a no-op. -/
theorem claim_C3_splice_witness :
    Valid (splice hTwo 3 0 7 5) 1 ([2] ++ ([7] ++ [3])) ∧
    Valid (splice hTwo 3 0 7 5) 5 ([6] ++ []) ∧
    splice hTwo 2 0 9 9 = hTwo := by
  have hc := claim_C3_splice.1 hTwo 1 5 0 3 7 5 [2] [3] [6] [7] []
    (by decide) (by decide) (by decide) (by decide) rfl rfl rfl
  exact ⟨hc.1, hc.2.1, claim_C3_splice.2.2.2.2 hTwo 2 0 9⟩

/-! ### The prev/next null-together node invariant (C9) -/

/-- The node invariant: `prev` and `next` are simultaneously null or
simultaneously non-null. -/
def NodeInv (h : Heap) : Prop := ∀ x, (h x).prev = 0 ↔ (h x).next = 0

theorem ring_fields_nonzero {h : Heap} {s : Nat} {m : List Nat}
    (hv : Valid h s m) {x : Nat} (hx : x ∈ s :: m) :
    (h x).prev ≠ 0 ∧ (h x).next ≠ 0 := by
  have hm := ring_mem hv.1 hx
  exact ⟨fun hh => hv.2.2 (hh ▸ hm.2), fun hh => hv.2.2 (hh ▸ hm.1)⟩

/-- Master preservation lemma: a heap that is valid on a ring, agrees
with the old heap, is cleared, or whose node lies on the ring at every
address satisfies the invariant. -/
theorem NodeInv_of_valid_frame {h hn : Heap} {s : Nat} {m : List Nat}
    (hv : Valid hn s m) (hinv : NodeInv h)
    (hcover : ∀ x, hn x = h x ∨ hn x = ⟨0, 0⟩ ∨ x ∈ s :: m) :
    NodeInv hn := by
  intro x
  rcases hcover x with hh | hh | hh
  · rw [hh]
    exact hinv x
  · rw [hh]
  · have hnz := ring_fields_nonzero hv hh
    exact ⟨fun h0 => absurd h0 hnz.1, fun h0 => absurd h0 hnz.2⟩

/-- Two-ring version of the master preservation lemma. -/
theorem NodeInv_of_valid_frame2 {h hn : Heap} {s1 s2 : Nat} {m1 m2 : List Nat}
    (hv1 : Valid hn s1 m1) (hv2 : Valid hn s2 m2) (hinv : NodeInv h)
    (hcover : ∀ x, hn x = h x ∨ hn x = ⟨0, 0⟩ ∨ x ∈ s1 :: m1 ∨ x ∈ s2 :: m2) :
    NodeInv hn := by
  intro x
  rcases hcover x with hh | hh | hh | hh
  · rw [hh]
    exact hinv x
  · rw [hh]
  · have hnz := ring_fields_nonzero hv1 hh
    exact ⟨fun h0 => absurd h0 hnz.1, fun h0 => absurd h0 hnz.2⟩
  · have hnz := ring_fields_nonzero hv2 hh
    exact ⟨fun h0 => absurd h0 hnz.1, fun h0 => absurd h0 hnz.2⟩

theorem remove_frame (h : Heap) (a : Nat) :
    ∀ x, x ≠ a → x ≠ (h a).prev → x ≠ (h a).next → (remove h a).1 x = h x := by
  intro x h1 h2 h3
  calc (remove h a).1 x
      = ⟨((remove h a).1 x).prev, ((remove h a).1 x).next⟩ := rfl
    _ = ⟨(h x).prev, (h x).next⟩ := by
        simp only [remove, unlink, Heap.set, setPrev_prev, setPrev_next,
          setNext_prev, setNext_next, ite_self, if_neg h1, if_neg h2, if_neg h3]
    _ = h x := rfl

theorem link4_frame (h : Heap) (first e third : Nat) :
    ∀ x, x ≠ first → x ≠ e → x ≠ third → link4 h first e third x = h x := by
  intro x h1 h2 h3
  calc link4 h first e third x
      = ⟨(link4 h first e third x).prev, (link4 h first e third x).next⟩ := rfl
    _ = ⟨(h x).prev, (h x).next⟩ := by
        simp only [link4, setPrev_prev, setPrev_next, setNext_prev, setNext_next,
          if_neg h1, if_neg h2, if_neg h3]
    _ = h x := rfl

theorem mem_insertBefore_self (l : List Nat) (p e : Nat) : e ∈ insertBefore l p e := by
  induction l with
  | nil => exact List.mem_singleton.mpr rfl
  | cons x t ih =>
    simp only [insertBefore]
    split_ifs
    · exact List.mem_cons_self e (x :: t)
    · exact List.mem_cons_of_mem x ih

theorem mem_insertBefore_of_mem {a : Nat} {l : List Nat} (p e : Nat) (ha : a ∈ l) :
    a ∈ insertBefore l p e := by
  induction l with
  | nil => exact absurd ha (List.not_mem_nil a)
  | cons x t ih =>
    simp only [insertBefore]
    split_ifs
    · exact List.mem_cons_of_mem e ha
    · rcases List.mem_cons.mp ha with hh | hh
      · rw [hh]
        exact List.mem_cons_self x _
      · exact List.mem_cons_of_mem x (ih hh)

theorem mem_rmOne_of_ne {a e : Nat} {l : List Nat} (ha : a ∈ l) (hne : a ≠ e) :
    a ∈ rmOne l e := by
  induction l with
  | nil => exact absurd ha (List.not_mem_nil a)
  | cons x t ih =>
    simp only [rmOne]
    split_ifs with hx
    · rcases List.mem_cons.mp ha with hh | hh
      · exact absurd (hh.trans hx) hne
      · exact hh
    · rcases List.mem_cons.mp ha with hh | hh
      · rw [hh]
        exact List.mem_cons_self x _
      · exact List.mem_cons_of_mem x (ih hh)

theorem mem_minsert {a : Nat} {m : List Nat} (pos e : Nat) (ha : a ∈ m) :
    a ∈ minsert m pos e := by
  by_cases hg : e = pos
  · rw [minsert, if_pos hg]
    exact ha
  · rw [minsert, if_neg hg]
    by_cases hae : a = e
    · rw [hae]
      exact mem_insertBefore_self _ _ _
    · exact mem_insertBefore_of_mem _ _ (mem_rmOne_of_ne ha hae)

theorem mem_minsert_self {m : List Nat} {pos e : Nat} (hne : e ≠ pos) :
    e ∈ minsert m pos e := by
  rw [minsert, if_neg hne]
  exact mem_insertBefore_self _ _ _

theorem NodeInv_tie {h : Heap} {s : Nat} (hinv : NodeInv h) (hs0 : s ≠ 0) :
    NodeInv (tie h s) := by
  intro x
  by_cases hx : x = s
  · subst hx
    simp [tie, Heap.set]
  · have hfr : tie h s x = h x := by simp [tie, Heap.set, hx]
    rw [hfr]
    exact hinv x

theorem NodeInv_erase {h : Heap} {s a : Nat} {xs ys : List Nat}
    (hv : Valid h s (xs ++ a :: ys)) (hinv : NodeInv h) :
    NodeInv (erase h a).1 := by
  obtain ⟨hva, _, hself, _, _, hframe⟩ := erase_ok hv
  refine NodeInv_of_valid_frame hva hinv ?_
  intro x
  by_cases h1 : x = a
  · right
    left
    rw [h1]
    exact hself
  by_cases h2 : x = xs.getLastD s
  · right
    right
    rw [h2]
    exact mem_ring_left (List.getLastD_mem_cons xs s)
  by_cases h3 : x = ys.headD s
  · right
    right
    rw [h3]
    exact mem_ring_right (headD_mem_cons ys s)
  left
  exact hframe x h1 h2 h3

theorem NodeInv_insert {h : Heap} {s pos e : Nat} {zs ws : List Nat}
    (hv : Valid h s (zs ++ ws)) (hpos : pos = ws.headD s)
    (he0 : e ≠ 0) (hes : e ≠ s)
    (hmem : e ∈ zs ++ ws ∨ (h e).prev = 0)
    (hinv : NodeInv h) :
    NodeInv (insert h pos e).1 := by
  by_cases hg : e = pos ∨ e = (h pos).prev
  · have hh : (insert h pos e).1 = h := by
      rw [insert, if_pos hg]
    rw [hh]
    exact hinv
  · have hg' := not_or.mp hg
    have hv' := insert_ok_split hv hpos he0 hes hmem
    have hjun := @ring_junction _ _ zs ws hv.1
    have hjf : (h ((h pos).prev)).next = pos := by
      rw [hpos, hjun.2]
      exact hjun.1
    have htrans : ∀ y, y ∈ s :: (zs ++ ws) → y ∈ s :: minsert (zs ++ ws) pos e := by
      intro y hy
      rcases List.mem_cons.mp hy with hh | hh
      · rw [hh]
        exact List.mem_cons_self _ _
      · exact List.mem_cons_of_mem s (mem_minsert pos e hh)
    have hpos_ring : pos ∈ s :: (zs ++ ws) := by
      rw [hpos]
      exact mem_ring_right (headD_mem_cons ws s)
    have hfp_ring : (h pos).prev ∈ s :: (zs ++ ws) := (ring_mem hv.1 hpos_ring).2
    have hexp : (insert h pos e).1 =
        link4 (if is_linked h e then (remove h e).1 else h) ((h pos).prev) e
          ((h ((h pos).prev)).next) := by
      rw [insert, if_neg hg]
      rfl
    rw [hexp, hjf] at hv' ⊢
    refine NodeInv_of_valid_frame hv' hinv ?_
    intro x
    by_cases hx1 : x = e
    · right
      right
      rw [hx1]
      exact List.mem_cons_of_mem s (mem_minsert_self hg'.1)
    by_cases hx2 : x = pos
    · right
      right
      rw [hx2]
      exact htrans pos hpos_ring
    by_cases hx3 : x = (h pos).prev
    · right
      right
      rw [hx3]
      exact htrans _ hfp_ring
    by_cases hl : is_linked h e
    · have he_m : e ∈ zs ++ ws := by
        rcases hmem with hh | hh
        · exact hh
        · exfalso
          simp [is_linked, hh] at hl
      have he_ring : e ∈ s :: (zs ++ ws) := List.mem_cons_of_mem s he_m
      by_cases hx4 : x = (h e).prev
      · right
        right
        rw [hx4]
        exact htrans _ (ring_mem hv.1 he_ring).2
      by_cases hx5 : x = (h e).next
      · right
        right
        rw [hx5]
        exact htrans _ (ring_mem hv.1 he_ring).1
      left
      rw [link4_frame _ _ _ _ x hx3 hx1 hx2]
      rw [if_pos hl]
      exact remove_frame h e x hx1 hx4 hx5
    · left
      rw [link4_frame _ _ _ _ x hx3 hx1 hx2]
      rw [if_neg hl]

theorem NodeInv_step {h : Heap} {s : Nat} {m : List Nat} {op : Op}
    (hv : Valid h s m) (hp : preOp h s m op) (hinv : NodeInv h) :
    NodeInv (execOp h s op) := by
  cases op with
  | opPushBack e =>
    obtain ⟨he0, hes, hmem⟩ := hp
    exact @NodeInv_insert h s s e m [] (by rw [List.append_nil]; exact hv) rfl he0 hes
      (by rw [List.append_nil]; exact hmem) hinv
  | opPushFront e =>
    obtain ⟨he0, hes, hmem⟩ := hp
    have hnext : (h s).next = m.headD s := ring_next_s hv.1
    exact @NodeInv_insert h s ((h s).next) e [] m hv hnext he0 hes hmem hinv
  | opInsert p e =>
    obtain ⟨hpmem, he0, hes, hmem⟩ := hp
    rcases hpmem with hps | hpm
    · subst hps
      exact @NodeInv_insert h _ p e m [] (by rw [List.append_nil]; exact hv) rfl he0 hes
        (by rw [List.append_nil]; exact hmem) hinv
    · obtain ⟨zs, ws', rfl⟩ := List.append_of_mem hpm
      exact @NodeInv_insert h s p e zs (p :: ws') hv rfl he0 hes hmem hinv
  | opErase p =>
    have hpm : p ∈ m := hp
    obtain ⟨xs, ys, rfl, hpx, _⟩ :=
      nodup_mem_split (List.nodup_cons.mp hv.2.1).2 hpm
    exact NodeInv_erase hv hinv
  | opPopFront =>
    have hne : m ≠ [] := hp
    cases m with
    | nil => exact absurd rfl hne
    | cons a t =>
      have hnext : (h s).next = a := by
        have := ring_next_s hv.1
        simpa using this
      show NodeInv (erase h ((h s).next)).1
      rw [hnext]
      exact @NodeInv_erase h s a [] t hv hinv
  | opPopBack =>
    have hne : m ≠ [] := hp
    have hprev : (h s).prev = m.getLastD s := ring_prev_s hv.1
    have hlast : m.getLastD s = m.getLast hne := getLastD_eq_getLast hne s
    have hsplit : m.dropLast ++ m.getLast hne :: [] = m := by
      simpa using List.dropLast_append_getLast hne
    have hv' : Valid h s (m.dropLast ++ m.getLast hne :: []) := by
      rw [hsplit]
      exact hv
    show NodeInv (erase h ((h s).prev)).1
    rw [hprev, hlast]
    exact NodeInv_erase hv' hinv

theorem NodeInv_splice_cross {h : Heap} {s1 s2 other pos first second : Nat}
    {c d u r v : List Nat}
    (hv1 : Valid h s1 (c ++ d)) (hv2 : Valid h s2 (u ++ (r ++ v)))
    (hdisj : ∀ x ∈ s2 :: (u ++ (r ++ v)), x ∉ s1 :: (c ++ d))
    (hrne : r ≠ [])
    (hpos : pos = d.headD s1) (hfirst : first = r.headD 0)
    (hsecond : second = v.headD s2)
    (hinv : NodeInv h) :
    NodeInv (splice h pos other first second) := by
  obtain ⟨g1, g2, g3⟩ := splice_cross_ok hv1 hv2 hdisj hrne hpos hfirst hsecond
  refine NodeInv_of_valid_frame2 g1 g2 hinv ?_
  have hfirst_r : first ∈ r := by
    rw [hfirst]
    cases r with
    | nil => exact absurd rfl hrne
    | cons a t => exact List.mem_cons_self a t
  have hfirst_ring : first ∈ s2 :: (u ++ (r ++ v)) :=
    List.mem_cons_of_mem s2 (List.mem_append_right u (List.mem_append_left v hfirst_r))
  have hsec_ring : second ∈ s2 :: (u ++ (r ++ v)) := by
    rw [hsecond]
    rcases List.mem_cons.mp (headD_mem_cons v s2) with hh | hh
    · rw [hh]
      exact List.mem_cons_self _ _
    · exact List.mem_cons_of_mem s2 (List.mem_append_right u (List.mem_append_right r hh))
  have hpos_ring : pos ∈ s1 :: (c ++ d) := by
    rw [hpos]
    exact mem_ring_right (headD_mem_cons d s1)
  have htrans1 : ∀ y, y ∈ s1 :: (c ++ d) → y ∈ s1 :: (c ++ (r ++ d)) := by
    intro y hy
    rcases List.mem_cons.mp hy with hh | hh
    · rw [hh]
      exact List.mem_cons_self _ _
    · rcases List.mem_append.mp hh with hh2 | hh2
      · exact List.mem_cons_of_mem s1 (List.mem_append_left _ hh2)
      · exact List.mem_cons_of_mem s1 (List.mem_append_right c (List.mem_append_right r hh2))
  have htrans2 : ∀ y, y ∈ s2 :: (u ++ (r ++ v)) →
      y ∈ s1 :: (c ++ (r ++ d)) ∨ y ∈ s2 :: (u ++ v) := by
    intro y hy
    rcases List.mem_cons.mp hy with hh | hh
    · right
      rw [hh]
      exact List.mem_cons_self _ _
    · rcases List.mem_append.mp hh with hh2 | hh2
      · right
        exact List.mem_cons_of_mem s2 (List.mem_append_left v hh2)
      · rcases List.mem_append.mp hh2 with hh3 | hh3
        · left
          exact List.mem_cons_of_mem s1 (List.mem_append_right c (List.mem_append_left d hh3))
        · right
          exact List.mem_cons_of_mem s2 (List.mem_append_right u hh3)
  intro x
  by_cases h1 : x = first
  · rw [h1]
    rcases htrans2 first hfirst_ring with hh | hh
    · right; right; left; exact hh
    · right; right; right; exact hh
  by_cases h2 : x = second
  · rw [h2]
    rcases htrans2 second hsec_ring with hh | hh
    · right; right; left; exact hh
    · right; right; right; exact hh
  by_cases h3 : x = pos
  · right; right; left
    rw [h3]
    exact htrans1 pos hpos_ring
  by_cases h4 : x = (h first).prev
  · rw [h4]
    rcases htrans2 _ (ring_mem hv2.1 hfirst_ring).2 with hh | hh
    · right; right; left; exact hh
    · right; right; right; exact hh
  by_cases h5 : x = (h pos).prev
  · right; right; left
    rw [h5]
    exact htrans1 _ (ring_mem hv1.1 hpos_ring).2
  by_cases h6 : x = (h second).prev
  · rw [h6]
    rcases htrans2 _ (ring_mem hv2.1 hsec_ring).2 with hh | hh
    · right; right; left; exact hh
    · right; right; right; exact hh
  left
  exact g3 x h1 h2 h3 h4 h5 h6

theorem NodeInv_base_destruct {h : Heap} {s a : Nat} {xs ys : List Nat}
    (hv : Valid h s (xs ++ a :: ys)) (hinv : NodeInv h) :
    NodeInv (base_destruct h a) := by
  rw [base_destruct_eq_erase hv]
  exact NodeInv_erase hv hinv

theorem NodeInv_base_destruct_unlinked {h : Heap} {a : Nat}
    (hp : (h a).prev = 0) (hinv : NodeInv h) :
    NodeInv (base_destruct h a) := by
  have hexp : base_destruct h a = unlink h a := by
    show unlink (if is_linked h a then (remove h a).1 else h) a = unlink h a
    rw [show is_linked h a = false by simp [is_linked, hp]]
    simp
  rw [hexp]
  intro x
  by_cases hx : x = a
  · subst hx
    simp [unlink, Heap.set]
  · have hfr : unlink h a x = h x := by simp [unlink, Heap.set, hx]
    rw [hfr]
    exact hinv x

theorem NodeInv_base_move {h : Heap} {s src dst : Nat} {xs ys : List Nat}
    (hv : Valid h s (xs ++ src :: ys)) (hd : dst ∉ s :: (xs ++ src :: ys))
    (hd0 : dst ≠ 0) (hinv : NodeInv h) :
    NodeInv (base_move h src dst) := by
  rw [base_move_eq hv hd hd0]
  obtain ⟨hva, _, hself, _, _, hframe⟩ := erase_ok hv
  obtain ⟨haxs, hays, _, _, _, _⟩ := ring_nodup_facts hv.2.1
  have hsrc_ring : src ∈ s :: (xs ++ src :: ys) :=
    List.mem_cons_of_mem s (List.mem_append_right xs (List.mem_cons_self src ys))
  have hd_notin : dst ∉ s :: (xs ++ ys) := by
    intro hh
    apply hd
    rcases List.mem_cons.mp hh with h2 | h2
    · rw [h2]
      exact List.mem_cons_self _ _
    · rcases List.mem_append.mp h2 with h3 | h3
      · exact List.mem_cons_of_mem s (List.mem_append_left _ h3)
      · exact List.mem_cons_of_mem s (List.mem_append_right _ (List.mem_cons_of_mem src h3))
  have hlk := @link_ok (erase h src).1 s dst xs ys hva hd_notin hd0
  have hsrc_pp : src ≠ xs.getLastD s := fun hh =>
    haxs (by rw [hh]; exact List.getLastD_mem_cons xs s)
  have hsrc_nn : src ≠ ys.headD s := fun hh =>
    hays (by rw [hh]; exact headD_mem_cons ys s)
  have hsrc_dst : src ≠ dst := fun hh => hd (by rw [← hh]; exact hsrc_ring)
  refine NodeInv_of_valid_frame hlk.1 hinv ?_
  intro x
  by_cases h1 : x = src
  · right
    left
    rw [h1]
    rw [link4_frame _ _ _ _ src hsrc_pp hsrc_dst hsrc_nn]
    exact hself
  by_cases h2 : x = dst
  · right
    right
    rw [h2]
    exact List.mem_cons_of_mem s (List.mem_append_right xs (List.mem_cons_self dst ys))
  by_cases h3 : x = xs.getLastD s
  · right
    right
    rw [h3]
    exact mem_ring_left (List.getLastD_mem_cons xs s)
  by_cases h4 : x = ys.headD s
  · right
    right
    rw [h4]
    rcases List.mem_cons.mp (headD_mem_cons ys s) with hh | hh
    · rw [hh]
      exact List.mem_cons_self _ _
    · exact List.mem_cons_of_mem s (List.mem_append_right xs (List.mem_cons_of_mem dst hh))
  left
  rw [link4_frame _ _ _ _ x h3 h2 h4]
  exact hframe x h1 h3 h4

theorem NodeInv_list_move {h : Heap} {s os : Nat} {m : List Nat}
    (hv : Valid h os m) (hs0 : s ≠ 0) (hsm : s ∉ os :: m)
    (hsprev : (h s).prev = 0) (hinv : NodeInv h) :
    NodeInv (list_move h s os) := by
  by_cases hemp : empty h os
  · rw [list_move, if_pos hemp]
    exact NodeInv_tie hinv hs0
  · rw [list_move, if_neg hemp]
    have hmne : m ≠ [] := by
      intro hh
      subst hh
      have h1 : (h os).next = os := hv.1.1
      exact hemp (by simp [empty, h1])
    obtain ⟨m0, mt, rfl⟩ : ∃ a t, m = a :: t := by
      cases m with
      | nil => exact absurd rfl hmne
      | cons a t => exact ⟨a, t, rfl⟩
    have hz := hv.2.2
    have hos0 : os ≠ 0 := by
      intro hh
      exact hz (by rw [← hh]; exact List.mem_cons_self _ _)
    have hosm : os ∉ m0 :: mt := (List.nodup_cons.mp hv.2.1).1
    have hprev_os : (h os).prev = (m0 :: mt).getLastD os := ring_prev_s hv.1
    have hnext_os : (h os).next = m0 := by
      have := ring_next_s hv.1
      simpa using this
    have hL_mem : (m0 :: mt).getLastD os ∈ m0 :: mt := by
      rw [List.getLastD_cons]
      exact List.getLastD_mem_cons mt m0
    have hL_ne_os : (m0 :: mt).getLastD os ≠ os := fun hh => hosm (hh ▸ hL_mem)
    have hs_ne_os : s ≠ os := fun hh => hsm (by rw [hh]; exact List.mem_cons_self _ _)
    have hs_ne_m0 : s ≠ m0 := fun hh =>
      hsm (by rw [hh]; exact List.mem_cons_of_mem os (List.mem_cons_self m0 mt))
    have hs_ne_L : s ≠ (m0 :: mt).getLastD os := fun hh =>
      hsm (by rw [hh]; exact List.mem_cons_of_mem os hL_mem)
    have hm0_nz : m0 ≠ 0 := fun hh =>
      hz (by rw [← hh]; exact List.mem_cons_of_mem os (List.mem_cons_self m0 mt))
    have hL_nz : (m0 :: mt).getLastD os ≠ 0 := fun hh =>
      hz (by rw [← hh]; exact List.mem_cons_of_mem os hL_mem)
    have hap : (h os).prev ≠ os := by
      rw [hprev_os]
      exact hL_ne_os
    have hrw := @remove_fst_apply h os hap
    rw [hprev_os, hnext_os] at hrw
    have h1s : (remove h os).1 s = h s := by
      rw [hrw s, if_neg hs_ne_os, if_neg hs_ne_m0, if_neg hs_ne_L]
    have hlink_s : is_linked (remove h os).1 s = false := by
      simp [is_linked, h1s, hsprev]
    have h1L : ((remove h os).1 ((m0 :: mt).getLastD os)).next = m0 := by
      rw [hrw _, if_neg hL_ne_os]
      dsimp only
      rw [if_pos rfl]
    have hexp : (insert_after (remove h os).1 ((h os).prev) s).1 =
        link4 (remove h os).1 ((m0 :: mt).getLastD os) s m0 := by
      have e1 : (insert_after (remove h os).1 ((h os).prev) s).1 =
          link4
            (if is_linked (remove h os).1 s then (remove (remove h os).1 s).1
              else (remove h os).1)
            ((h os).prev) s (((remove h os).1 ((h os).prev)).next) := rfl
      rw [e1, hlink_s, hprev_os, h1L]
      simp
    show NodeInv (tie (insert_after (remove h os).1 ((h os).prev) s).1 os)
    rw [hexp]
    have hlw := @link4_apply (remove h os).1 ((m0 :: mt).getLastD os) s m0 hs_ne_L hs_ne_m0
    intro x
    by_cases hx_os : x = os
    · have htieos :
          tie (link4 (remove h os).1 ((m0 :: mt).getLastD os) s m0) os x = ⟨os, os⟩ := by
        simp [tie, Heap.set, hx_os]
      rw [htieos]
    · have htie : tie (link4 (remove h os).1 ((m0 :: mt).getLastD os) s m0) os x =
          link4 (remove h os).1 ((m0 :: mt).getLastD os) s m0 x := by
        simp [tie, Heap.set, hx_os]
      rw [htie, hlw x]
      by_cases hx_s : x = s
      · rw [if_pos hx_s]
        dsimp only
        constructor <;> intro h0
        · exact absurd h0 hL_nz
        · exact absurd h0 hm0_nz
      · rw [if_neg hx_s]
        dsimp only
        rw [hrw x, if_neg hx_os]
        dsimp only
        by_cases hx_m0 : x = m0
        · by_cases hx_L : x = (m0 :: mt).getLastD os
          · rw [if_pos hx_m0, if_pos hx_L]
          · rw [if_pos hx_m0, if_neg hx_L, if_neg hx_L]
            have hxr : x ∈ os :: m0 :: mt := by
              rw [hx_m0]
              exact List.mem_cons_of_mem os (List.mem_cons_self m0 mt)
            have hnz := ring_fields_nonzero hv hxr
            exact ⟨fun h0 => absurd h0 hs0, fun h0 => absurd h0 hnz.2⟩
        · by_cases hx_L : x = (m0 :: mt).getLastD os
          · rw [if_neg hx_m0, if_neg hx_m0, if_pos hx_L]
            have hxr : x ∈ os :: m0 :: mt := by
              rw [hx_L]
              exact List.mem_cons_of_mem os hL_mem
            have hnz := ring_fields_nonzero hv hxr
            exact ⟨fun h0 => absurd h0 hnz.1, fun h0 => absurd h0 hs0⟩
          · rw [if_neg hx_m0, if_neg hx_m0, if_neg hx_L, if_neg hx_L]
            exact hinv x

/-- C9: every public operation — construction (`tie`), the six list
operations, `splice`, `move`, and destruction (including the
move-constructor of a node) — preserves the invariant that `prev` and
`next` are simultaneously null or simultaneously non-null; consequently
`is_linked`, which inspects only `prev`, reports exactly whether the
node holds any neighbour reference. -/
theorem claim_C9_invariant :
    NodeInv h0 ∧
    (∀ (h : Heap) (s : Nat), NodeInv h → s ≠ 0 → NodeInv (tie h s)) ∧
    (∀ (h : Heap) (s : Nat) (m : List Nat) (op : Op),
      Valid h s m → preOp h s m op → NodeInv h → NodeInv (execOp h s op)) ∧
    (∀ (h : Heap) (s1 s2 other pos first second : Nat) (c d u r v : List Nat),
      Valid h s1 (c ++ d) → Valid h s2 (u ++ (r ++ v)) →
      (∀ x ∈ s2 :: (u ++ (r ++ v)), x ∉ s1 :: (c ++ d)) →
      r ≠ [] → pos = d.headD s1 → first = r.headD 0 → second = v.headD s2 →
      NodeInv h → NodeInv (splice h pos other first second)) ∧
    (∀ (h : Heap) (s os : Nat) (m : List Nat),
      Valid h os m → s ≠ 0 → s ∉ os :: m → (h s).prev = 0 → NodeInv h →
      NodeInv (list_move h s os)) ∧
    (∀ (h : Heap) (s a : Nat) (xs ys : List Nat),
      Valid h s (xs ++ a :: ys) → NodeInv h → NodeInv (base_destruct h a)) ∧
    (∀ (h : Heap) (a : Nat), (h a).prev = 0 → NodeInv h → NodeInv (base_destruct h a)) ∧
    (∀ (h : Heap) (s src dst : Nat) (xs ys : List Nat),
      Valid h s (xs ++ src :: ys) → dst ∉ s :: (xs ++ src :: ys) → dst ≠ 0 →
      NodeInv h → NodeInv (base_move h src dst)) ∧
    (∀ (h : Heap) (x : Nat), NodeInv h →
      (is_linked h x = true ↔ ((h x).prev ≠ 0 ∨ (h x).next ≠ 0))) := by
  refine ⟨fun _ => Iff.rfl, ?_, ?_, ?_, ?_, ?_, ?_, ?_, ?_⟩
  · intro h s hinv hs0
    exact NodeInv_tie hinv hs0
  · intro h s m op hv hp hinv
    exact NodeInv_step hv hp hinv
  · intro h s1 s2 other pos first second c d u r v hv1 hv2 hdisj hrne hpos hfirst hsecond hinv
    exact NodeInv_splice_cross hv1 hv2 hdisj hrne hpos hfirst hsecond hinv
  · intro h s os m hv hs0 hsm hsprev hinv
    exact NodeInv_list_move hv hs0 hsm hsprev hinv
  · intro h s a xs ys hv hinv
    exact NodeInv_base_destruct hv hinv
  · intro h a hp hinv
    exact NodeInv_base_destruct_unlinked hp hinv
  · intro h s src dst xs ys hv hd hd0 hinv
    exact NodeInv_base_move hv hd hd0 hinv
  · intro h x hinv
    constructor
    · intro hl
      left
      simpa [is_linked] using hl
    · intro hor
      have hp : (h x).prev ≠ 0 := by
        rcases hor with hp | hn
        · exact hp
        · intro h0
          exact hn ((hinv x).mp h0)
      simpa [is_linked] using hp

/-- Witness for C9: the invariant holds after pushing element 2 onto the
freshly tied list, and `is_linked` answers correctly on the tied
sentinel. -/
theorem claim_C9_invariant_witness :
    NodeInv (execOp hInit 1 (.opPushBack 2)) ∧
    (is_linked hInit 1 = true ↔ ((hInit 1).prev ≠ 0 ∨ (hInit 1).next ≠ 0)) := by
  have hinv0 : NodeInv hInit := by
    intro x
    by_cases hx : x = 1
    · subst hx
      simp [hInit, tie, h0, Heap.set]
    · simp [hInit, tie, h0, Heap.set, hx]
  exact ⟨claim_C9_invariant.2.2.1 hInit 1 [] (.opPushBack 2) (by decide) (by decide) hinv0,
    claim_C9_invariant.2.2.2.2.2.2.2.2 hInit 1 hinv0⟩

/-- C10: the resulting node topology of `splice(position, otherList,
begin, end)` is independent of which list object is passed as the
(unnamed, unused) `list&` argument: two calls differing only in that
argument produce identical heaps. -/
theorem claim_C10_other_irrelevant :
    ∀ (h : Heap) (pos o1 o2 first second : Nat),
      splice h pos o1 first second = splice h pos o2 first second := by
  intro h pos o1 o2 first second
  rfl

end intrusive
